import Mathlib

/-!
# Verification of the bustub-2020 storage/concurrency core

Shallow embedding of the repository's buffer pool (LRU replacer, buffer pool
manager), B+-tree pages and tree operations, index iterator, and lock manager,
with theorems settling the specification claims.

Keys are modelled as `Int` (the `GenericComparator` total order), record ids
and values as `Nat`, page ids as `Int` with `-1` for `INVALID_PAGE_ID`.
-/

namespace Bustub

/-! ## LRU replacer (src/buffer/lru_replacer.cpp)

State: `lru_list_` is kept front-to-back (C++ `push_front` = `List.cons`,
`back` = `List.getLast?`).  The iterator map `lru_map_` only serves membership
tests, so it is represented by membership in the list itself. -/

structure LRUReplacer where
  maxPageNumber : Nat
  lruList : List Nat
  deriving Repr, DecidableEq

namespace LRUReplacer

/-- `LRUReplacer::Victim`: fails on an empty list, else removes and returns
the back of the recency list. -/
def victim (s : LRUReplacer) : Option Nat × LRUReplacer :=
  match s.lruList.getLast? with
  | none => (none, s)
  | some f => (some f, { s with lruList := s.lruList.dropLast })

/-- `LRUReplacer::Pin`: erase the frame from the list if present. -/
def pin (s : LRUReplacer) (f : Nat) : LRUReplacer :=
  if f ∈ s.lruList then { s with lruList := s.lruList.erase f } else s

/-- `LRUReplacer::Unpin`: a no-op if the frame is present or the list is at
capacity, else push the frame to the front. -/
def unpin (s : LRUReplacer) (f : Nat) : LRUReplacer :=
  if f ∈ s.lruList then s
  else if s.maxPageNumber = s.lruList.length then s
  else { s with lruList := f :: s.lruList }

/-- `LRUReplacer::Size`. -/
def size (s : LRUReplacer) : Nat := s.lruList.length

/-- The sequence of frames a run of `Victim` calls would return, first first. -/
def drain (s : LRUReplacer) : List Nat := s.lruList.reverse

theorem victim_drain (s : LRUReplacer) :
    (s.victim).1 = s.drain.head? := by
  unfold victim drain
  rw [List.head?_reverse]
  cases h : s.lruList.getLast? <;> simp

end LRUReplacer

/-! ### Claim C5 — LRU replacer ordering

The claim's recency law fails as stated: `Unpin` is a no-op when the frame is
already present (or the list is at capacity), so from a state in which `a` and
`b` are already resident with `b` older, `Unpin(a); Unpin(b); Victim` returns
`b` first.  With the proviso that neither frame is resident and capacity
admits both, the law holds. -/

/-- C5 counterexample: start from the empty replacer of capacity 2 and unpin
frame `2` then frame `1`, giving recency list `[1, 2]`.  Now run the claim's
sequence with `a = 1`, `b = 2`: both `Unpin` calls are no-ops, and the victim
sequence is `[2, 1]` — `Victim` returns `b = 2` before `a = 1`, contradicting
the claimed `a`-before-`b` order. -/
theorem claimC5_counterexample :
    (((((LRUReplacer.mk 2 []).unpin 2).unpin 1).unpin 1).unpin 2).drain = [2, 1] ∧
    (((((LRUReplacer.mk 2 []).unpin 2).unpin 1).unpin 1).unpin 2).victim.1 = some 2 := by
  constructor <;> rfl

/-- C5 (amended): `Victim` fails exactly when the replacer is empty and
otherwise removes and returns the least-recently-unpinned frame (the head of
the drain sequence); and given `Unpin(a)` then `Unpin(b)` with no intervening
`Pin`, where neither frame is already in the replacer and the capacity admits
both, the subsequent victim sequence yields `a` strictly before `b`. -/
theorem claimC5 (s : LRUReplacer) (a b : Nat)
    (ha : a ∉ s.lruList) (hb : b ∉ s.lruList) (hab : a ≠ b)
    (hcap : s.lruList.length + 2 ≤ s.maxPageNumber) :
    ((s.victim).1 = none ↔ s.lruList = []) ∧
    ((s.unpin a).unpin b).drain = s.drain ++ [a, b] := by
  refine ⟨?_, ?_⟩
  · unfold LRUReplacer.victim
    cases hl : s.lruList with
    | nil => simp [hl]
    | cons x xs =>
      have h : (x :: xs).getLast?.isSome := by
        rw [List.getLast?_isSome]
        simp
      cases hg : (x :: xs).getLast? with
      | none => rw [hg] at h; simp at h
      | some v => simp [hg, hl]
  · have h1 : s.unpin a = { s with lruList := a :: s.lruList } := by
      unfold LRUReplacer.unpin
      rw [if_neg ha, if_neg (by omega)]
    have h2 : b ∉ a :: s.lruList := by
      simp only [List.mem_cons, not_or]
      exact ⟨fun h => hab h.symm, hb⟩
    have h3 : (s.unpin a).unpin b = { s with lruList := b :: a :: s.lruList } := by
      rw [h1]
      unfold LRUReplacer.unpin
      rw [if_neg h2, if_neg (by simp; omega)]
    rw [h3]
    unfold LRUReplacer.drain
    simp

/-- Witness for C5 at the concrete replacer `⟨3, [5]⟩`, `a = 1`, `b = 2`. -/
theorem claimC5_witness :
    (((LRUReplacer.mk 3 [5]).victim).1 = none ↔ ([5] : List Nat) = []) ∧
    (((LRUReplacer.mk 3 [5]).unpin 1).unpin 2).drain = [5, 1, 2] :=
  claimC5 (LRUReplacer.mk 3 [5]) 1 2 (by decide) (by decide) (by decide) (by decide)

/-! ## Buffer pool manager (src/buffer/buffer_pool_manager.cpp)

`pages_` is the frame array, `page_table_` the page-id → frame-id map
(an association list here), `free_list_` a list popped from the back,
`disk` the disk manager's byte store, abstracted to one `Nat` per page.
Disk traffic is reported as a trace of `DiskOp`s. -/

inductive DiskOp where
  | read (pid : Int)
  | write (pid : Int)
  deriving Repr, DecidableEq

structure Page where
  pageId : Int
  pinCount : Nat
  isDirty : Bool
  data : Nat
  deriving Repr, DecidableEq, Inhabited

structure BPM where
  poolSize : Nat
  pages : List Page
  pageTable : List (Int × Nat)
  freeList : List Nat
  replacer : LRUReplacer
  disk : Int → Nat

namespace BPM

/-- `BufferPoolManager::Victim`: pop the back of the free list if nonempty,
else ask the replacer. -/
def victimFrame (s : BPM) : Option Nat × BPM :=
  match s.freeList.getLast? with
  | some f => (some f, { s with freeList := s.freeList.dropLast })
  | none =>
    let r := s.replacer.victim
    (r.1, { s with replacer := r.2 })

/-- `BufferPoolManager::ChangePage`: flush the old page if dirty, move the
page-table mapping, and reset the frame for `newPid`. -/
def changePage (s : BPM) (fid : Nat) (newPid : Int) : BPM × List DiskOp :=
  let p := s.pages.getD fid default
  let (disk', ops) :=
    if p.isDirty then (Function.update s.disk p.pageId p.data, [DiskOp.write p.pageId])
    else (s.disk, [])
  let pt := s.pageTable.filter (fun e => e.1 ≠ p.pageId)
  let pt := if newPid ≠ -1 then (newPid, fid) :: pt else pt
  ({ s with disk := disk',
            pageTable := pt,
            pages := s.pages.set fid { pageId := newPid, pinCount := 0, isDirty := false, data := 0 } },
   ops)

/-- `BufferPoolManager::FetchPageImpl`. -/
def fetchPageImpl (s : BPM) (pid : Int) : Option Nat × BPM × List DiskOp :=
  match s.pageTable.lookup pid with
  | some fid =>
    let p := s.pages.getD fid default
    (some fid,
     { s with pages := s.pages.set fid { p with pinCount := p.pinCount + 1 },
              replacer := s.replacer.pin fid },
     [])
  | none =>
    match s.victimFrame with
    | (none, s') => (none, s', [])
    | (some fid, s') =>
      let (s'', ops) := s'.changePage fid pid
      let p := s''.pages.getD fid default
      (some fid,
       { s'' with pages := s''.pages.set fid { p with pinCount := 1, data := s''.disk pid },
                  replacer := s''.replacer.pin fid },
       ops ++ [DiskOp.read pid])

end BPM

/-! ### Claim C10 — fetching a resident page -/

/-- C10: if `pid` is in the page table, `FetchPageImpl` succeeds and returns
that frame, incrementing its pin count by one and removing the frame from the
replacer; the page table, free list, disk contents, the page's id, dirty flag
and data are unchanged, and no disk operation is performed. -/
theorem claimC10 (s : BPM) (pid : Int) (fid : Nat)
    (h : s.pageTable.lookup pid = some fid) (hfid : fid < s.pages.length) :
    ∃ s', s.fetchPageImpl pid = (some fid, s', []) ∧
      s'.pageTable = s.pageTable ∧
      s'.freeList = s.freeList ∧
      s'.disk = s.disk ∧
      s'.replacer = s.replacer.pin fid ∧
      (s'.pages.getD fid default).pinCount = (s.pages.getD fid default).pinCount + 1 ∧
      (s'.pages.getD fid default).pageId = (s.pages.getD fid default).pageId ∧
      (s'.pages.getD fid default).isDirty = (s.pages.getD fid default).isDirty ∧
      (s'.pages.getD fid default).data = (s.pages.getD fid default).data ∧
      (∀ g, g ≠ fid → s'.pages.getD g default = s.pages.getD g default) := by
  refine ⟨{ s with
      pages := s.pages.set fid
        { s.pages.getD fid default with pinCount := (s.pages.getD fid default).pinCount + 1 },
      replacer := s.replacer.pin fid }, ?_, rfl, rfl, rfl, rfl, ?_, ?_, ?_, ?_, ?_⟩
  · unfold BPM.fetchPageImpl
    rw [h]
  · simp [List.getD_eq_getElem?_getD, List.getElem?_set, hfid]
  · simp [List.getD_eq_getElem?_getD, List.getElem?_set, hfid]
  · simp [List.getD_eq_getElem?_getD, List.getElem?_set, hfid]
  · simp [List.getD_eq_getElem?_getD, List.getElem?_set, hfid]
  · intro g hg
    simp [List.getD_eq_getElem?_getD, List.getElem?_set, Ne.symm hg]

/-- Witness for C10 at a concrete one-frame pool holding page 7. -/
theorem claimC10_witness :
    ∃ s', (BPM.mk 1 [Page.mk 7 2 true 42] [(7, 0)] [] (LRUReplacer.mk 1 []) (fun _ => 0)).fetchPageImpl 7
        = (some 0, s', []) ∧
      s'.pageTable = [(7, 0)] ∧
      s'.freeList = [] ∧
      s'.disk = (fun _ => 0) ∧
      s'.replacer = (LRUReplacer.mk 1 []).pin 0 ∧
      (s'.pages.getD 0 default).pinCount = 3 ∧
      (s'.pages.getD 0 default).pageId = 7 ∧
      (s'.pages.getD 0 default).isDirty = true ∧
      (s'.pages.getD 0 default).data = 42 ∧
      (∀ g, g ≠ 0 → s'.pages.getD g default
        = (BPM.mk 1 [Page.mk 7 2 true 42] [(7, 0)] [] (LRUReplacer.mk 1 []) (fun _ => 0)).pages.getD g default) := by
  have := claimC10 (BPM.mk 1 [Page.mk 7 2 true 42] [(7, 0)] [] (LRUReplacer.mk 1 []) (fun _ => 0)) 7 0
    (by rfl) (by decide)
  simpa using this

/-! ## B+-tree pages

A tree page is a leaf (sorted key/value pairs plus a right-sibling link) or an
internal page (key/child pairs whose slot-0 key is an unused sentinel).  The
page store maps page ids to pages; `-1` is `INVALID_PAGE_ID`. -/

inductive Node where
  | leaf (parent : Int) (maxSize : Nat) (kvs : List (Int × Nat)) (next : Int)
  | internal (parent : Int) (maxSize : Nat) (kcs : List (Int × Int))
  deriving Repr, DecidableEq, Inhabited

abbrev Store := Int → Option Node

/-! ### Internal page primitives (src/storage/page/b_plus_tree_internal_page.cpp) -/

/-- `BPlusTreeInternalPage::ValueIndex`: first index whose child equals
`v`, else `-1`. -/
def valueIndex (kcs : List (Int × Int)) (v : Int) : Int :=
  go 0 kcs
where
  go (i : Int) : List (Int × Int) → Int
    | [] => -1
    | e :: r => if e.2 = v then i else go (i + 1) r

/-- `BPlusTreeInternalPage::Lookup`: scan keys from slot 1; on the first key
strictly greater than `k` return the previous slot's child, else the last
child.  An empty page yields the invalid page id (the C++ reads out of
bounds). -/
def internalLookup (kcs : List (Int × Int)) (k : Int) : Int :=
  match kcs with
  | [] => -1
  | e :: r => go e.2 r
where
  go (prev : Int) : List (Int × Int) → Int
    | [] => prev
    | (ki, ci) :: r => if k < ki then prev else go ci r

/-- `BPlusTreeInternalPage::PopulateNewRoot`: the new root holds the old
child at slot 0 (sentinel key, modelled as `0`) and the new pair at slot 1. -/
def populateNewRoot (old : Int) (k : Int) (new : Int) : List (Int × Int) :=
  [(0, old), (k, new)]

/-- `BPlusTreeInternalPage::InsertNodeAfter`: insert `(k, newV)` right after
the entry whose child is `oldV` (the C++ asserts that `oldV` is present). -/
def insertNodeAfter (kcs : List (Int × Int)) (oldV k newV : Int) : List (Int × Int) :=
  match kcs with
  | [] => []
  | e :: r => if e.2 = oldV then e :: (k, newV) :: r else e :: insertNodeAfter r oldV k newV

/-- `BPlusTreeInternalPage::Remove`, translated faithfully: the shift loop's
body is `array[index] = array[index + 1]` for every iteration (the C++ uses
`index`, not the loop variable `i`), so when at least one iteration runs only
the slot at `index` is overwritten and the size is decremented. -/
def internalRemove (kcs : List (Int × Int)) (index : Nat) : List (Int × Int) :=
  if index + 1 < kcs.length then
    kcs.take index ++ kcs.getD (index + 1) (0, 0) :: (kcs.drop (index + 1)).dropLast
  else
    kcs.dropLast

/-- `BPlusTreeInternalPage::RemoveAndReturnOnlyChild`: size becomes 0 and the
slot-0 child is returned. -/
def removeAndReturnOnlyChild (kcs : List (Int × Int)) : Int :=
  (kcs.headD (0, -1)).2

/-! ### Claim C2 — internal page `Remove` -/

/-- C2 (refuting evaluation): on the internal page holding the four pairs
below, `Remove 1` produces `[(10,100), (30,300), (30,300)]` — the pair
`(40,400)` is lost, `(30,300)` is duplicated, the result is not the claimed
contiguous removal, and the keys are no longer strictly ascending. -/
theorem claimC2_bug :
    internalRemove [(10, 100), (20, 200), (30, 300), (40, 400)] 1
      = [(10, 100), (30, 300), (30, 300)] ∧
    internalRemove [(10, 100), (20, 200), (30, 300), (40, 400)] 1
      ≠ [(10, 100), (30, 300), (40, 400)] ∧
    ¬ List.Chain' (· < ·)
      ((internalRemove [(10, 100), (20, 200), (30, 300), (40, 400)] 1).map Prod.fst) := by
  refine ⟨rfl, by decide, ?_⟩
  intro hch
  have h1 : ((internalRemove [(10, 100), (20, 200), (30, 300), (40, 400)] 1).map Prod.fst)
      = [10, 30, 30] := rfl
  rw [h1] at hch
  simp [List.chain'_cons] at hch

/-! ### Leaf page primitives

Modelled from the spec: `b_plus_tree_leaf_page.cpp` is not part of the
repository snapshot (only its callers are), so `KeyIndex`, `Lookup`,
`Insert`, `Remove` and the move helpers follow the spec's §4.3: `KeyIndex`
returns the first index whose key is ≥ the probe (else −1), `Insert`
maintains ascending order, `Remove` deletes the indexed pair keeping the rest
contiguous. -/

/-- Modelled from the spec: `BPlusTreeLeafPage::KeyIndex`. -/
def leafKeyIndex (kvs : List (Int × Nat)) (k : Int) : Int :=
  go 0 kvs
where
  go (i : Int) : List (Int × Nat) → Int
    | [] => -1
    | (a, _) :: r => if k ≤ a then i else go (i + 1) r

/-- Modelled from the spec: `BPlusTreeLeafPage::Lookup`. -/
def leafLookup (kvs : List (Int × Nat)) (k : Int) : Option Nat :=
  (kvs.find? (fun e => e.1 == k)).map (·.2)

/-- Modelled from the spec: `BPlusTreeLeafPage::Insert` (order-preserving
insertion; the tree layer never inserts a key that is already present). -/
def leafInsert (kvs : List (Int × Nat)) (k : Int) (v : Nat) : List (Int × Nat) :=
  match kvs with
  | [] => [(k, v)]
  | (a, b) :: r => if k < a then (k, v) :: (a, b) :: r else (a, b) :: leafInsert r k v

/-- Modelled from the spec: `BPlusTreeLeafPage::Remove` (contiguous removal
of the pair at `index`). -/
def leafRemoveAt (kvs : List (Int × Nat)) (index : Nat) : List (Int × Nat) :=
  kvs.eraseIdx index

/-! ## Index iterator (src/storage/index/index_iterator.cpp)

The iterator carries the borrowed page pointer (`page_`, here the page id it
points at or `none` for null), the cached `page_id_` and the in-page index.
The end iterator is `⟨none, -1, -1⟩`. -/

structure IterState where
  page : Option Int
  pageId : Int
  index : Int
  deriving Repr, DecidableEq

/-- The default-constructed end iterator. -/
def endIter : IterState := ⟨none, -1, -1⟩

/-- `IndexIterator::isEnd`. -/
def IterState.isEnd (it : IterState) : Prop := it.pageId = -1

inductive IterError where
  | outOfRange
  | badPage
  deriving Repr, DecidableEq

/-- `IndexIterator::operator*`: out-of-range error on a `-1` index or a null
page pointer, else the leaf's pair at the index. -/
def iterDeref (s : Store) (it : IterState) : Except IterError (Int × Nat) :=
  if it.index = -1 ∨ it.page = none then .error .outOfRange
  else match it.page with
    | none => .error .outOfRange
    | some pid =>
      match s pid with
      | some (Node.leaf _ _ kvs _) => .ok (kvs.getD it.index.toNat (0, 0))
      | _ => .error .badPage

/-- `IndexIterator::operator++`: a no-op on the end iterator; otherwise step
within the leaf, moving to the next leaf (or to the end iterator) when
falling off its last index.  `none` models the C++ crashing on a dangling
page pointer. -/
def iterIncr (s : Store) (it : IterState) : Option IterState :=
  if it.pageId = -1 then some it
  else match it.page with
    | none => none
    | some pid =>
      match s pid with
      | some (Node.leaf _ _ kvs next) =>
        if (kvs.length : Int) - 1 ≤ it.index then
          if next = -1 then some ⟨none, -1, -1⟩
          else some ⟨some next, next, 0⟩
        else some ⟨it.page, it.pageId, it.index + 1⟩
      | _ => none

/-! ### Claim C9 — iterator end-of-range behaviour -/

/-- C9: incrementing an end iterator (page id `-1`) returns it unchanged, and
dereferencing any iterator whose index is `-1` or whose page pointer is null
— in particular the end iterator — yields the out-of-range error, never a
pair. -/
theorem claimC9 (s : Store) (it : IterState) :
    (it.pageId = -1 → iterIncr s it = some it) ∧
    (it.index = -1 ∨ it.page = none → iterDeref s it = .error .outOfRange) := by
  constructor
  · intro h
    unfold iterIncr
    rw [if_pos h]
  · intro h
    unfold iterDeref
    rw [if_pos h]

/-- Witness for C9: the end iterator over the empty store. -/
theorem claimC9_witness :
    iterIncr (fun _ => none) endIter = some endIter ∧
    iterDeref (fun _ => none) endIter = .error .outOfRange :=
  ⟨(claimC9 (fun _ => none) endIter).1 rfl, (claimC9 (fun _ => none) endIter).2 (Or.inl rfl)⟩

/-! ## Lock manager (src/concurrency/lock_manager.cpp)

Transactions, per-row lock request queues, and the wait-for graph.  A blocking
`Lock*` call is modelled by its one-call outcome under the queue state at call
time: `blocked` when the C++ would enter the condition-variable wait,
`granted` when the wait condition is false on entry. -/

inductive LockMode where
  | shared
  | exclusive
  deriving Repr, DecidableEq

inductive TxnState where
  | growing
  | shrinking
  | committed
  | aborted
  deriving Repr, DecidableEq

inductive IsoLevel where
  | readUncommitted
  | readCommitted
  | repeatableRead
  deriving Repr, DecidableEq

inductive AbortReason where
  | lockOnShrinking
  | lockSharedOnReadUncommitted
  | upgradeConflict
  | deadlock
  deriving Repr, DecidableEq

abbrev RID := Nat
abbrev TxnId := Int

structure LockRequest where
  txnId : TxnId
  lockMode : LockMode
  granted : Bool
  deriving Repr, DecidableEq

structure LockRequestQueue where
  requestQueue : List LockRequest
  sharedCount : Nat
  exclusiveCount : Nat
  upgrading : Bool
  deriving Repr, DecidableEq

structure Txn where
  id : TxnId
  state : TxnState
  iso : IsoLevel
  sharedLockSet : List RID
  exclusiveLockSet : List RID
  deriving Repr, DecidableEq

inductive LockOutcome where
  | granted
  | blocked
  | abortedWith (r : AbortReason)
  deriving Repr, DecidableEq

/-- Mark the first request of `tid` in the queue as granted. -/
def grantIn (tid : TxnId) : List LockRequest → List LockRequest
  | [] => []
  | r :: rest => if r.txnId = tid then { r with granted := true } :: rest else r :: grantIn tid rest

/-- Remove the first request of `tid` from the queue (`CheckAbort`). -/
def removeReq (tid : TxnId) : List LockRequest → List LockRequest
  | [] => []
  | r :: rest => if r.txnId = tid then rest else r :: removeReq tid rest

/-- `LockManager::LockShared` on the queue of `rid`: abort on SHRINKING or
READ_UNCOMMITTED before touching the queue; otherwise enqueue and wait while
`exclusive_count_ > 0` (and the txn is not aborted); on a false wait
condition, run `CheckAbort`, then grant: add `rid` to the shared set, flag the
request granted, bump `shared_count_`. -/
def lockShared (txn : Txn) (rid : RID) (q : LockRequestQueue) :
    LockOutcome × Txn × LockRequestQueue :=
  if txn.state = .shrinking then
    (.abortedWith .lockOnShrinking, { txn with state := .aborted }, q)
  else if txn.iso = .readUncommitted then
    (.abortedWith .lockSharedOnReadUncommitted, { txn with state := .aborted }, q)
  else
    let q1 := { q with requestQueue := q.requestQueue ++ [⟨txn.id, .shared, false⟩] }
    if txn.state ≠ .aborted ∧ 0 < q1.exclusiveCount then
      (.blocked, txn, q1)
    else if txn.state = .aborted then
      (.abortedWith .deadlock, txn, { q1 with requestQueue := removeReq txn.id q1.requestQueue })
    else
      (.granted, { txn with sharedLockSet := rid :: txn.sharedLockSet },
       { q1 with requestQueue := grantIn txn.id q1.requestQueue,
                 sharedCount := q1.sharedCount + 1 })

/-- `LockManager::LockExclusive`: abort on SHRINKING; enqueue and wait while
any holder (shared or exclusive) is granted; on grant add to the exclusive
set, flag granted, bump `exclusive_count_`. -/
def lockExclusive (txn : Txn) (rid : RID) (q : LockRequestQueue) :
    LockOutcome × Txn × LockRequestQueue :=
  if txn.state = .shrinking then
    (.abortedWith .lockOnShrinking, { txn with state := .aborted }, q)
  else
    let q1 := { q with requestQueue := q.requestQueue ++ [⟨txn.id, .exclusive, false⟩] }
    if txn.state ≠ .aborted ∧ (0 < q1.exclusiveCount ∨ 0 < q1.sharedCount) then
      (.blocked, txn, q1)
    else if txn.state = .aborted then
      (.abortedWith .deadlock, txn, { q1 with requestQueue := removeReq txn.id q1.requestQueue })
    else
      (.granted, { txn with exclusiveLockSet := rid :: txn.exclusiveLockSet },
       { q1 with requestQueue := grantIn txn.id q1.requestQueue,
                 exclusiveCount := q1.exclusiveCount + 1 })

/-! ### Claim C8 — `LockShared` isolation/phase violations -/

/-- C8: `LockShared` on a SHRINKING transaction fails exceptionally with
`LOCK_ON_SHRINKING`, and on a READ_UNCOMMITTED transaction (not shrinking)
with `LOCKSHARED_ON_READ_UNCOMMITTED`; in both cases the transaction is moved
to ABORTED, its shared set is untouched and the queue is unchanged (no lock
granted, nothing enqueued). -/
theorem claimC8 (txn : Txn) (rid : RID) (q : LockRequestQueue) :
    (txn.state = .shrinking →
      lockShared txn rid q =
        (.abortedWith .lockOnShrinking, { txn with state := .aborted }, q)) ∧
    (txn.state ≠ .shrinking → txn.iso = .readUncommitted →
      lockShared txn rid q =
        (.abortedWith .lockSharedOnReadUncommitted, { txn with state := .aborted }, q)) := by
  constructor
  · intro h
    unfold lockShared
    rw [if_pos h]
  · intro h h2
    unfold lockShared
    rw [if_neg h, if_pos h2]

/-- Witness for C8: a shrinking transaction and a growing READ_UNCOMMITTED
transaction, each requesting a shared lock on row 0 with an empty queue. -/
theorem claimC8_witness :
    lockShared (Txn.mk 1 .shrinking .repeatableRead [] []) 0 (LockRequestQueue.mk [] 0 0 false) =
      (.abortedWith .lockOnShrinking,
       { Txn.mk 1 .shrinking .repeatableRead [] [] with state := .aborted },
       LockRequestQueue.mk [] 0 0 false) ∧
    lockShared (Txn.mk 2 .growing .readUncommitted [] []) 0 (LockRequestQueue.mk [] 0 0 false) =
      (.abortedWith .lockSharedOnReadUncommitted,
       { Txn.mk 2 .growing .readUncommitted [] [] with state := .aborted },
       LockRequestQueue.mk [] 0 0 false) :=
  ⟨(claimC8 (Txn.mk 1 .shrinking .repeatableRead [] []) 0 (LockRequestQueue.mk [] 0 0 false)).1 rfl,
   (claimC8 (Txn.mk 2 .growing .readUncommitted [] []) 0 (LockRequestQueue.mk [] 0 0 false)).2
     (by decide) rfl⟩

/-! ### Claim C6 — grant order on one row -/

/-- C6 counterexample: transaction A (id 1) holds shared on the row, B (id 2)
requests exclusive and blocks; C (id 3) then requests shared.  The claim says
C blocks behind B, but `LockShared` waits only while `exclusive_count_ > 0`,
which is 0 (B is not granted), so C is granted immediately. -/
theorem claimC6_counterexample :
    (lockExclusive (Txn.mk 2 .growing .repeatableRead [] []) 0
        (LockRequestQueue.mk [⟨1, .shared, true⟩] 1 0 false)).1 = .blocked ∧
    (lockShared (Txn.mk 3 .growing .repeatableRead [] []) 0
        (LockRequestQueue.mk [⟨1, .shared, true⟩, ⟨2, .exclusive, false⟩] 1 0 false)).1
      = .granted := by
  constructor <;> rfl

/-- C6 (amended): a shared request waits only while an exclusive lock is
currently granted on the row, so it bypasses earlier ungranted exclusive
requests; an exclusive request waits while any lock (shared or exclusive) is
granted.  In the scenario, C's shared request is granted immediately while B
keeps waiting. -/
theorem claimC6 (txn : Txn) (rid : RID) (q : LockRequestQueue)
    (hg : txn.state = .growing) (hiso : txn.iso ≠ .readUncommitted) :
    (q.exclusiveCount = 0 → (lockShared txn rid q).1 = .granted) ∧
    (0 < q.exclusiveCount → (lockShared txn rid q).1 = .blocked) ∧
    (0 < q.exclusiveCount ∨ 0 < q.sharedCount → (lockExclusive txn rid q).1 = .blocked) := by
  refine ⟨?_, ?_, ?_⟩
  · intro h
    unfold lockShared
    rw [if_neg (by rw [hg]; intro hc; cases hc), if_neg hiso]
    simp only [h]
    rw [if_neg (by intro hc; omega)]
    rw [if_neg (by rw [hg]; intro hc; cases hc)]
  · intro h
    unfold lockShared
    rw [if_neg (by rw [hg]; intro hc; cases hc), if_neg hiso]
    rw [if_pos ⟨(by rw [hg]; intro hc; cases hc), h⟩]
  · intro h
    unfold lockExclusive
    rw [if_neg (by rw [hg]; intro hc; cases hc)]
    rw [if_pos ⟨(by rw [hg]; intro hc; cases hc), h⟩]

/-- Witness for C6 at the scenario's concrete queues. -/
theorem claimC6_witness :
    ((LockRequestQueue.mk [⟨1, .shared, true⟩, ⟨2, .exclusive, false⟩] 1 0 false).exclusiveCount = 0 →
      (lockShared (Txn.mk 3 .growing .repeatableRead [] []) 0
        (LockRequestQueue.mk [⟨1, .shared, true⟩, ⟨2, .exclusive, false⟩] 1 0 false)).1 = .granted) ∧
    (0 < (LockRequestQueue.mk [⟨1, .shared, true⟩, ⟨2, .exclusive, false⟩] 1 0 false).exclusiveCount →
      (lockShared (Txn.mk 3 .growing .repeatableRead [] []) 0
        (LockRequestQueue.mk [⟨1, .shared, true⟩, ⟨2, .exclusive, false⟩] 1 0 false)).1 = .blocked) ∧
    (0 < (LockRequestQueue.mk [⟨1, .shared, true⟩, ⟨2, .exclusive, false⟩] 1 0 false).exclusiveCount ∨
       0 < (LockRequestQueue.mk [⟨1, .shared, true⟩, ⟨2, .exclusive, false⟩] 1 0 false).sharedCount →
      (lockExclusive (Txn.mk 2 .growing .repeatableRead [] []) 0
        (LockRequestQueue.mk [⟨1, .shared, true⟩, ⟨2, .exclusive, false⟩] 1 0 false)).1 = .blocked) := by
  refine ⟨(claimC6 _ 0 _ rfl (by decide)).1, (claimC6 _ 0 _ rfl (by decide)).2.1, ?_⟩
  exact (claimC6 (Txn.mk 2 .growing .repeatableRead [] []) 0 _ rfl (by decide)).2.2

/-! ### Wait-for graph and cycle detection (src/concurrency/lock_manager.cpp)

`waits_for_` is an association list from txn id to adjacency list.  `Dfs`
sorts the adjacency list ascending and reports a cycle as soon as it reaches
any already-visited node; `visited_` is the `std::set` of visited ids
(represented as a list, its maximum standing in for `rbegin`). -/

abbrev WaitsFor := List (TxnId × List TxnId)

/-- Adjacency list of `t` (`waits_for_[t]`, defaulting to empty). -/
def wfLookup (g : WaitsFor) (t : TxnId) : List TxnId :=
  (List.lookup t g).getD []

/-- `LockManager::AddEdge`: append `t2` to `t1`'s adjacency list, creating
the entry if missing. -/
def addEdge (g : WaitsFor) (t1 t2 : TxnId) : WaitsFor :=
  if (List.lookup t1 g).isSome then
    g.map (fun e => if e.1 = t1 then (e.1, e.2 ++ [t2]) else e)
  else
    g ++ [(t1, [t2])]

/-- `LockManager::RemoveEdge`: create an empty entry if `t1` is missing, else
erase the first occurrence of `t2` in `t1`'s list. -/
def removeEdge (g : WaitsFor) (t1 t2 : TxnId) : WaitsFor :=
  if (List.lookup t1 g).isSome then
    g.map (fun e => if e.1 = t1 then (e.1, e.2.erase t2) else e)
  else
    g ++ [(t1, [])]

/-- Ascending insertion sort over txn ids (`std::sort` of an adjacency
list). -/
def insertAsc (x : TxnId) : List TxnId → List TxnId
  | [] => [x]
  | y :: r => if x ≤ y then x :: y :: r else y :: insertAsc x r

def sortAsc (l : List TxnId) : List TxnId := l.foldr insertAsc []

/-- One neighbour loop of `LockManager::Dfs`: stop with `true` on the first
already-visited neighbour, else insert the neighbour and recurse through
`rec`. -/
def dfsList (rec : TxnId → List TxnId → Bool × List TxnId) :
    List TxnId → List TxnId → Bool × List TxnId
  | [], vis => (false, vis)
  | i :: rest, vis =>
    if i ∈ vis then (true, vis)
    else
      let r := rec i (i :: vis)
      if r.1 then (true, r.2) else dfsList rec rest r.2

/-- `LockManager::Dfs`, fuelled (each recursive call inserts a fresh node
into `visited_`, so any fuel beyond the node count is enough). -/
def dfs (g : WaitsFor) : Nat → TxnId → List TxnId → Bool × List TxnId
  | 0, _, vis => (false, vis)
  | fuel + 1, id, vis => dfsList (dfs g fuel) (sortAsc (wfLookup g id)) vis

/-- `*visited_.rbegin()`: the maximum of the visited set. -/
def visitedMax (vis : List TxnId) : TxnId :=
  vis.foldl max (vis.headD (-1))

/-- `LockManager::HasCycle`: run `Dfs` from every key of `waits_for_` with a
fresh `visited_`; whenever one reports a cycle, fold the maximum visited id
into the candidate victim (initially `-1`). -/
def hasCycle (g : WaitsFor) (fuel : Nat) : Bool × TxnId :=
  go (sortAsc (g.map (·.1))) false (-1)
where
  go : List TxnId → Bool → TxnId → Bool × TxnId
    | [], ret, tid => (ret, tid)
    | i :: rest, ret, tid =>
      let r := dfs g fuel i []
      if r.1 then go rest true (max (visitedMax r.2) tid)
      else go rest ret tid

/-- Lock manager state for the detection pass. -/
structure LMState where
  txns : List Txn
  table : List (RID × LockRequestQueue)
  waitsFor : WaitsFor

def getTxn (txns : List Txn) (t : TxnId) : Option Txn :=
  txns.find? (fun x => x.id == t)

def setTxnAborted (txns : List Txn) (t : TxnId) : List Txn :=
  txns.map (fun x => if x.id = t then { x with state := .aborted } else x)

/-- `LockManager::RemoveCycle`: abort the victim and, for every row it holds
(shared then exclusive set), remove the edge from each ungranted requester of
that row's queue to the victim. -/
def removeCycle (st : LMState) (t : TxnId) : LMState :=
  let txns' := setTxnAborted st.txns t
  let g' :=
    match getTxn st.txns t with
    | none => st.waitsFor
    | some tx =>
      let dropIn (g : WaitsFor) (rid : RID) : WaitsFor :=
        ((List.lookup rid st.table).getD (LockRequestQueue.mk [] 0 0 false)).requestQueue.foldl
          (fun g req => if req.granted then g else removeEdge g req.txnId t) g
      (tx.exclusiveLockSet.foldl dropIn (tx.sharedLockSet.foldl dropIn st.waitsFor))
  { st with txns := txns', waitsFor := g' }

/-- Graph construction in `LockManager::RunCycleDetection`: for every queue,
an edge from every ungranted request to every granted request. -/
def buildGraph (table : List (RID × LockRequestQueue)) : WaitsFor :=
  table.foldl
    (fun g e =>
      e.2.requestQueue.foldl
        (fun g i =>
          if i.granted then g
          else e.2.requestQueue.foldl
            (fun g j => if j.granted then addEdge g i.txnId j.txnId else g) g)
        g)
    []

/-- The `while (HasCycle(&remove_id)) RemoveCycle(remove_id)` loop, with a
fuel bound on the number of iterations. -/
def detectLoop : Nat → LMState → Nat → LMState
  | 0, st, _ => st
  | n + 1, st, fuel =>
    let r := hasCycle st.waitsFor fuel
    if r.1 then detectLoop n (removeCycle st r.2) fuel else st

/-- One pass of `LockManager::RunCycleDetection`: rebuild the graph, abort
victims until `HasCycle` is false, clear the graph. -/
def runCycleDetectionPass (st : LMState) (loopFuel fuel : Nat) : LMState :=
  let st' := detectLoop loopFuel { st with waitsFor := buildGraph st.table } fuel
  { st' with waitsFor := [] }

/-- Set of nodes reachable from `S` in at most `fuel` steps. -/
def reachClosure : Nat → WaitsFor → List TxnId → List TxnId
  | 0, _, s => s
  | n + 1, g, s => reachClosure n g ((s ++ (s.map (wfLookup g)).flatten).dedup)

/-- A genuine cycle: some node reaches itself along at least one edge. -/
def hasRealCycle (g : WaitsFor) (fuel : Nat) : Bool :=
  (g.map (·.1)).any (fun n => n ∈ reachClosure fuel g (wfLookup g n))

/-! ### Claim C7 — deadlock detection pass -/

/-- C7 counterexample: four transactions in a diamond — txn 1 waits for
shared holders 2 and 3; txns 2 and 3 wait for txn 4's exclusive locks.  The
wait-for graph (1→2, 1→3, 2→4, 3→4) has no cycle, yet the pass reports a
cycle (the DFS from txn 1 reaches node 4 twice) and aborts txn 4, which
refutes the claim that a transaction is selected and aborted per cycle
found. -/
theorem claimC7_counterexample :
    hasRealCycle (buildGraph
      [(0, LockRequestQueue.mk [⟨2, .shared, true⟩, ⟨3, .shared, true⟩, ⟨1, .exclusive, false⟩] 2 0 false),
       (1, LockRequestQueue.mk [⟨4, .exclusive, true⟩, ⟨2, .exclusive, false⟩] 0 1 false),
       (2, LockRequestQueue.mk [⟨4, .exclusive, true⟩, ⟨3, .exclusive, false⟩] 0 1 false)]) 10 = false ∧
    (getTxn (runCycleDetectionPass
      (LMState.mk
        [Txn.mk 1 .growing .repeatableRead [] [],
         Txn.mk 2 .growing .repeatableRead [0] [1],
         Txn.mk 3 .growing .repeatableRead [0] [2],
         Txn.mk 4 .growing .repeatableRead [] [1, 2]]
        [(0, LockRequestQueue.mk [⟨2, .shared, true⟩, ⟨3, .shared, true⟩, ⟨1, .exclusive, false⟩] 2 0 false),
         (1, LockRequestQueue.mk [⟨4, .exclusive, true⟩, ⟨2, .exclusive, false⟩] 0 1 false),
         (2, LockRequestQueue.mk [⟨4, .exclusive, true⟩, ⟨3, .exclusive, false⟩] 0 1 false)]
        []) 10 10).txns 4).map Txn.state = some .aborted := by
  constructor <;> decide

/-- C7 (amended): the pass builds an edge from every ungranted requester to
every granted holder in the same queue; the DFS, over adjacency lists sorted
ascending, reports a "cycle" upon reaching any already-visited node (so it can
also fire on acyclic sharing, as the counterexample shows), and each round
aborts the maximum txn id among the nodes visited by a detecting DFS,
repeating until no report remains.  In the two-transaction cycle of scenario
5 the graph is `{1 → 2, 2 → 1}`, the higher-id transaction 2 is aborted and
transaction 1 is left GROWING. -/
theorem claimC7 :
    buildGraph
      [(0, LockRequestQueue.mk [⟨1, .exclusive, true⟩, ⟨2, .exclusive, false⟩] 0 1 false),
       (1, LockRequestQueue.mk [⟨2, .exclusive, true⟩, ⟨1, .exclusive, false⟩] 0 1 false)]
      = [(2, [1]), (1, [2])] ∧
    (getTxn (runCycleDetectionPass
      (LMState.mk
        [Txn.mk 1 .growing .repeatableRead [] [0],
         Txn.mk 2 .growing .repeatableRead [] [1]]
        [(0, LockRequestQueue.mk [⟨1, .exclusive, true⟩, ⟨2, .exclusive, false⟩] 0 1 false),
         (1, LockRequestQueue.mk [⟨2, .exclusive, true⟩, ⟨1, .exclusive, false⟩] 0 1 false)]
        []) 10 10).txns 2).map Txn.state = some .aborted ∧
    (getTxn (runCycleDetectionPass
      (LMState.mk
        [Txn.mk 1 .growing .repeatableRead [] [0],
         Txn.mk 2 .growing .repeatableRead [] [1]]
        [(0, LockRequestQueue.mk [⟨1, .exclusive, true⟩, ⟨2, .exclusive, false⟩] 0 1 false),
         (1, LockRequestQueue.mk [⟨2, .exclusive, true⟩, ⟨1, .exclusive, false⟩] 0 1 false)]
        []) 10 10).txns 1).map Txn.state = some .growing := by
  refine ⟨?_, ?_, ?_⟩ <;> decide

/-! ## B+-tree: tree operations (src/storage/index/b_plus_tree.cpp)

The store abstracts the buffer pool: page contents by page id.  Pin counts,
latches and the header page are concurrency/persistence bookkeeping with no
effect on the logical contents and are elided; `root` is `root_page_id_`,
`alloc` the disk manager's next fresh page id (pages are allocated at
`0, 1, 2, …`).  `none` results model the C++ exception paths (out-of-memory,
dangling fetches) and exhausted fuel; the fuel `alloc + 1` exceeds the height
of any well-formed tree. -/

def Store.set (s : Store) (pid : Int) (n : Node) : Store :=
  fun q => if q = pid then some n else s q

def Store.del (s : Store) (pid : Int) : Store :=
  fun q => if q = pid then none else s q

def Store.empty : Store := fun _ => none

structure Tree where
  store : Store
  root : Int
  alloc : Nat
  leafMax : Nat
  internalMax : Nat

def Tree.setPage (t : Tree) (pid : Int) (n : Node) : Tree :=
  { t with store := t.store.set pid n }

namespace Node

def parentOf : Node → Int
  | .leaf p _ _ _ => p
  | .internal p _ _ => p

def size : Node → Nat
  | .leaf _ _ kvs _ => kvs.length
  | .internal _ _ kcs => kcs.length

def maxSizeOf : Node → Nat
  | .leaf _ m _ _ => m
  | .internal _ m _ => m

/-- Modelled from the spec: `BPlusTreePage::GetMinSize`
(`b_plus_tree_page.cpp` is not in the snapshot).  The spec gives
`⌈(max−1)/2⌉ = max/2` for a leaf and "`⌈max/2⌉` … or equivalent; definitions
must agree with split/merge thresholds"; since `MoveHalfTo` keeps exactly
`GetMinSize()` entries, the agreeing choice is `max/2` for both kinds (the
ceiling would leave the new sibling of an odd-capacity internal page below
its own minimum). -/
def minSizeOf : Node → Nat
  | .leaf _ m _ _ => m / 2
  | .internal _ m _ => m / 2

def isLeaf : Node → Bool
  | .leaf _ _ _ _ => true
  | .internal _ _ _ => false

def setParent : Node → Int → Node
  | .leaf _ m kvs nx, p => .leaf p m kvs nx
  | .internal _ m kcs, p => .internal p m kcs

end Node

/-- `SetKeyAt` on an internal page's pair array. -/
def setKeyAt (kcs : List (Int × Int)) (i : Nat) (k : Int) : List (Int × Int) :=
  kcs.set i (k, (kcs.getD i (0, 0)).2)

/-- `BPlusTree::FindLeafPage`'s descent loop (latching elided): follow
`Lookup` (or the first child when `leftMost`) until a leaf is reached. -/
def findLeafFrom (s : Store) (k : Int) (leftMost : Bool) : Nat → Int → Option Int
  | 0, _ => none
  | fuel + 1, pid =>
    match s pid with
    | some (.leaf _ _ _ _) => some pid
    | some (.internal _ _ kcs) =>
      let c := if leftMost then (kcs.headD (0, -1)).2 else internalLookup kcs k
      findLeafFrom s k leftMost fuel c
    | none => none

def Tree.findLeafPage (t : Tree) (k : Int) (leftMost : Bool) : Option Int :=
  if t.root = -1 then none
  else findLeafFrom t.store k leftMost (t.alloc + 1) t.root

/-- `BPlusTree::GetValue`: empty tree → false; else descend and `Lookup` the
leaf, pushing the value into the result vector on a hit. -/
def Tree.getValue (t : Tree) (k : Int) : Option (Bool × List Nat) :=
  if t.root = -1 then some (false, [])
  else
    match t.findLeafPage k false with
    | none => none
    | some lid =>
      match t.store lid with
      | some (.leaf _ _ kvs _) =>
        match leafLookup kvs k with
        | some v => some (true, [v])
        | none => some (false, [])
      | _ => none

/-- `BPlusTree::StartNewTree`: allocate a leaf root holding the pair. -/
def startNewTree (t : Tree) (k : Int) (v : Nat) : Tree :=
  { t with store := t.store.set (t.alloc : Int) (.leaf (-1) t.leafMax [(k, v)] (-1)),
           root := (t.alloc : Int), alloc := t.alloc + 1 }

/-- `CopyNFrom`'s adoption loop: re-parent the listed children. -/
def reparentAll (t : Tree) (cs : List Int) (newPar : Int) : Option Tree :=
  match cs with
  | [] => some t
  | c :: r =>
    match t.store c with
    | some n => reparentAll (t.setPage c (n.setParent newPar)) r newPar
    | none => none

/-- `BPlusTree::InsertIntoParent`, recursing up the parent chain.  A root
split populates a fresh internal root; otherwise `InsertNodeAfter` adds the
pair to the parent and, at `max_size`, the parent is split by `MoveHalfTo`
(keep `GetMinSize()` entries, move the rest, adopting the moved children) and
the new sibling's first key is propagated further up. -/
def insertIntoParent (t : Tree) : Nat → Int → Int → Int → Option Tree
  | 0, _, _, _ => none
  | fuel + 1, oldId, key, newId =>
    match t.store oldId with
    | none => none
    | some oldN =>
      if oldN.parentOf = -1 then
        let rid : Int := t.alloc
        let t1 := { t with alloc := t.alloc + 1 }
        let t2 := t1.setPage oldId (oldN.setParent rid)
        match t2.store newId with
        | none => none
        | some newN =>
          let t3 := t2.setPage newId (newN.setParent rid)
          let t4 := t3.setPage rid (.internal (-1) t.internalMax (populateNewRoot oldId key newId))
          some { t4 with root := rid }
      else
        match t.store oldN.parentOf with
        | some (.internal pp pm kcs) =>
          let kcs' := insertNodeAfter kcs oldId key newId
          let t1 := t.setPage oldN.parentOf (.internal pp pm kcs')
          if t.internalMax ≤ kcs'.length then
            let nid : Int := t1.alloc
            let t2 := { t1 with alloc := t1.alloc + 1 }
            let start := pm / 2
            let keep := kcs'.take start
            let moved := kcs'.drop start
            let t3 := t2.setPage oldN.parentOf (.internal pp pm keep)
            let t4 := t3.setPage nid (.internal pp t.internalMax moved)
            match reparentAll t4 (moved.map (·.2)) nid with
            | none => none
            | some t5 => insertIntoParent t5 fuel oldN.parentOf (moved.headD (0, 0)).1 nid
          else some t1
        | _ => none

/-- `BPlusTree::InsertIntoLeaf`: descend, fail on a duplicate (`Lookup`
hits), else insert; at `max_size` split the leaf — the new sibling (parent
and next-pointer wired as in the source, spec-modelled `MoveHalfTo` keeps
`GetMinSize()` pairs and moves the upper half) — and push the sibling's first
key to the parent. -/
def insertIntoLeaf (t : Tree) (k : Int) (v : Nat) : Option (Bool × Tree) :=
  match t.findLeafPage k false with
  | none => none
  | some lid =>
    match t.store lid with
    | some (.leaf par m kvs nxt) =>
      if (leafLookup kvs k).isSome then some (false, t)
      else
        let kvs' := leafInsert kvs k v
        if m ≤ kvs'.length then
          let nid : Int := t.alloc
          let t2 := { t with alloc := t.alloc + 1 }
          let start := m / 2
          let keep := kvs'.take start
          let moved := kvs'.drop start
          let t3 := t2.setPage nid (.leaf par t.leafMax moved nxt)
          let t4 := t3.setPage lid (.leaf par m keep nid)
          match insertIntoParent t4 (t.alloc + 1) lid (moved.headD (0, 0)).1 nid with
          | none => none
          | some t5 => some (true, t5)
        else some (true, t.setPage lid (.leaf par m kvs' nxt))
    | _ => none

/-- `BPlusTree::Insert`. -/
def Tree.insert (t : Tree) (k : Int) (v : Nat) : Option (Bool × Tree) :=
  if t.root = -1 then some (true, startNewTree t k v)
  else insertIntoLeaf t k v

/-- `BPlusTree::AdjustRoot`: an empty leaf root empties the tree; an internal
root shrunk to one child promotes that child.  Returns the pages marked for
deferred deletion. -/
def adjustRoot (t : Tree) (nodeId : Int) : Option (Tree × List Int) :=
  match t.store nodeId with
  | none => none
  | some node =>
    if 1 < node.size then some (t, [])
    else
      match node with
      | .leaf _ _ kvs _ =>
        if kvs.length = 1 then some (t, [])
        else some ({ t with root := -1 }, [nodeId])
      | .internal _ _ kcs =>
        let child := removeAndReturnOnlyChild kcs
        match t.store child with
        | none => none
        | some cn =>
          some ({ t.setPage child (cn.setParent (-1)) with root := child }, [nodeId])

/-- `BPlusTree::Redistribute`: rotate one entry from the sibling into the
node and refresh the parent's separator, following the source's order of
reads and writes (for internal pages `MoveLastToFrontOf`/`MoveFirstToEndOf`
first write the separator into the *source* page's slot-0 key, and
`MoveFirstToEndOf` removes slot 0 with the faulty `Remove`). -/
def redistribute (t : Tree) (sibId nodeId : Int) (index : Nat) (onLeft : Bool) :
    Option Tree :=
  match t.store nodeId, t.store sibId with
  | some (.leaf np nm nkvs nnx), some (.leaf sp sm skvs snx) =>
    let (nkvs', skvs') :=
      if onLeft then ((skvs.getLastD (0, 0)) :: nkvs, skvs.dropLast)
      else (nkvs ++ [skvs.headD (0, 0)], skvs.tail)
    let newSep := if onLeft then (nkvs'.headD (0, 0)).1 else (skvs'.headD (0, 0)).1
    let t1 := (t.setPage nodeId (.leaf np nm nkvs' nnx)).setPage sibId (.leaf sp sm skvs' snx)
    match t1.store np with
    | some (.internal qp qm qkcs) =>
      some (t1.setPage np (.internal qp qm (setKeyAt qkcs index newSep)))
    | _ => none
  | some (.internal np nm nkcs), some (.internal sp sm skcs) =>
    match t.store np with
    | some (.internal _ _ qkcs0) =>
      let midKey := (qkcs0.getD index (0, 0)).1
      if onLeft then
        let newSep := (skcs.getD (skcs.length - 1) (0, 0)).1
        let skcs1 := setKeyAt skcs 0 midKey
        let moved := skcs1.getLastD (0, 0)
        let t1 := (t.setPage nodeId (.internal np nm (moved :: nkcs))).setPage sibId
          (.internal sp sm skcs1.dropLast)
        match reparentAll t1 [moved.2] nodeId with
        | none => none
        | some t2 =>
          match t2.store np with
          | some (.internal qp qm qkcs) =>
            some (t2.setPage np (.internal qp qm (setKeyAt qkcs index newSep)))
          | _ => none
      else
        let newSep := (skcs.getD 1 (0, 0)).1
        let skcs1 := setKeyAt skcs 0 midKey
        let moved := skcs1.headD (0, 0)
        let t1 := (t.setPage nodeId (.internal np nm (nkcs ++ [moved]))).setPage sibId
          (.internal sp sm (internalRemove skcs1 0))
        match reparentAll t1 [moved.2] nodeId with
        | none => none
        | some t2 =>
          match t2.store np with
          | some (.internal qp qm qkcs) =>
            some (t2.setPage np (.internal qp qm (setKeyAt qkcs index newSep)))
          | _ => none
    | _ => none
  | _, _ => none

/-- `BPlusTree::Coalesce` given the recursion for the parent's own
underflow: move everything from the page being dropped into its neighbour
(leaf `MoveAllTo` appends and rewires the next-pointer; internal `MoveAllTo`
first writes the parent's separator into the source's slot-0 key and adopts
the moved children), then drop the separator entry from the parent with the
faulty `Remove` and recurse if the parent underflows.  Returns the pages
marked for deferred deletion. -/
def coalesceStep (recurse : Tree → Int → Option (Tree × List Int)) (t : Tree)
    (sibId nodeId parentId : Int) (index : Nat) (onLeft : Bool) :
    Option (Tree × List Int) :=
  let afterParent (t : Tree) (del : Int) : Option (Tree × List Int) :=
    match t.store parentId with
    | some (.internal qp qm qkcs) =>
      let qkcs' := internalRemove qkcs index
      let t' := t.setPage parentId (.internal qp qm qkcs')
      if qkcs'.length < qm / 2 then
        match recurse t' parentId with
        | none => none
        | some (t'', dels) => some (t'', del :: dels)
      else some (t', [del])
    | _ => none
  match t.store nodeId, t.store sibId with
  | some (.leaf np nm nkvs nnx), some (.leaf sp sm skvs snx) =>
    if onLeft then
      let t1 := t.setPage sibId (.leaf sp sm (skvs ++ nkvs) nnx)
      let t2 := t1.setPage nodeId (.leaf np nm [] nnx)
      afterParent t2 nodeId
    else
      let t1 := t.setPage nodeId (.leaf np nm (nkvs ++ skvs) snx)
      let t2 := t1.setPage sibId (.leaf sp sm [] snx)
      afterParent t2 sibId
  | some (.internal np nm nkcs), some (.internal sp sm skcs) =>
    match t.store parentId with
    | some (.internal _ _ pkcs) =>
      let midKey := (pkcs.getD index (0, 0)).1
      if onLeft then
        let movedSrc := match nkcs with | [] => [] | e :: r => (midKey, e.2) :: r
        let t1 := t.setPage sibId (.internal sp sm (skcs ++ movedSrc))
        let t2 := t1.setPage nodeId (.internal np nm [])
        match reparentAll t2 (movedSrc.map (·.2)) sibId with
        | none => none
        | some t3 => afterParent t3 nodeId
      else
        let movedSrc := match skcs with | [] => [] | e :: r => (midKey, e.2) :: r
        let t1 := t.setPage nodeId (.internal np nm (nkcs ++ movedSrc))
        let t2 := t1.setPage sibId (.internal sp sm [])
        match reparentAll t2 (movedSrc.map (·.2)) nodeId with
        | none => none
        | some t3 => afterParent t3 sibId
    | _ => none
  | _, _ => none

/-- `BPlusTree::CoalesceOrRedistribute`: a root delegates to `AdjustRoot`;
otherwise pick the sibling (spec-modelled `GetSibling`, the source page's
`.h`/impl being outside the snapshot: the left neighbour unless the child is
in slot 0, then the right neighbour at slot 1, returning the separator
index), and coalesce when both fit strictly below the node's `max_size`, else
redistribute. -/
def coalesceOrRedistribute : Nat → Tree → Int → Option (Tree × List Int)
  | 0, _, _ => none
  | fuel + 1, t, nodeId =>
    match t.store nodeId with
    | none => none
    | some node =>
      if node.parentOf = -1 then adjustRoot t nodeId
      else
        match t.store node.parentOf with
        | some (.internal _ _ pkcs) =>
          let j := valueIndex pkcs nodeId
          if j < 0 then none
          else
            let sibId := if 0 < j then (pkcs.getD (j - 1).toNat (0, 0)).2
              else (pkcs.getD 1 (0, 0)).2
            let index := if 0 < j then j.toNat else 1
            let onLeft := 0 < j
            match t.store sibId with
            | none => none
            | some sib =>
              if sib.size + node.size < node.maxSizeOf then
                coalesceStep (coalesceOrRedistribute fuel) t sibId nodeId node.parentOf index onLeft
              else
                match redistribute t sibId nodeId index onLeft with
                | none => none
                | some t' => some (t', [])
        | _ => none

/-- `BPlusTree::Remove`: empty tree is a no-op; descend to the leaf, return
silently when the key is absent (`KeyIndex` miss or key mismatch), else
remove the pair, handle underflow via `CoalesceOrRedistribute`, and finally
deallocate the pages collected in the deleted-page set. -/
def Tree.remove (t : Tree) (k : Int) : Option Tree :=
  if t.root = -1 then some t
  else
    match t.findLeafPage k false with
    | none => none
    | some lid =>
      match t.store lid with
      | some (.leaf par m kvs nxt) =>
        let idx := leafKeyIndex kvs k
        if idx = -1 ∨ (kvs.getD idx.toNat (0, 0)).1 ≠ k then some t
        else
          let kvs' := leafRemoveAt kvs idx.toNat
          let t1 := t.setPage lid (.leaf par m kvs' nxt)
          if kvs'.length < m / 2 then
            match coalesceOrRedistribute (t.alloc + 1) t1 lid with
            | none => none
            | some (t2, dels) =>
              some (dels.foldl (fun tt d => { tt with store := tt.store.del d }) t2)
          else some t1
      | _ => none

/-! ### Claim C3 — split/merge thresholds and the size invariant -/

/-- C3 counterexample: with `leaf_max_size = 2` and `internal_max_size = 2`,
inserting keys 1 and 2 into an empty tree completes successfully (the leaf
splits and `PopulateNewRoot` builds a two-entry internal root), leaving the
root with size 2 = `max_size` — not strictly less than `max_size` as the
claim requires after every completed `Insert`. -/
theorem claimC3_counterexample :
    (((Tree.mk Store.empty (-1) 0 2 2).insert 1 10).bind fun r =>
        (r.2.insert 2 20).map fun r2 => (r2.1, r2.2.root, r2.2.store r2.2.root))
      = some (true, 2, some (.internal (-1) 2 [(0, 0), (2, 1)])) ∧
    ¬ (Node.internal (-1) 2 [(0, 0), (2, 1)]).size
        < (Node.internal (-1) 2 [(0, 0), (2, 1)]).maxSizeOf := by
  constructor
  · rfl
  · decide

/-! ## Well-formedness: decoding a tree from the page store

`decode t h pid par lo hi rt` checks that page `pid` roots a well-formed
subtree of height `h` under parent `par`, holding keys in the half-open
window `[lo, hi)` (`none` = unbounded), with `rt` selecting the root size
bounds; it returns the subtree's key/value sequence and its footprint (the
page ids it occupies, pairwise distinct).  This is the spec's §3 invariant
list in executable form; the spec's "Insert on a tree" claims are read over
trees that decode. -/

def inLoB (lo : Option Int) (k : Int) : Bool :=
  match lo with
  | none => true
  | some a => decide (a ≤ k)

def inHiB (k : Int) (hi : Option Int) : Bool :=
  match hi with
  | none => true
  | some b => decide (k < b)

def ltLoB (lo : Option Int) (k : Int) : Bool :=
  match lo with
  | none => true
  | some a => decide (a < k)

def chainLtB : List Int → Bool
  | [] => true
  | [_] => true
  | a :: b :: r => decide (a < b) && chainLtB (b :: r)

def nodupB : List Int → Bool
  | [] => true
  | x :: r => !(r.contains x) && nodupB r

/-- Size window: at least the root minimum (`lowRoot`) or the page minimum
(`low`), and strictly below `m`. -/
def sizeOkB (rt : Bool) (lowRoot low n m : Nat) : Bool :=
  decide ((if rt then lowRoot else low) ≤ n) && decide (n + 1 ≤ m)

/-- Separator keys: strictly ascending, each strictly above `lo` and below
`hi`. -/
def sepsOkB (lo hi : Option Int) (seps : List Int) : Bool :=
  chainLtB seps && seps.all (fun a => ltLoB lo a && inHiB a hi)

/-- Upper bound of a child: the next entry's key, or the page's `hi`. -/
def kidsUp (hi : Option Int) (rest : List (Int × Int)) : Option Int :=
  match rest.head? with
  | some e => some e.1
  | none => hi

/-- Decode the children of an internal page: the first child is bounded
below by the page's own `lo`, each later child by its entry key, and each
child above by the next entry's key (the last by the page's `hi`). -/
def decodeKids (dec : Int → Option Int → Option Int → Option (List (Int × Nat) × List Int))
    (hi : Option Int) : Option Int → List (Int × Int) → Option (List (Int × Nat) × List Int)
  | _, [] => some ([], [])
  | lo, (_, c) :: rest =>
    match dec c lo (kidsUp hi rest) with
    | none => none
    | some (kvs1, ft1) =>
      match decodeKids dec hi (kidsUp hi rest) rest with
      | none => none
      | some (kvs2, ft2) => some (kvs1 ++ kvs2, ft1 ++ ft2)

def decode (t : Tree) : Nat → Int → Int → Option Int → Option Int → Bool →
    Option (List (Int × Nat) × List Int)
  | 0, pid, par, lo, hi, rt =>
    match t.store pid with
    | some (.leaf p m kvs _) =>
      if (decide (p = par) && decide (m = t.leafMax) && decide (0 ≤ pid) &&
          decide (pid < (t.alloc : Int)) &&
          sizeOkB rt 1 (m / 2) kvs.length m &&
          chainLtB (kvs.map Prod.fst) &&
          kvs.all (fun kv => inLoB lo kv.1 && inHiB kv.1 hi)) = true
      then some (kvs, [pid]) else none
    | _ => none
  | h + 1, pid, par, lo, hi, rt =>
    match t.store pid with
    | some (.internal p m kcs) =>
      match decodeKids (fun c lo' hi' => decode t h c pid lo' hi' false) hi lo kcs with
      | none => none
      | some (kvs, feet) =>
        if (decide (p = par) && decide (m = t.internalMax) && decide (0 ≤ pid) &&
            decide (pid < (t.alloc : Int)) &&
            !kcs.isEmpty &&
            sizeOkB rt 2 (m / 2) kcs.length m &&
            sepsOkB lo hi (kcs.tail.map Prod.fst) &&
            nodupB (pid :: feet)) = true
        then some (kvs, pid :: feet) else none
    | _ => none

/-- The whole tree decodes: empty, or the root decodes at some height. -/
def WFTree (t : Tree) : Prop :=
  (t.root = -1) ∨ ∃ h kvs feet, decode t h t.root (-1) none none true = some (kvs, feet)

/-- All keys of a decoded (nonempty) tree. -/
def treeKeys (t : Tree) (h : Nat) : List Int :=
  match decode t h t.root (-1) none none true with
  | some (kvs, _) => kvs.map Prod.fst
  | none => []

/-! ### Basic lemmas about the boolean checks -/

theorem inLoB_none (k : Int) : inLoB none k = true := rfl

theorem inLoB_some (a k : Int) : inLoB (some a) k = true ↔ a ≤ k := by
  simp [inLoB]

theorem inHiB_none (k : Int) : inHiB k none = true := rfl

theorem inHiB_some (k b : Int) : inHiB k (some b) = true ↔ k < b := by
  simp [inHiB]

theorem ltLoB_none (k : Int) : ltLoB none k = true := rfl

theorem ltLoB_some (a k : Int) : ltLoB (some a) k = true ↔ a < k := by
  simp [ltLoB]

theorem chainLtB_tail {a : Int} {l : List Int} (h : chainLtB (a :: l) = true) :
    chainLtB l = true := by
  cases l with
  | nil => rfl
  | cons b r =>
    simp only [chainLtB, Bool.and_eq_true] at h
    exact h.2

theorem chainLtB_lt_of_mem {a b : Int} {l : List Int}
    (h : chainLtB (a :: l) = true) (hb : b ∈ l) : a < b := by
  induction l generalizing a with
  | nil => cases hb
  | cons c r ih =>
    simp only [chainLtB, Bool.and_eq_true, decide_eq_true_eq] at h
    rcases List.mem_cons.mp hb with rfl | hb'
    · exact h.1
    · exact h.1.trans (ih h.2 hb')

theorem nodupB_iff {l : List Int} : nodupB l = true ↔ l.Nodup := by
  induction l with
  | nil => simp [nodupB]
  | cons x r ih =>
    simp only [nodupB, Bool.and_eq_true, Bool.not_eq_true', List.nodup_cons, ← ih]
    constructor
    · rintro ⟨h1, h2⟩
      refine ⟨fun hm => ?_, h2⟩
      rw [show r.contains x = r.elem x from rfl, List.elem_iff.mpr hm] at h1
      cases h1
    · rintro ⟨h1, h2⟩
      refine ⟨?_, h2⟩
      rw [show r.contains x = r.elem x from rfl]
      rw [Bool.eq_false_iff]
      intro hc
      exact h1 (List.elem_iff.mp hc)

/-! ### Decode inversion -/

/-- Everything the leaf-level decode guarantees, unpacked. -/
theorem decode_zero_inv {t : Tree} {pid par : Int} {lo hi : Option Int} {rt : Bool}
    {kvs : List (Int × Nat)} {ft : List Int}
    (h : decode t 0 pid par lo hi rt = some (kvs, ft)) :
    ∃ m nxt, t.store pid = some (.leaf par m kvs nxt) ∧ ft = [pid] ∧
      m = t.leafMax ∧ 0 ≤ pid ∧ pid < (t.alloc : Int) ∧
      (if rt then 1 else m / 2) ≤ kvs.length ∧ kvs.length + 1 ≤ m ∧
      chainLtB (kvs.map Prod.fst) = true ∧
      (∀ kv ∈ kvs, inLoB lo kv.1 = true ∧ inHiB kv.1 hi = true) := by
  unfold decode at h
  rcases hs : t.store pid with _ | n <;> rw [hs] at h
  · cases h
  cases n with
  | internal p m kcs => cases h
  | leaf p m kvs0 nxt =>
    simp only at h
    split at h
    case isFalse => cases h
    case isTrue hg =>
      obtain ⟨h9, h10⟩ := Prod.ext_iff.mp (Option.some.inj h)
      simp only at h9 h10
      subst h9
      subst h10
      simp only [sizeOkB, Bool.and_eq_true, decide_eq_true_eq, List.all_eq_true] at hg
      obtain ⟨⟨⟨⟨⟨⟨h1, h2⟩, h3⟩, h4⟩, h5, h6⟩, h7⟩, h8⟩ := hg
      subst h1
      exact ⟨m, nxt, rfl, rfl, h2, h3, h4, h5, h6, h7, h8⟩

/-- The internal-level decode, unpacked. -/
theorem decode_succ_inv {t : Tree} {h : Nat} {pid par : Int} {lo hi : Option Int} {rt : Bool}
    {kvs : List (Int × Nat)} {ft : List Int}
    (hd : decode t (h + 1) pid par lo hi rt = some (kvs, ft)) :
    ∃ m kcs feet,
      t.store pid = some (.internal par m kcs) ∧
      decodeKids (fun c lo' hi' => decode t h c pid lo' hi' false) hi lo kcs
        = some (kvs, feet) ∧
      ft = pid :: feet ∧
      m = t.internalMax ∧ 0 ≤ pid ∧ pid < (t.alloc : Int) ∧ kcs ≠ [] ∧
      (if rt then 2 else m / 2) ≤ kcs.length ∧ kcs.length + 1 ≤ m ∧
      sepsOkB lo hi (kcs.tail.map Prod.fst) = true ∧
      (pid :: feet).Nodup := by
  unfold decode at hd
  rcases hs : t.store pid with _ | n <;> rw [hs] at hd
  · cases hd
  cases n with
  | leaf p m kvs0 nxt => cases hd
  | internal p m kcs =>
    simp only at hd
    rcases hk : decodeKids (fun c lo' hi' => decode t h c pid lo' hi' false) hi lo kcs
      with _ | ⟨kvs0, feet⟩ <;> rw [hk] at hd <;> simp only at hd
    · cases hd
    by_cases hg : (decide (p = par) && decide (m = t.internalMax) && decide (0 ≤ pid) &&
        decide (pid < (t.alloc : Int)) &&
        !kcs.isEmpty &&
        sizeOkB rt 2 (m / 2) kcs.length m &&
        sepsOkB lo hi (kcs.tail.map Prod.fst) &&
        nodupB (pid :: feet)) = true
    · rw [if_pos hg] at hd
      obtain ⟨h9, h10⟩ := Prod.ext_iff.mp (Option.some.inj hd)
      simp only at h9 h10
      subst h9
      subst h10
      simp only [sizeOkB, Bool.and_eq_true, decide_eq_true_eq, Bool.not_eq_true'] at hg
      obtain ⟨⟨⟨⟨⟨⟨⟨h1, h2⟩, h3⟩, h4⟩, hne⟩, h5, h6⟩, h7⟩, h8⟩ := hg
      subst h1
      refine ⟨m, kcs, feet, rfl, hk, rfl, h2, h3, h4, ?_, h5, h6, h7, nodupB_iff.mp h8⟩
      intro he
      subst he
      simp at hne
    · rw [if_neg hg] at hd
      cases hd

/-- Rebuild a leaf-level decode from its pieces. -/
theorem decode_zero_intro {t : Tree} {pid par : Int} {lo hi : Option Int} {rt : Bool}
    {m : Nat} {kvs : List (Int × Nat)} {nxt : Int}
    (hs : t.store pid = some (.leaf par m kvs nxt))
    (hm : m = t.leafMax) (h0 : 0 ≤ pid) (ha : pid < (t.alloc : Int))
    (hlow : (if rt then 1 else m / 2) ≤ kvs.length) (hhigh : kvs.length + 1 ≤ m)
    (hchain : chainLtB (kvs.map Prod.fst) = true)
    (hbound : ∀ kv ∈ kvs, inLoB lo kv.1 = true ∧ inHiB kv.1 hi = true) :
    decode t 0 pid par lo hi rt = some (kvs, [pid]) := by
  unfold decode
  rw [hs]
  simp only
  rw [if_pos]
  simp only [sizeOkB, Bool.and_eq_true, decide_eq_true_eq, List.all_eq_true]
  exact ⟨⟨⟨⟨⟨⟨trivial, hm⟩, h0⟩, ha⟩, hlow, hhigh⟩, hchain⟩, hbound⟩

/-- Rebuild an internal-level decode from its pieces. -/
theorem decode_succ_intro {t : Tree} {h : Nat} {pid par : Int} {lo hi : Option Int} {rt : Bool}
    {m : Nat} {kcs : List (Int × Int)} {kvs : List (Int × Nat)} {feet : List Int}
    (hs : t.store pid = some (.internal par m kcs))
    (hk : decodeKids (fun c lo' hi' => decode t h c pid lo' hi' false) hi lo kcs
      = some (kvs, feet))
    (hm : m = t.internalMax) (h0 : 0 ≤ pid) (ha : pid < (t.alloc : Int)) (hne : kcs ≠ [])
    (hlow : (if rt then 2 else m / 2) ≤ kcs.length) (hhigh : kcs.length + 1 ≤ m)
    (hseps : sepsOkB lo hi (kcs.tail.map Prod.fst) = true)
    (hnd : (pid :: feet).Nodup) :
    decode t (h + 1) pid par lo hi rt = some (kvs, pid :: feet) := by
  unfold decode
  rw [hs]
  simp only
  rw [hk]
  simp only
  rw [if_pos]
  simp only [sizeOkB, Bool.and_eq_true, decide_eq_true_eq, Bool.not_eq_true']
  refine ⟨⟨⟨⟨⟨⟨⟨trivial, hm⟩, h0⟩, ha⟩, ?_⟩, hlow, hhigh⟩, hseps⟩, nodupB_iff.mpr hnd⟩
  cases kcs with
  | nil => cases hne rfl
  | cons a l => rfl

/-! ### Ordering helpers over optional bounds -/

theorem inHiB_of_lt {k k' : Int} {hi : Option Int}
    (h1 : k < k') (h2 : inHiB k' hi = true) : inHiB k hi = true := by
  cases hi with
  | none => rfl
  | some b =>
    rw [inHiB_some] at h2 ⊢
    omega

theorem inLoB_of_ltLo {k k' : Int} {lo : Option Int}
    (h1 : ltLoB lo k' = true) (h2 : k' ≤ k) : inLoB lo k = true := by
  cases lo with
  | none => rfl
  | some a =>
    rw [ltLoB_some] at h1
    rw [inLoB_some]
    omega

theorem ltLoB_of_le {k k' : Int} {lo : Option Int}
    (h1 : ltLoB lo k' = true) (h2 : k' ≤ k) : ltLoB lo k = true := by
  cases lo with
  | none => rfl
  | some a =>
    rw [ltLoB_some] at h1 ⊢
    omega

/-- Peel a cons from `decodeKids`. -/
theorem kids_cons_inv {dec : Int → Option Int → Option Int → Option (List (Int × Nat) × List Int)}
    {hi lo : Option Int} {k c : Int} {rest : List (Int × Int)}
    {r : List (Int × Nat) × List Int}
    (h : decodeKids dec hi lo ((k, c) :: rest) = some r) :
    ∃ kvs1 ft1 kvs2 ft2, dec c lo (kidsUp hi rest) = some (kvs1, ft1) ∧
      decodeKids dec hi (kidsUp hi rest) rest = some (kvs2, ft2) ∧
      r = (kvs1 ++ kvs2, ft1 ++ ft2) := by
  unfold decodeKids at h
  rcases h1 : dec c lo (kidsUp hi rest) with _ | ⟨kvs1, ft1⟩ <;> rw [h1] at h
  · cases h
  rcases h2 : decodeKids dec hi (kidsUp hi rest) rest with _ | ⟨kvs2, ft2⟩ <;> rw [h2] at h
  · cases h
  simp only at h
  exact ⟨kvs1, ft1, kvs2, ft2, rfl, rfl, (Option.some.inj h).symm⟩

theorem kids_nil_inv {dec : Int → Option Int → Option Int → Option (List (Int × Nat) × List Int)}
    {hi lo : Option Int} {r : List (Int × Nat) × List Int}
    (h : decodeKids dec hi lo [] = some r) : r = ([], []) :=
  (Option.some.inj h).symm

theorem sepsOk_tail {lo hi : Option Int} {k1 : Int} {ks : List Int}
    (h : sepsOkB lo hi (k1 :: ks) = true) : sepsOkB (some k1) hi ks = true := by
  simp only [sepsOkB, Bool.and_eq_true, List.all_eq_true] at h ⊢
  obtain ⟨hc, hall⟩ := h
  refine ⟨chainLtB_tail hc, fun a ha => ?_⟩
  have h2 := hall a (List.mem_cons_of_mem _ ha)
  refine ⟨?_, h2.2⟩
  rw [ltLoB_some]
  exact chainLtB_lt_of_mem hc ha

theorem sepsOk_head {lo hi : Option Int} {k1 : Int} {ks : List Int}
    (h : sepsOkB lo hi (k1 :: ks) = true) :
    ltLoB lo k1 = true ∧ inHiB k1 hi = true := by
  simp only [sepsOkB, Bool.and_eq_true, List.all_eq_true] at h
  exact h.2 k1 (List.mem_cons_self _ _)

/-- All keys produced by `decodeKids` lie in the window `[lo, hi)`. -/
theorem kids_bounds {dec : Int → Option Int → Option Int → Option (List (Int × Nat) × List Int)}
    {hi : Option Int}
    (hdec : ∀ c lo' hi' kvs' ft', dec c lo' hi' = some (kvs', ft') →
      ∀ kv ∈ kvs', inLoB lo' kv.1 = true ∧ inHiB kv.1 hi' = true) :
    ∀ entries lo kvs ft, decodeKids dec hi lo entries = some (kvs, ft) →
      sepsOkB lo hi (entries.tail.map Prod.fst) = true →
      ∀ kv ∈ kvs, inLoB lo kv.1 = true ∧ inHiB kv.1 hi = true := by
  intro entries
  induction entries with
  | nil =>
    intro lo kvs ft h _ kv hkv
    cases kids_nil_inv h
    cases hkv
  | cons e rest ih =>
    obtain ⟨k0, c0⟩ := e
    intro lo kvs ft h hseps kv hkv
    obtain ⟨kvs1, ft1, kvs2, ft2, h1, h2, h3⟩ := kids_cons_inv h
    obtain ⟨rfl, rfl⟩ : kvs = kvs1 ++ kvs2 ∧ ft = ft1 ++ ft2 := by
      cases h3; exact ⟨rfl, rfl⟩
    rcases List.mem_append.mp hkv with hm | hm
    · have hb := hdec c0 lo (kidsUp hi rest) kvs1 ft1 h1 kv hm
      cases rest with
      | nil => exact hb
      | cons e1 r1 =>
        obtain ⟨k1, c1⟩ := e1
        refine ⟨hb.1, ?_⟩
        have hup : kidsUp hi ((k1, c1) :: r1) = some k1 := rfl
        rw [hup] at hb
        have hk1hi : inHiB k1 hi = true := by
          have := @sepsOk_head lo hi k1 (r1.map Prod.fst) (by simpa using hseps)
          exact this.2
        exact inHiB_of_lt (by have := hb.2; rwa [inHiB_some] at this) hk1hi
    · cases rest with
      | nil =>
        cases kids_nil_inv h2
        cases hm
      | cons e1 r1 =>
        obtain ⟨k1, c1⟩ := e1
        have hseps1 : sepsOkB lo hi (k1 :: r1.map Prod.fst) = true := by simpa using hseps
        have hrec := ih (some k1) kvs2 ft2 (by simpa using h2) (by
          simpa using sepsOk_tail hseps1) kv hm
        refine ⟨?_, hrec.2⟩
        have hk1lo := (sepsOk_head hseps1).1
        exact inLoB_of_ltLo hk1lo (by have := hrec.1; rwa [inLoB_some] at this)

/-- All keys of a decoded subtree lie in its window. -/
theorem decode_bounds {t : Tree} :
    ∀ h {pid par : Int} {lo hi : Option Int} {rt : Bool} {kvs : List (Int × Nat)}
      {ft : List Int}, decode t h pid par lo hi rt = some (kvs, ft) →
      ∀ kv ∈ kvs, inLoB lo kv.1 = true ∧ inHiB kv.1 hi = true := by
  intro h
  induction h with
  | zero =>
    intro pid par lo hi rt kvs ft hd kv hkv
    obtain ⟨m, nxt, _, _, _, _, _, _, _, _, hb⟩ := decode_zero_inv hd
    exact hb kv hkv
  | succ h ih =>
    intro pid par lo hi rt kvs ft hd kv hkv
    obtain ⟨m, kcs, feet, hs, hk, hr, _, _, _, _, _, _, hseps, _⟩ := decode_succ_inv hd
    exact kids_bounds (fun c lo' hi' kvs'' ft'' hdc => ih hdc) kcs lo kvs feet hk hseps kv hkv

/-- Generic property propagation over children footprints. -/
theorem kids_feet {dec : Int → Option Int → Option Int → Option (List (Int × Nat) × List Int)}
    {hi : Option Int} {P : Int → Prop}
    (hdec : ∀ c lo' hi' kvs' ft', dec c lo' hi' = some (kvs', ft') → ∀ q ∈ ft', P q) :
    ∀ entries lo kvs ft, decodeKids dec hi lo entries = some (kvs, ft) → ∀ q ∈ ft, P q := by
  intro entries
  induction entries with
  | nil =>
    intro lo kvs ft h q hq
    cases kids_nil_inv h
    cases hq
  | cons e rest ih =>
    obtain ⟨k0, c0⟩ := e
    intro lo kvs ft h q hq
    obtain ⟨kvs1, ft1, kvs2, ft2, h1, h2, h3⟩ := kids_cons_inv h
    obtain ⟨-, rfl⟩ := Prod.ext_iff.mp h3
    simp only at hq
    rcases List.mem_append.mp hq with hm | hm
    · exact hdec c0 lo (kidsUp hi rest) kvs1 ft1 h1 q hm
    · exact ih (kidsUp hi rest) kvs2 ft2 h2 q hm

/-- Footprints stay within the allocated page id range. -/
theorem decode_feet_range {t : Tree} :
    ∀ h {pid par : Int} {lo hi : Option Int} {rt : Bool} {kvs : List (Int × Nat)}
      {ft : List Int}, decode t h pid par lo hi rt = some (kvs, ft) →
      ∀ q ∈ ft, 0 ≤ q ∧ q < (t.alloc : Int) := by
  intro h
  induction h with
  | zero =>
    intro pid par lo hi rt kvs ft hd q hq
    obtain ⟨m, nxt, _, rfl, _, h0, ha, _⟩ := decode_zero_inv hd
    rcases List.mem_singleton.mp hq with rfl
    exact ⟨h0, ha⟩
  | succ h ih =>
    intro pid par lo hi rt kvs ft hd q hq
    obtain ⟨m, kcs, feet, hs, hk, rfl, _, h0, ha, _⟩ := decode_succ_inv hd
    rcases List.mem_cons.mp hq with rfl | hm
    · exact ⟨h0, ha⟩
    · exact kids_feet (fun c lo' hi' kvs' ft' hdc => ih hdc) kcs lo kvs feet hk q hm

/-- Footprints are duplicate-free. -/
theorem decode_feet_nodup {t : Tree} :
    ∀ h {pid par : Int} {lo hi : Option Int} {rt : Bool} {kvs : List (Int × Nat)}
      {ft : List Int}, decode t h pid par lo hi rt = some (kvs, ft) → ft.Nodup := by
  intro h
  induction h with
  | zero =>
    intro pid par lo hi rt kvs ft hd
    obtain ⟨m, nxt, _, rfl, _⟩ := decode_zero_inv hd
    simp
  | succ h ih =>
    intro pid par lo hi rt kvs ft hd
    obtain ⟨m, kcs, feet, hs, hk, rfl, _, _, _, _, _, _, _, hnd⟩ := decode_succ_inv hd
    exact hnd

/-- The decoding page is the head of its footprint. -/
theorem decode_feet_head {t : Tree} {h : Nat} {pid par : Int} {lo hi : Option Int}
    {rt : Bool} {kvs : List (Int × Nat)} {ft : List Int}
    (hd : decode t h pid par lo hi rt = some (kvs, ft)) :
    ∃ rest, ft = pid :: rest := by
  cases h with
  | zero =>
    obtain ⟨m, nxt, _, rfl, _⟩ := decode_zero_inv hd
    exact ⟨[], rfl⟩
  | succ h =>
    obtain ⟨m, kcs, feet, _, _, rfl, _⟩ := decode_succ_inv hd
    exact ⟨feet, rfl⟩

/-- A height-`h` subtree occupies more than `h` pages. -/
theorem decode_feet_len {t : Tree} :
    ∀ h {pid par : Int} {lo hi : Option Int} {rt : Bool} {kvs : List (Int × Nat)}
      {ft : List Int}, decode t h pid par lo hi rt = some (kvs, ft) →
      h + 1 ≤ ft.length := by
  intro h
  induction h with
  | zero =>
    intro pid par lo hi rt kvs ft hd
    obtain ⟨m, nxt, _, rfl, _⟩ := decode_zero_inv hd
    simp
  | succ h ih =>
    intro pid par lo hi rt kvs ft hd
    obtain ⟨m, kcs, feet, hs, hk, rfl, _, _, _, hne, _⟩ := decode_succ_inv hd
    cases kcs with
    | nil => cases hne rfl
    | cons e rest =>
      obtain ⟨k0, c0⟩ := e
      obtain ⟨kvs1, ft1, kvs2, ft2, h1, h2, h3⟩ := kids_cons_inv hk
      obtain ⟨-, rfl⟩ := Prod.ext_iff.mp h3
      have := ih h1
      simp only [List.length_cons, List.length_append]
      omega

/-- Heights are bounded by the allocation counter. -/
theorem decode_height_lt {t : Tree} {h : Nat} {pid par : Int} {lo hi : Option Int}
    {rt : Bool} {kvs : List (Int × Nat)} {ft : List Int}
    (hd : decode t h pid par lo hi rt = some (kvs, ft)) : h < t.alloc := by
  have hlen := decode_feet_len h hd
  have hnd := decode_feet_nodup h hd
  have hrange := decode_feet_range h hd
  have hsub : ft.toFinset ⊆ Finset.Ico (0 : Int) (t.alloc : Int) := by
    intro q hq
    rw [List.mem_toFinset] at hq
    exact Finset.mem_Ico.mpr (hrange q hq)
  have hcard : ft.toFinset.card = ft.length := List.toFinset_card_of_nodup hnd
  have hle := Finset.card_le_card hsub
  rw [hcard, Int.card_Ico] at hle
  simp only [sub_zero, Int.toNat_natCast] at hle
  omega

/-- `decodeKids` only depends on the child decoder's behaviour on the
footprint. -/
theorem kids_mono {dec dec' : Int → Option Int → Option Int → Option (List (Int × Nat) × List Int)}
    {hi : Option Int} {P : Int → Prop}
    (hdd : ∀ c lo' hi' kvs' ft', dec c lo' hi' = some (kvs', ft') →
      (∀ q ∈ ft', P q) → dec' c lo' hi' = some (kvs', ft')) :
    ∀ entries lo kvs ft, decodeKids dec hi lo entries = some (kvs, ft) →
      (∀ q ∈ ft, P q) → decodeKids dec' hi lo entries = some (kvs, ft) := by
  intro entries
  induction entries with
  | nil =>
    intro lo kvs ft h _
    cases kids_nil_inv h
    rfl
  | cons e rest ih =>
    obtain ⟨k0, c0⟩ := e
    intro lo kvs ft h hP
    obtain ⟨kvs1, ft1, kvs2, ft2, h1, h2, h3⟩ := kids_cons_inv h
    obtain ⟨rfl, rfl⟩ := Prod.ext_iff.mp h3
    have hP1 : ∀ q ∈ ft1, P q := fun q hq => hP q (List.mem_append.mpr (Or.inl hq))
    have hP2 : ∀ q ∈ ft2, P q := fun q hq => hP q (List.mem_append.mpr (Or.inr hq))
    have g1 := hdd c0 lo (kidsUp hi rest) kvs1 ft1 h1 hP1
    have g2 := ih (kidsUp hi rest) kvs2 ft2 h2 hP2
    unfold decodeKids
    rw [g1, g2]

/-- Frame rule: decoding only reads the footprint, and is stable under
growing the allocator. -/
theorem decode_mono {t t' : Tree} (hlm : t'.leafMax = t.leafMax)
    (him : t'.internalMax = t.internalMax) (hal : t.alloc ≤ t'.alloc) :
    ∀ h {pid par : Int} {lo hi : Option Int} {rt : Bool} {kvs : List (Int × Nat)}
      {ft : List Int}, decode t h pid par lo hi rt = some (kvs, ft) →
      (∀ q ∈ ft, t'.store q = t.store q) →
      decode t' h pid par lo hi rt = some (kvs, ft) := by
  intro h
  induction h with
  | zero =>
    intro pid par lo hi rt kvs ft hd heq
    obtain ⟨m, nxt, hs, rfl, hm, h0, ha, hlow, hhigh, hchain, hb⟩ := decode_zero_inv hd
    exact decode_zero_intro (by rw [heq pid (by simp), hs]) (by rw [hlm, ← hm])
      h0 (lt_of_lt_of_le ha (by exact_mod_cast hal)) hlow hhigh hchain hb
  | succ h ih =>
    intro pid par lo hi rt kvs ft hd heq
    obtain ⟨m, kcs, feet, hs, hk, rfl, hm, h0, ha, hne, hlow, hhigh, hseps, hnd⟩ :=
      decode_succ_inv hd
    have heq' : ∀ q ∈ feet, t'.store q = t.store q :=
      fun q hq => heq q (List.mem_cons_of_mem _ hq)
    have hk' := kids_mono (P := fun q => t'.store q = t.store q)
      (fun c lo' hi' kvs' ft' hdc hP => ih hdc hP) kcs lo kvs feet hk heq'
    exact decode_succ_intro (by rw [heq pid (by simp), hs]) hk' (by rw [him, ← hm])
      h0 (lt_of_lt_of_le ha (by exact_mod_cast hal)) hne hlow hhigh hseps hnd

theorem internalLookup_single {k0 c0 k : Int} : internalLookup [(k0, c0)] k = c0 := rfl

theorem internalLookup_cons₂ {k0 c0 k1 c1 k : Int} {r : List (Int × Int)} :
    internalLookup ((k0, c0) :: (k1, c1) :: r) k
      = if k < k1 then c0 else internalLookup ((k1, c1) :: r) k := rfl

/-- `Lookup` picks the unique child whose window contains `k`, and `k`'s
bindings in the concatenation are exactly those of that child. -/
theorem kids_find {t : Tree} {hgt : Nat} {pp : Int} {hi : Option Int} {k : Int} :
    ∀ (entries : List (Int × Int)) (lo : Option Int) (kvs : List (Int × Nat)) (ft : List Int),
      decodeKids (fun c lo' hi' => decode t hgt c pp lo' hi' false) hi lo entries
        = some (kvs, ft) →
      sepsOkB lo hi (entries.tail.map Prod.fst) = true →
      inLoB lo k = true → inHiB k hi = true → entries ≠ [] →
      ∃ (lo' hi' : Option Int) (kvs' : List (Int × Nat)) (ft' : List Int),
        decode t hgt (internalLookup entries k) pp lo' hi' false = some (kvs', ft') ∧
        inLoB lo' k = true ∧ inHiB k hi' = true ∧
        (∀ q ∈ ft', q ∈ ft) ∧
        (∀ v, (k, v) ∈ kvs ↔ (k, v) ∈ kvs') := by
  intro entries
  induction entries with
  | nil => intro lo kvs ft _ _ _ _ hne; cases hne rfl
  | cons e rest ih =>
    obtain ⟨k0, c0⟩ := e
    intro lo kvs ft hdk hseps hklo hkhi _
    obtain ⟨kvs1, ft1, kvs2, ft2, h1, h2, h3⟩ := kids_cons_inv hdk
    obtain ⟨rfl, rfl⟩ := Prod.ext_iff.mp h3
    cases rest with
    | nil =>
      cases kids_nil_inv h2
      refine ⟨lo, hi, kvs1, ft1, ?_, hklo, hkhi, ?_, ?_⟩
      · rw [internalLookup_single]
        exact h1
      · intro q hq; simp [hq]
      · intro v; simp
    | cons e1 r1 =>
      obtain ⟨k1, c1⟩ := e1
      have hup : kidsUp hi ((k1, c1) :: r1) = some k1 := rfl
      rw [hup] at h1 h2
      have hseps1 : sepsOkB lo hi (k1 :: r1.map Prod.fst) = true := by simpa using hseps
      by_cases hlt : k < k1
      · -- stays in the first child
        refine ⟨lo, some k1, kvs1, ft1, ?_, hklo, by rw [inHiB_some]; exact hlt, ?_, ?_⟩
        · rw [internalLookup_cons₂, if_pos hlt]
          exact h1
        · intro q hq; simp [hq]
        · intro v
          simp only [List.mem_append]
          constructor
          · rintro (hm | hm)
            · exact hm
            · exfalso
              have hb := kids_bounds (fun c lo' hi' kvs' ft' hdc => decode_bounds hgt hdc)
                ((k1, c1) :: r1) (some k1) kvs2 ft2 h2
                (by simpa using sepsOk_tail hseps1) (k, v) hm
              rw [inLoB_some] at hb
              omega
          · exact Or.inl
      · -- moves to the rest
        push_neg at hlt
        have hrec := ih (some k1) kvs2 ft2 h2 (by simpa using sepsOk_tail hseps1)
          (by rw [inLoB_some]; exact hlt) hkhi (by simp)
        obtain ⟨lo', hi', kvs', ft', hdec', hlo', hhi', hsub, hiff⟩ := hrec
        refine ⟨lo', hi', kvs', ft', ?_, hlo', hhi', ?_, ?_⟩
        · rw [internalLookup_cons₂, if_neg (by omega)]
          exact hdec'
        · intro q hq; simp [hsub q hq]
        · intro v
          rw [← hiff v]
          simp only [List.mem_append]
          constructor
          · rintro (hm | hm)
            · exfalso
              have hb := decode_bounds hgt h1 (k, v) hm
              rw [inHiB_some] at hb
              have := hb.2
              omega
            · exact hm
          · exact Or.inr
  /- end kids_find -/

/-- Descent correctness: from a decoded subtree whose window contains `k`,
`FindLeafPage`'s loop reaches a leaf of the subtree holding exactly `k`'s
bindings of the whole subtree. -/
theorem descend {t : Tree} {k : Int} :
    ∀ h {pid par : Int} {lo hi : Option Int} {rt : Bool} {kvs : List (Int × Nat)}
      {ft : List Int}, decode t h pid par lo hi rt = some (kvs, ft) →
      inLoB lo k = true → inHiB k hi = true →
      ∀ fuel, h + 1 ≤ fuel →
      ∃ lid p' m lkvs nxt, findLeafFrom t.store k false fuel pid = some lid ∧
        t.store lid = some (.leaf p' m lkvs nxt) ∧
        chainLtB (lkvs.map Prod.fst) = true ∧
        lid ∈ ft ∧
        (∀ v, (k, v) ∈ kvs ↔ (k, v) ∈ lkvs) := by
  intro h
  induction h with
  | zero =>
    intro pid par lo hi rt kvs ft hd _ _ fuel hfuel
    obtain ⟨m, nxt, hs, rfl, _⟩ := decode_zero_inv hd
    obtain ⟨f, rfl⟩ : ∃ f, fuel = f + 1 := ⟨fuel - 1, by omega⟩
    refine ⟨pid, par, m, kvs, nxt, ?_, hs, ?_, by simp, fun v => Iff.rfl⟩
    · unfold findLeafFrom
      rw [hs]
    · obtain ⟨m', nxt', _, _, _, _, _, _, _, hchain, _⟩ := decode_zero_inv hd
      exact hchain
  | succ h ih =>
    intro pid par lo hi rt kvs ft hd hklo hkhi fuel hfuel
    obtain ⟨m, kcs, feet, hs, hk, rfl, _, _, _, hne, _, _, hseps, _⟩ := decode_succ_inv hd
    obtain ⟨f, rfl⟩ : ∃ f, fuel = f + 1 := ⟨fuel - 1, by omega⟩
    obtain ⟨lo', hi', kvs', ft', hdec', hlo', hhi', hsub, hiff⟩ :=
      kids_find kcs lo kvs feet hk hseps hklo hkhi hne
    obtain ⟨lid, p', m', lkvs, nxt, hfind, hleaf, hchain, hmem, hiff2⟩ :=
      ih hdec' hlo' hhi' f (by omega)
    refine ⟨lid, p', m', lkvs, nxt, ?_, hleaf, hchain, ?_, ?_⟩
    · unfold findLeafFrom
      rw [hs]
      simp only [Bool.false_eq_true, if_false]
      exact hfind
    · exact List.mem_cons_of_mem _ (hsub lid hmem)
    · intro v
      rw [hiff v, hiff2 v]

/-! ### Claim C4 — duplicate-key insert -/

/-- The root page of a decoded tree is a valid page id. -/
theorem decode_root_nonneg {t : Tree} {h : Nat} {kvs : List (Int × Nat)} {ft : List Int}
    (hd : decode t h t.root (-1) none none true = some (kvs, ft)) : t.root ≠ -1 := by
  obtain ⟨rest, rfl⟩ := decode_feet_head hd
  have := decode_feet_range h hd t.root (by simp)
  omega

/-- C4: on a well-formed tree (hypotheses: the root decodes to `kvs`) that
already contains the key `k`, `Insert(k, v')` returns false and leaves the
tree exactly unchanged — no entry is inserted and no page is touched, so in
particular no node is split. -/
theorem claimC4 (t : Tree) (k : Int) (v' : Nat) (h : Nat) (kvs : List (Int × Nat))
    (ft : List Int)
    (hd : decode t h t.root (-1) none none true = some (kvs, ft))
    (hk : k ∈ kvs.map Prod.fst) :
    t.insert k v' = some (false, t) := by
  have hroot := decode_root_nonneg hd
  have hheight := decode_height_lt hd
  obtain ⟨lid, p', m, lkvs, nxt, hfind, hleaf, hchain, hmem, hiff⟩ :=
    descend h hd rfl rfl (t.alloc + 1) (by omega)
  have hfp : t.findLeafPage k false = some lid := by
    unfold Tree.findLeafPage
    rw [if_neg hroot]
    exact hfind
  obtain ⟨a, hma, hfst⟩ := List.mem_map.mp hk
  have hmem2 : (k, a.2) ∈ lkvs := by
    refine (hiff a.2).mp ?_
    have : (k, a.2) = a := by
      rw [← hfst]
    rwa [this]
  have hsome : (leafLookup lkvs k).isSome = true := by
    unfold leafLookup
    rw [Option.isSome_map']
    exact List.find?_isSome.mpr ⟨(k, a.2), hmem2, by simp⟩
  have hmain : insertIntoLeaf t k v' = some (false, t) := by
    unfold insertIntoLeaf
    rw [hfp]
    simp only
    rw [hleaf]
    simp only
    rw [if_pos hsome]
  unfold Tree.insert
  rw [if_neg hroot]
  exact hmain

/-- Witness for C4: a one-leaf tree holding keys 1 and 2; inserting key 1
again fails and the tree is unchanged. -/
theorem claimC4_witness :
    (Tree.mk (Store.empty.set 0 (.leaf (-1) 4 [(1, 10), (2, 20)] (-1))) 0 1 4 4).insert 1 99
      = some (false,
        Tree.mk (Store.empty.set 0 (.leaf (-1) 4 [(1, 10), (2, 20)] (-1))) 0 1 4 4) :=
  claimC4 _ 1 99 0 [(1, 10), (2, 20)] [0] (by rfl) (by decide)

/-! ## The size invariant (claim C3)

Every stored page holds strictly fewer pairs than its `max_size`, and every
page's `max_size` field matches the tree's configured leaf/internal maxima.
This invariant needs no key-ordering assumptions, so it survives `Remove`
even though the faulty internal `Remove` corrupts keys. -/

def sizesOk (t : Tree) : Prop :=
  ∀ pid n, t.store pid = some n →
    n.size < n.maxSizeOf ∧
    (n.isLeaf = true → n.maxSizeOf = t.leafMax) ∧
    (n.isLeaf = false → n.maxSizeOf = t.internalMax)

/-- Configuration and allocator monotonicity between two tree states. -/
def Pres (t t' : Tree) : Prop :=
  t'.leafMax = t.leafMax ∧ t'.internalMax = t.internalMax ∧ t.alloc ≤ t'.alloc

theorem Pres.refl (t : Tree) : Pres t t := ⟨rfl, rfl, le_refl _⟩

theorem Pres.trans {t1 t2 t3 : Tree} (h1 : Pres t1 t2) (h2 : Pres t2 t3) : Pres t1 t3 :=
  ⟨h2.1.trans h1.1, h2.2.1.trans h1.2.1, h1.2.2.trans h2.2.2⟩

theorem leafInsert_length (kvs : List (Int × Nat)) (k : Int) (v : Nat) :
    (leafInsert kvs k v).length = kvs.length + 1 := by
  induction kvs with
  | nil => rfl
  | cons a r ih =>
    obtain ⟨a1, a2⟩ := a
    unfold leafInsert
    split
    · simp
    · simp [ih]

theorem insertNodeAfter_length_le (kcs : List (Int × Int)) (o k n : Int) :
    (insertNodeAfter kcs o k n).length ≤ kcs.length + 1 := by
  induction kcs with
  | nil => simp [insertNodeAfter]
  | cons a r ih =>
    unfold insertNodeAfter
    split
    · simp
    · simp only [List.length_cons]
      omega

theorem internalRemove_length_le (kcs : List (Int × Int)) (i : Nat) :
    (internalRemove kcs i).length ≤ kcs.length := by
  unfold internalRemove
  split
  · simp only [List.length_append, List.length_cons, List.length_take,
      List.length_dropLast, List.length_drop]
    omega
  · simp only [List.length_dropLast]
    omega

theorem setKeyAt_length (kcs : List (Int × Int)) (i : Nat) (k : Int) :
    (setKeyAt kcs i k).length = kcs.length := by
  unfold setKeyAt
  simp

theorem setParent_size (n : Node) (p : Int) : (n.setParent p).size = n.size := by
  cases n <;> rfl

theorem setParent_maxSizeOf (n : Node) (p : Int) :
    (n.setParent p).maxSizeOf = n.maxSizeOf := by
  cases n <;> rfl

theorem setParent_isLeaf (n : Node) (p : Int) : (n.setParent p).isLeaf = n.isLeaf := by
  cases n <;> rfl

/-- Installing a compliant page preserves the invariant. -/
theorem sizesOk_set {t : Tree} (hs : sizesOk t) {pid : Int} {n : Node}
    (hn : n.size < n.maxSizeOf ∧
      (n.isLeaf = true → n.maxSizeOf = t.leafMax) ∧
      (n.isLeaf = false → n.maxSizeOf = t.internalMax)) :
    sizesOk (t.setPage pid n) := by
  intro q nq hq
  show _ ∧ (_ → _ = t.leafMax) ∧ (_ → _ = t.internalMax)
  by_cases hqe : q = pid
  · subst hqe
    have : t.store.set q n q = some n := by
      unfold Store.set
      rw [if_pos rfl]
    rw [show (t.setPage q n).store q = some n from this] at hq
    cases Option.some.inj hq
    exact hn
  · have : (t.setPage pid n).store q = t.store q := by
      show Store.set _ _ _ _ = _
      unfold Store.set
      rw [if_neg hqe]
    rw [this] at hq
    exact hs q nq hq

/-- Like `sizesOk_set`, but only requiring compliance of the pages other
than the one being overwritten (so an ill-sized intermediate write to the
same page is harmless). -/
theorem sizesOk_set' {t : Tree} {pid : Int} {n : Node}
    (hs : ∀ q nq, q ≠ pid → t.store q = some nq →
      nq.size < nq.maxSizeOf ∧
      (nq.isLeaf = true → nq.maxSizeOf = t.leafMax) ∧
      (nq.isLeaf = false → nq.maxSizeOf = t.internalMax))
    (hn : n.size < n.maxSizeOf ∧
      (n.isLeaf = true → n.maxSizeOf = t.leafMax) ∧
      (n.isLeaf = false → n.maxSizeOf = t.internalMax)) :
    sizesOk (t.setPage pid n) := by
  intro q nq hq
  show _ ∧ (_ → _ = t.leafMax) ∧ (_ → _ = t.internalMax)
  have hq' : Store.set t.store pid n q = some nq := hq
  unfold Store.set at hq'
  by_cases hqe : q = pid
  · rw [if_pos hqe] at hq'
    cases Option.some.inj hq'
    exact hn
  · rw [if_neg hqe] at hq'
    exact hs q nq hqe hq'

/-- Deleting a page preserves the invariant. -/
theorem sizesOk_del {t : Tree} (hs : sizesOk t) (dels : List Int) :
    sizesOk (dels.foldl (fun tt d => { tt with store := tt.store.del d }) t) := by
  induction dels generalizing t with
  | nil => exact hs
  | cons d r ih =>
    refine ih (t := { t with store := t.store.del d }) ?_
    intro q nq hq
    have hq' : t.store.del d q = some nq := hq
    unfold Store.del at hq'
    by_cases hqe : q = d
    · rw [if_pos hqe] at hq'; cases hq'
    · rw [if_neg hqe] at hq'
      exact hs q nq hq'

theorem sizesOk_alloc {t : Tree} (hs : sizesOk t) (a : Nat) :
    sizesOk { t with alloc := a } := hs

theorem populateNewRoot_length (o k n : Int) : (populateNewRoot o k n).length = 2 := rfl

/-- Re-parenting keeps the size invariant and the configuration. -/
theorem reparentAll_pres {p : Int} :
    ∀ (cs : List Int) {t t' : Tree}, sizesOk t → reparentAll t cs p = some t' →
      sizesOk t' ∧ Pres t t' := by
  intro cs
  induction cs with
  | nil =>
    intro t t' hs h
    cases Option.some.inj h
    exact ⟨hs, Pres.refl t⟩
  | cons c r ih =>
    intro t t' hs h
    unfold reparentAll at h
    rcases hc : t.store c with _ | n <;> rw [hc] at h
    · cases h
    have hn := hs c n hc
    have hs1 : sizesOk (t.setPage c (n.setParent p)) := by
      refine sizesOk_set hs ?_
      rw [setParent_size, setParent_maxSizeOf, setParent_isLeaf]
      exact hn
    obtain ⟨h1, h2⟩ := ih hs1 h
    exact ⟨h1, Pres.trans (show Pres t (t.setPage c (n.setParent p)) from
      ⟨rfl, rfl, le_refl _⟩) h2⟩

/-- `InsertIntoParent` keeps the size invariant. -/
theorem insertIntoParent_pres :
    ∀ (fuel : Nat) {t : Tree} {oldId key newId : Int} {t' : Tree},
      2 ≤ t.leafMax → 3 ≤ t.internalMax → sizesOk t →
      insertIntoParent t fuel oldId key newId = some t' →
      sizesOk t' ∧ Pres t t' := by
  intro fuel
  induction fuel with
  | zero => intro t _ _ _ _ _ _ _ h; cases h
  | succ fuel ih =>
    intro t oldId key newId t' hl hi hs h
    unfold insertIntoParent at h
    rcases ho : t.store oldId with _ | oldN <;> rw [ho] at h
    · cases h
    simp only at h
    by_cases hroot : oldN.parentOf = -1
    · rw [if_pos hroot] at h
      rcases hn : ({ t with alloc := t.alloc + 1 } : Tree).setPage oldId
          (oldN.setParent (t.alloc : Int)) |>.store newId with _ | newN <;> rw [hn] at h
      · cases h
      simp only at h
      obtain rfl := Option.some.inj h.symm
      constructor
      · have hs1 : sizesOk (({ t with alloc := t.alloc + 1 } : Tree).setPage oldId
            (oldN.setParent (t.alloc : Int))) := by
          refine sizesOk_set (sizesOk_alloc hs _) ?_
          rw [setParent_size, setParent_maxSizeOf, setParent_isLeaf]
          exact hs oldId oldN ho
        have hs2 : sizesOk ((({ t with alloc := t.alloc + 1 } : Tree).setPage oldId
            (oldN.setParent (t.alloc : Int))).setPage newId
            (newN.setParent (t.alloc : Int))) := sizesOk_set hs1 (by
          rw [setParent_size, setParent_maxSizeOf, setParent_isLeaf]
          exact hs1 newId newN hn)
        have hs3 : sizesOk (((({ t with alloc := t.alloc + 1 } : Tree).setPage oldId
            (oldN.setParent (t.alloc : Int))).setPage newId
            (newN.setParent (t.alloc : Int))).setPage (t.alloc : Int)
            (.internal (-1) t.internalMax
            (populateNewRoot oldId key newId))) := sizesOk_set hs2 (by
          refine ⟨?_, (by intro hc; cases hc), fun _ => rfl⟩
          show (populateNewRoot oldId key newId).length < t.internalMax
          rw [populateNewRoot_length]
          omega)
        exact hs3
      · refine ⟨rfl, rfl, ?_⟩
        show t.alloc ≤ t.alloc + 1
        omega
    · rw [if_neg hroot] at h
      rcases hp : t.store oldN.parentOf with _ | pn <;> rw [hp] at h
      · cases h
      cases pn with
      | leaf _ _ _ _ => cases h
      | internal pp pm kcs =>
        simp only at h
        have hpn := hs _ _ hp
        have hpm : pm = t.internalMax := hpn.2.2 rfl
        have hsz : kcs.length < pm := hpn.1
        have hlen := insertNodeAfter_length_le kcs oldId key newId
        by_cases hsplit : t.internalMax ≤ (insertNodeAfter kcs oldId key newId).length
        · rw [if_pos hsplit] at h
          have hgood : (insertNodeAfter kcs oldId key newId).length = pm := by omega
          set kcs' := insertNodeAfter kcs oldId key newId with hkcs'
          split at h
          next hrep => cases h
          next t5 hrep =>
            obtain ⟨hs5, hp5⟩ := reparentAll_pres _ (by
              refine sizesOk_set (sizesOk_set' ?_ ?_) ?_
              · intro q nq hne hq
                have hq' : Store.set t.store oldN.parentOf (.internal pp pm kcs') q
                    = some nq := hq
                unfold Store.set at hq'
                rw [if_neg hne] at hq'
                exact hs q nq hq'
              · refine ⟨?_, (by intro hc; cases hc), fun _ => hpm⟩
                show (kcs'.take (pm / 2)).length < pm
                rw [List.length_take]
                rw [hpm] at hgood ⊢
                omega
              · refine ⟨?_, (by intro hc; cases hc), fun _ => rfl⟩
                show (kcs'.drop (pm / 2)).length < t.internalMax
                rw [List.length_drop]
                rw [hpm] at hgood
                omega) hrep
            obtain ⟨hs', hp'⟩ := ih (t := t5) (by rw [hp5.1]; exact hl)
              (by rw [hp5.2.1]; exact hi) hs5 h
            refine ⟨hs', Pres.trans ?_ (Pres.trans hp5 hp')⟩
            exact ⟨rfl, rfl, by show t.alloc ≤ t.alloc + 1; omega⟩
        · rw [if_neg hsplit] at h
          obtain rfl := Option.some.inj h.symm
          refine ⟨sizesOk_set hs ⟨?_, (by intro hc; cases hc), fun _ => hpm⟩, Pres.refl _⟩
          show (insertNodeAfter kcs oldId key newId).length < pm
          rw [hpm]
          omega

/-- `InsertIntoLeaf` keeps the size invariant. -/
theorem insertIntoLeaf_pres {t : Tree} {k : Int} {v : Nat} {b : Bool} {t' : Tree}
    (hl : 2 ≤ t.leafMax) (hi : 3 ≤ t.internalMax) (hs : sizesOk t)
    (h : insertIntoLeaf t k v = some (b, t')) : sizesOk t' ∧ Pres t t' := by
  unfold insertIntoLeaf at h
  rcases hf : t.findLeafPage k false with _ | lid <;> rw [hf] at h
  · cases h
  simp only at h
  rcases hlf : t.store lid with _ | n <;> rw [hlf] at h
  · cases h
  cases n with
  | internal _ _ _ => cases h
  | leaf par m kvs nxt =>
    simp only at h
    have hn := hs lid _ hlf
    have hm : m = t.leafMax := hn.2.1 rfl
    have hsz : kvs.length < m := hn.1
    by_cases hdup : (leafLookup kvs k).isSome = true
    · rw [if_pos hdup] at h
      obtain ⟨-, rfl⟩ := Prod.ext_iff.mp (Option.some.inj h)
      exact ⟨hs, Pres.refl t⟩
    · rw [if_neg hdup] at h
      have hlen := leafInsert_length kvs k v
      by_cases hsplit : m ≤ (leafInsert kvs k v).length
      · rw [if_pos hsplit] at h
        have hgood : (leafInsert kvs k v).length = m := by omega
        split at h
        next hrec => cases h
        next t5 hrec =>
          obtain ⟨-, rfl⟩ := Prod.ext_iff.mp (Option.some.inj h)
          obtain ⟨hs5, hp5⟩ := insertIntoParent_pres (t.alloc + 1) (by exact hl)
            (by exact hi) (by
              refine sizesOk_set (sizesOk_set (sizesOk_alloc hs _) ?_) ?_
              · refine ⟨?_, fun _ => rfl, (by intro hc; cases hc)⟩
                show ((leafInsert kvs k v).drop (m / 2)).length < t.leafMax
                rw [List.length_drop]
                rw [hm] at hgood
                omega
              · refine ⟨?_, fun _ => hm, (by intro hc; cases hc)⟩
                show ((leafInsert kvs k v).take (m / 2)).length < m
                rw [List.length_take]
                omega) hrec
          refine ⟨hs5, Pres.trans ?_ hp5⟩
          exact ⟨rfl, rfl, by show t.alloc ≤ t.alloc + 1; omega⟩
      · rw [if_neg hsplit] at h
        obtain ⟨-, rfl⟩ := Prod.ext_iff.mp (Option.some.inj h)
        refine ⟨sizesOk_set hs ⟨?_, fun _ => hm, (by intro hc; cases hc)⟩, Pres.refl t⟩
        show (leafInsert kvs k v).length < m
        omega

/-- `Insert` keeps the size invariant. -/
theorem insert_pres {t : Tree} {k : Int} {v : Nat} {b : Bool} {t' : Tree}
    (hl : 2 ≤ t.leafMax) (hi : 3 ≤ t.internalMax) (hs : sizesOk t)
    (h : t.insert k v = some (b, t')) : sizesOk t' ∧ Pres t t' := by
  unfold Tree.insert at h
  by_cases hroot : t.root = -1
  · rw [if_pos hroot] at h
    obtain ⟨-, rfl⟩ := Prod.ext_iff.mp (Option.some.inj h)
    refine ⟨sizesOk_set hs ⟨?_, fun _ => rfl, (by intro hc; cases hc)⟩,
      ⟨rfl, rfl, by show t.alloc ≤ t.alloc + 1; omega⟩⟩
    show 1 < t.leafMax
    omega
  · rw [if_neg hroot] at h
    exact insertIntoLeaf_pres hl hi hs h

/-- `AdjustRoot` keeps the size invariant. -/
theorem adjustRoot_pres {t : Tree} {nodeId : Int} {t' : Tree} {dels : List Int}
    (hs : sizesOk t) (h : adjustRoot t nodeId = some (t', dels)) :
    sizesOk t' ∧ Pres t t' := by
  unfold adjustRoot at h
  rcases hn : t.store nodeId with _ | node <;> rw [hn] at h
  · cases h
  simp only at h
  by_cases hsz : 1 < node.size
  · rw [if_pos hsz] at h
    obtain ⟨rfl, -⟩ := Prod.ext_iff.mp (Option.some.inj h)
    exact ⟨hs, Pres.refl t⟩
  · rw [if_neg hsz] at h
    cases node with
    | leaf p m kvs nxt =>
      simp only at h
      by_cases h1 : kvs.length = 1
      · rw [if_pos h1] at h
        obtain ⟨rfl, -⟩ := Prod.ext_iff.mp (Option.some.inj h)
        exact ⟨hs, Pres.refl t⟩
      · rw [if_neg h1] at h
        obtain ⟨rfl, -⟩ := Prod.ext_iff.mp (Option.some.inj h)
        exact ⟨hs, Pres.refl t⟩
    | internal p m kcs =>
      simp only at h
      rcases hc : t.store (removeAndReturnOnlyChild kcs) with _ | cn <;> rw [hc] at h
      · cases h
      simp only at h
      obtain ⟨rfl, -⟩ := Prod.ext_iff.mp (Option.some.inj h)
      refine ⟨sizesOk_set hs ?_, Pres.refl _⟩
      rw [setParent_size, setParent_maxSizeOf, setParent_isLeaf]
      exact hs _ cn hc

/-- `Redistribute` keeps the size invariant, given that the receiving node
underflowed. -/
theorem redistribute_pres {t : Tree} {sibId nodeId : Int} {index : Nat} {onLeft : Bool}
    {t' : Tree} {node : Node}
    (hs : sizesOk t) (hnd : t.store nodeId = some node)
    (hu : node.size < node.minSizeOf)
    (h : redistribute t sibId nodeId index onLeft = some t') :
    sizesOk t' ∧ Pres t t' := by
  unfold redistribute at h
  rw [hnd] at h
  cases node with
  | leaf np nm nkvs nnx =>
    rcases hsb : t.store sibId with _ | sib <;> rw [hsb] at h
    · cases h
    cases sib with
    | internal _ _ _ => cases h
    | leaf sp sm skvs snx =>
      simp only at h
      have hnn := hs nodeId _ hnd
      have hss := hs sibId _ hsb
      have hnm : nm = t.leafMax := hnn.2.1 rfl
      have hsm : sm = t.leafMax := hss.2.1 rfl
      have husz : nkvs.length < nm / 2 := hu
      have hssz : skvs.length < sm := hss.1
      cases onLeft
      · simp only [Bool.false_eq_true, if_false] at h
        have hs1 : sizesOk ((t.setPage nodeId
            (.leaf np nm (nkvs ++ [skvs.headD (0, 0)]) nnx)).setPage sibId
            (.leaf sp sm skvs.tail snx)) := by
          refine sizesOk_set (sizesOk_set hs ?_) ?_
          · refine ⟨?_, fun _ => hnm, (by intro hc; cases hc)⟩
            show (nkvs ++ [skvs.headD (0, 0)]).length < nm
            simp only [List.length_append, List.length_cons, List.length_nil]
            omega
          · refine ⟨?_, fun _ => hsm, (by intro hc; cases hc)⟩
            show skvs.tail.length < sm
            simp only [List.length_tail]
            omega
        split at h
        · rename_i qp qm qkcs hq
          obtain rfl := Option.some.inj h.symm
          have hqq := hs1 np _ hq
          refine ⟨sizesOk_set hs1 ?_, Pres.refl _⟩
          refine ⟨?_, (by intro hc; cases hc), fun _ => hqq.2.2 rfl⟩
          show (setKeyAt qkcs index _).length < qm
          rw [setKeyAt_length]
          exact hqq.1
        · cases h
      · simp only [if_true] at h
        have hs1 : sizesOk ((t.setPage nodeId
            (.leaf np nm (skvs.getLastD (0, 0) :: nkvs) nnx)).setPage sibId
            (.leaf sp sm skvs.dropLast snx)) := by
          refine sizesOk_set (sizesOk_set hs ?_) ?_
          · refine ⟨?_, fun _ => hnm, (by intro hc; cases hc)⟩
            show (skvs.getLastD (0, 0) :: nkvs).length < nm
            simp only [List.length_cons]
            omega
          · refine ⟨?_, fun _ => hsm, (by intro hc; cases hc)⟩
            show skvs.dropLast.length < sm
            simp only [List.length_dropLast]
            omega
        split at h
        · rename_i qp qm qkcs hq
          obtain rfl := Option.some.inj h.symm
          have hqq := hs1 np _ hq
          refine ⟨sizesOk_set hs1 ?_, Pres.refl _⟩
          refine ⟨?_, (by intro hc; cases hc), fun _ => hqq.2.2 rfl⟩
          show (setKeyAt qkcs index _).length < qm
          rw [setKeyAt_length]
          exact hqq.1
        · cases h
  | internal np nm nkcs =>
    rcases hsb : t.store sibId with _ | sib <;> rw [hsb] at h
    · cases h
    cases sib with
    | leaf _ _ _ _ => cases h
    | internal sp sm skcs =>
      simp only at h
      have hnn := hs nodeId _ hnd
      have hss := hs sibId _ hsb
      have hnm : nm = t.internalMax := hnn.2.2 rfl
      have hsm : sm = t.internalMax := hss.2.2 rfl
      have husz : nkcs.length < nm / 2 := hu
      have hssz : skcs.length < sm := hss.1
      rcases hq0 : t.store np with _ | q0 <;> rw [hq0] at h
      · cases h
      cases q0 with
      | leaf _ _ _ _ => cases h
      | internal q0p q0m q0kcs =>
        simp only at h
        cases onLeft
        · simp only [Bool.false_eq_true, if_false] at h
          split at h
          · cases h
          · rename_i t2 hrep
            rcases hq : t2.store np with _ | qn <;> rw [hq] at h
            · cases h
            cases qn with
            | leaf _ _ _ _ => cases h
            | internal qp qm qkcs =>
              simp only at h
              obtain rfl := Option.some.inj h.symm
              obtain ⟨hs2, hp2⟩ := reparentAll_pres _ (by
                refine sizesOk_set (sizesOk_set hs ?_) ?_
                · refine ⟨?_, (by intro hc; cases hc), fun _ => hnm⟩
                  show (nkcs ++ [(setKeyAt skcs 0 (q0kcs.getD index (0, 0)).1).headD
                      (0, 0)]).length < nm
                  simp only [List.length_append, List.length_cons, List.length_nil]
                  omega
                · refine ⟨?_, (by intro hc; cases hc), fun _ => hsm⟩
                  show (internalRemove (setKeyAt skcs 0 (q0kcs.getD index (0, 0)).1)
                      0).length < sm
                  have hir := internalRemove_length_le
                    (setKeyAt skcs 0 (q0kcs.getD index (0, 0)).1) 0
                  rw [setKeyAt_length] at hir
                  omega) hrep
              have hqn := hs2 np _ hq
              refine ⟨sizesOk_set hs2 ?_, Pres.trans (Pres.refl _) hp2⟩
              refine ⟨?_, (by intro hc; cases hc), fun _ => hqn.2.2 rfl⟩
              show (setKeyAt qkcs index _).length < qm
              rw [setKeyAt_length]
              exact hqn.1
        · simp only [if_true] at h
          split at h
          · cases h
          · rename_i t2 hrep
            rcases hq : t2.store np with _ | qn <;> rw [hq] at h
            · cases h
            cases qn with
            | leaf _ _ _ _ => cases h
            | internal qp qm qkcs =>
              simp only at h
              obtain rfl := Option.some.inj h.symm
              obtain ⟨hs2, hp2⟩ := reparentAll_pres _ (by
                refine sizesOk_set (sizesOk_set hs ?_) ?_
                · refine ⟨?_, (by intro hc; cases hc), fun _ => hnm⟩
                  show ((setKeyAt skcs 0 (q0kcs.getD index (0, 0)).1).getLastD (0, 0)
                      :: nkcs).length < nm
                  simp only [List.length_cons]
                  omega
                · refine ⟨?_, (by intro hc; cases hc), fun _ => hsm⟩
                  show (setKeyAt skcs 0 (q0kcs.getD index (0, 0)).1).dropLast.length < sm
                  simp only [List.length_dropLast, setKeyAt_length]
                  omega) hrep
              have hqn := hs2 np _ hq
              refine ⟨sizesOk_set hs2 ?_, Pres.trans (Pres.refl _) hp2⟩
              refine ⟨?_, (by intro hc; cases hc), fun _ => hqn.2.2 rfl⟩
              show (setKeyAt qkcs index _).length < qm
              rw [setKeyAt_length]
              exact hqn.1

/-- Writing a page makes it visible at its own id. -/
theorem setPage_store_same (t : Tree) (pid : Int) (n : Node) :
    (t.setPage pid n).store pid = some n := by
  show Store.set _ _ _ _ = _
  unfold Store.set
  rw [if_pos rfl]

/-- The parent phase of `Coalesce`: dropping the separator entry keeps the
invariant, recursing (via `hrec`) when the parent underflows. -/
theorem afterParent_pres
    {recurse : Tree → Int → Option (Tree × List Int)}
    (hrec : ∀ {tr : Tree} {nid : Int} {tr' : Tree} {ds : List Int}, sizesOk tr →
      (∀ n, tr.store nid = some n → n.size < n.minSizeOf) →
      recurse tr nid = some (tr', ds) → sizesOk tr' ∧ Pres tr tr')
    {t2 : Tree} {parentId del : Int} {index : Nat} {t' : Tree} {dels : List Int}
    (hs2 : sizesOk t2)
    (h : (match t2.store parentId with
      | some (.internal qp qm qkcs) =>
        let qkcs' := internalRemove qkcs index
        let tP := t2.setPage parentId (.internal qp qm qkcs')
        if qkcs'.length < qm / 2 then
          match recurse tP parentId with
          | none => none
          | some (t3, ds) => some (t3, del :: ds)
        else some (tP, [del])
      | _ => none) = some (t', dels)) :
    sizesOk t' ∧ Pres t2 t' := by
  rcases hq : t2.store parentId with _ | q <;> rw [hq] at h
  · cases h
  cases q with
  | leaf _ _ _ _ => cases h
  | internal qp qm qkcs =>
    simp only at h
    have hqq := hs2 parentId _ hq
    have hlen : (internalRemove qkcs index).length < qm :=
      lt_of_le_of_lt (internalRemove_length_le _ _) hqq.1
    have hsP : sizesOk (t2.setPage parentId
        (.internal qp qm (internalRemove qkcs index))) :=
      sizesOk_set hs2 ⟨hlen, (by intro hc; cases hc), fun _ => hqq.2.2 rfl⟩
    by_cases hug : (internalRemove qkcs index).length < qm / 2
    · rw [if_pos hug] at h
      split at h
      · cases h
      · rename_i t4 ds4 hr
        obtain ⟨rfl, rfl⟩ := Prod.ext_iff.mp (Option.some.inj h)
        obtain ⟨hs5, hp5⟩ := hrec hsP (fun n hn => by
          rw [setPage_store_same] at hn
          cases Option.some.inj hn
          exact hug) hr
        exact ⟨hs5, Pres.trans (show Pres t2 (t2.setPage parentId
          (.internal qp qm (internalRemove qkcs index))) from
          ⟨rfl, rfl, le_refl _⟩) hp5⟩
    · rw [if_neg hug] at h
      obtain ⟨rfl, rfl⟩ := Prod.ext_iff.mp (Option.some.inj h)
      exact ⟨hsP, ⟨rfl, rfl, le_refl _⟩⟩

/-- `Coalesce` keeps the size invariant when the two pages fit together
strictly below the node's `max_size` (the guard under which
`CoalesceOrRedistribute` calls it). -/
theorem coalesceStep_pres
    {recurse : Tree → Int → Option (Tree × List Int)}
    (hrec : ∀ {tr : Tree} {nid : Int} {tr' : Tree} {ds : List Int}, sizesOk tr →
      (∀ n, tr.store nid = some n → n.size < n.minSizeOf) →
      recurse tr nid = some (tr', ds) → sizesOk tr' ∧ Pres tr tr')
    {t : Tree} {sibId nodeId parentId : Int} {index : Nat} {onLeft : Bool}
    {t' : Tree} {dels : List Int} {node sib : Node}
    (hs : sizesOk t) (hnd : t.store nodeId = some node) (hsb : t.store sibId = some sib)
    (hsmall : sib.size + node.size < node.maxSizeOf)
    (h : coalesceStep recurse t sibId nodeId parentId index onLeft = some (t', dels)) :
    sizesOk t' ∧ Pres t t' := by
  unfold coalesceStep at h
  rw [hnd, hsb] at h
  cases node with
  | leaf np nm nkvs nnx =>
    cases sib with
    | internal _ _ _ => cases h
    | leaf sp sm skvs snx =>
      simp only at h
      have hnn := hs nodeId _ hnd
      have hss := hs sibId _ hsb
      have hnm : nm = t.leafMax := hnn.2.1 rfl
      have hsm : sm = t.leafMax := hss.2.1 rfl
      have hsum : skvs.length + nkvs.length < nm := hsmall
      cases onLeft
      · simp only [Bool.false_eq_true, if_false] at h
        have hs2 : sizesOk ((t.setPage nodeId
            (.leaf np nm (nkvs ++ skvs) snx)).setPage sibId
            (.leaf sp sm [] snx)) := by
          refine sizesOk_set (sizesOk_set hs ?_) ?_
          · refine ⟨?_, fun _ => hnm, (by intro hc; cases hc)⟩
            show (nkvs ++ skvs).length < nm
            simp only [List.length_append]
            omega
          · refine ⟨?_, fun _ => hsm, (by intro hc; cases hc)⟩
            show ([] : List (Int × Nat)).length < sm
            simp only [List.length_nil]
            omega
        obtain ⟨hsf, hpf⟩ := afterParent_pres hrec hs2 h
        exact ⟨hsf, Pres.trans ⟨rfl, rfl, le_refl _⟩ hpf⟩
      · simp only [if_true] at h
        have hs2 : sizesOk ((t.setPage sibId
            (.leaf sp sm (skvs ++ nkvs) nnx)).setPage nodeId
            (.leaf np nm [] nnx)) := by
          refine sizesOk_set (sizesOk_set hs ?_) ?_
          · refine ⟨?_, fun _ => hsm, (by intro hc; cases hc)⟩
            show (skvs ++ nkvs).length < sm
            simp only [List.length_append]
            omega
          · refine ⟨?_, fun _ => hnm, (by intro hc; cases hc)⟩
            show ([] : List (Int × Nat)).length < nm
            simp only [List.length_nil]
            omega
        obtain ⟨hsf, hpf⟩ := afterParent_pres hrec hs2 h
        exact ⟨hsf, Pres.trans ⟨rfl, rfl, le_refl _⟩ hpf⟩
  | internal np nm nkcs =>
    cases sib with
    | leaf _ _ _ _ => cases h
    | internal sp sm skcs =>
      simp only at h
      have hnn := hs nodeId _ hnd
      have hss := hs sibId _ hsb
      have hnm : nm = t.internalMax := hnn.2.2 rfl
      have hsm : sm = t.internalMax := hss.2.2 rfl
      have hsum : skcs.length + nkcs.length < nm := hsmall
      rcases hp0 : t.store parentId with _ | p0 <;> rw [hp0] at h
      · cases h
      cases p0 with
      | leaf _ _ _ _ => cases h
      | internal p0p p0m pkcs =>
        simp only at h
        cases onLeft
        · simp only [Bool.false_eq_true, if_false] at h
          cases skcs with
          | nil =>
            simp only at h
            split at h
            · cases h
            · rename_i t3 hrp
              have hs2 : sizesOk ((t.setPage nodeId
                  (.internal np nm (nkcs ++ []))).setPage sibId
                  (.internal sp sm [])) := by
                refine sizesOk_set (sizesOk_set hs ?_) ?_
                · refine ⟨?_, (by intro hc; cases hc), fun _ => hnm⟩
                  show (nkcs ++ ([] : List (Int × Int))).length < nm
                  simp only [List.length_append, List.length_nil] at hsum ⊢
                  omega
                · refine ⟨?_, (by intro hc; cases hc), fun _ => hsm⟩
                  show ([] : List (Int × Int)).length < sm
                  simp only [List.length_nil] at hsum ⊢
                  omega
              obtain ⟨hs3, hp3⟩ := reparentAll_pres _ hs2 hrp
              obtain ⟨hsf, hpf⟩ := afterParent_pres hrec hs3 h
              exact ⟨hsf, Pres.trans (Pres.trans ⟨rfl, rfl, le_refl _⟩ hp3) hpf⟩
          | cons e r =>
            simp only at h
            split at h
            · cases h
            · rename_i t3 hrp
              have hs2 : sizesOk ((t.setPage nodeId
                  (.internal np nm (nkcs ++ ((pkcs.getD index (0, 0)).1, e.2) :: r))).setPage
                  sibId (.internal sp sm [])) := by
                refine sizesOk_set (sizesOk_set hs ?_) ?_
                · refine ⟨?_, (by intro hc; cases hc), fun _ => hnm⟩
                  show (nkcs ++ ((pkcs.getD index (0, 0)).1, e.2) :: r).length < nm
                  simp only [List.length_append, List.length_cons] at hsum ⊢
                  omega
                · refine ⟨?_, (by intro hc; cases hc), fun _ => hsm⟩
                  show ([] : List (Int × Int)).length < sm
                  simp only [List.length_cons] at hsum
                  simp only [List.length_nil]
                  omega
              obtain ⟨hs3, hp3⟩ := reparentAll_pres _ hs2 hrp
              obtain ⟨hsf, hpf⟩ := afterParent_pres hrec hs3 h
              exact ⟨hsf, Pres.trans (Pres.trans ⟨rfl, rfl, le_refl _⟩ hp3) hpf⟩
        · simp only [if_true] at h
          cases nkcs with
          | nil =>
            simp only at h
            split at h
            · cases h
            · rename_i t3 hrp
              have hs2 : sizesOk ((t.setPage sibId
                  (.internal sp sm (skcs ++ []))).setPage nodeId
                  (.internal np nm [])) := by
                refine sizesOk_set (sizesOk_set hs ?_) ?_
                · refine ⟨?_, (by intro hc; cases hc), fun _ => hsm⟩
                  show (skcs ++ ([] : List (Int × Int))).length < sm
                  simp only [List.length_append, List.length_nil] at hsum ⊢
                  omega
                · refine ⟨?_, (by intro hc; cases hc), fun _ => hnm⟩
                  show ([] : List (Int × Int)).length < nm
                  simp only [List.length_nil] at hsum ⊢
                  omega
              obtain ⟨hs3, hp3⟩ := reparentAll_pres _ hs2 hrp
              obtain ⟨hsf, hpf⟩ := afterParent_pres hrec hs3 h
              exact ⟨hsf, Pres.trans (Pres.trans ⟨rfl, rfl, le_refl _⟩ hp3) hpf⟩
          | cons e r =>
            simp only at h
            split at h
            · cases h
            · rename_i t3 hrp
              have hs2 : sizesOk ((t.setPage sibId
                  (.internal sp sm (skcs ++ ((pkcs.getD index (0, 0)).1, e.2) :: r))).setPage
                  nodeId (.internal np nm [])) := by
                refine sizesOk_set (sizesOk_set hs ?_) ?_
                · refine ⟨?_, (by intro hc; cases hc), fun _ => hsm⟩
                  show (skcs ++ ((pkcs.getD index (0, 0)).1, e.2) :: r).length < sm
                  simp only [List.length_append, List.length_cons] at hsum ⊢
                  omega
                · refine ⟨?_, (by intro hc; cases hc), fun _ => hnm⟩
                  show ([] : List (Int × Int)).length < nm
                  simp only [List.length_cons] at hsum
                  simp only [List.length_nil]
                  omega
              obtain ⟨hs3, hp3⟩ := reparentAll_pres _ hs2 hrp
              obtain ⟨hsf, hpf⟩ := afterParent_pres hrec hs3 h
              exact ⟨hsf, Pres.trans (Pres.trans ⟨rfl, rfl, le_refl _⟩ hp3) hpf⟩

/-- `CoalesceOrRedistribute` keeps the size invariant when invoked on an
underflowing page (the only way the source reaches it). -/
theorem coalesceOrRedistribute_pres :
    ∀ (fuel : Nat) {t : Tree} {nodeId : Int} {t' : Tree} {dels : List Int},
      sizesOk t → (∀ n, t.store nodeId = some n → n.size < n.minSizeOf) →
      coalesceOrRedistribute fuel t nodeId = some (t', dels) →
      sizesOk t' ∧ Pres t t' := by
  intro fuel
  induction fuel with
  | zero => intro t nodeId t' dels _ _ h; cases h
  | succ fuel ih =>
    intro t nodeId t' dels hs hu h
    unfold coalesceOrRedistribute at h
    rcases hnd : t.store nodeId with _ | node <;> rw [hnd] at h
    · cases h
    simp only at h
    by_cases hroot : node.parentOf = -1
    · rw [if_pos hroot] at h
      exact adjustRoot_pres hs h
    · rw [if_neg hroot] at h
      rcases hp : t.store node.parentOf with _ | pn <;> rw [hp] at h
      · cases h
      cases pn with
      | leaf _ _ _ _ => cases h
      | internal pp pm pkcs =>
        simp only at h
        by_cases hj : valueIndex pkcs nodeId < 0
        · rw [if_pos hj] at h; cases h
        · rw [if_neg hj] at h
          by_cases hpos : (0 : Int) < valueIndex pkcs nodeId
          · simp only [if_pos hpos] at h
            split at h
            · cases h
            · rename_i sib hsb
              by_cases hfit : sib.size + node.size < node.maxSizeOf
              · rw [if_pos hfit] at h
                obtain ⟨hsf, hpf⟩ := coalesceStep_pres ih hs hnd hsb hfit h
                exact ⟨hsf, hpf⟩
              · rw [if_neg hfit] at h
                split at h
                · cases h
                · rename_i t2 hrd
                  obtain ⟨rfl, rfl⟩ := Prod.ext_iff.mp (Option.some.inj h)
                  exact redistribute_pres hs hnd (hu node hnd) hrd
          · simp only [if_neg hpos] at h
            split at h
            · cases h
            · rename_i sib hsb
              by_cases hfit : sib.size + node.size < node.maxSizeOf
              · rw [if_pos hfit] at h
                obtain ⟨hsf, hpf⟩ := coalesceStep_pres ih hs hnd hsb hfit h
                exact ⟨hsf, hpf⟩
              · rw [if_neg hfit] at h
                split at h
                · cases h
                · rename_i t2 hrd
                  obtain ⟨rfl, rfl⟩ := Prod.ext_iff.mp (Option.some.inj h)
                  exact redistribute_pres hs hnd (hu node hnd) hrd

/-- Deferred page deallocation changes neither the configuration nor the
allocation counter. -/
theorem pres_del (t : Tree) (dels : List Int) :
    Pres t (dels.foldl (fun tt d => { tt with store := tt.store.del d }) t) := by
  induction dels generalizing t with
  | nil => exact Pres.refl t
  | cons d r ih =>
    exact Pres.trans (show Pres t { t with store := t.store.del d } from
      ⟨rfl, rfl, le_refl _⟩) (ih _)

/-- `BPlusTree::Remove` keeps the size invariant. -/
theorem remove_pres {t : Tree} {k : Int} {t' : Tree}
    (hs : sizesOk t) (h : t.remove k = some t') : sizesOk t' ∧ Pres t t' := by
  unfold Tree.remove at h
  by_cases hroot : t.root = -1
  · rw [if_pos hroot] at h
    cases Option.some.inj h
    exact ⟨hs, Pres.refl t⟩
  · rw [if_neg hroot] at h
    rcases hf : t.findLeafPage k false with _ | lid <;> rw [hf] at h
    · cases h
    simp only at h
    rcases hl : t.store lid with _ | ln <;> rw [hl] at h
    · cases h
    cases ln with
    | internal _ _ _ => cases h
    | leaf par m kvs nxt =>
      simp only at h
      by_cases hmiss : leafKeyIndex kvs k = -1 ∨
          (kvs.getD (leafKeyIndex kvs k).toNat (0, 0)).1 ≠ k
      · rw [if_pos hmiss] at h
        cases Option.some.inj h
        exact ⟨hs, Pres.refl t⟩
      · rw [if_neg hmiss] at h
        have hln := hs lid _ hl
        have hm : m = t.leafMax := hln.2.1 rfl
        have hsz : kvs.length < m := hln.1
        have hlen : (leafRemoveAt kvs (leafKeyIndex kvs k).toNat).length < m := by
          have : (kvs.eraseIdx (leafKeyIndex kvs k).toNat).length ≤ kvs.length := by
            rw [List.length_eraseIdx]
            split <;> omega
          show (kvs.eraseIdx (leafKeyIndex kvs k).toNat).length < m
          omega
        have hs1 : sizesOk (t.setPage lid
            (.leaf par m (leafRemoveAt kvs (leafKeyIndex kvs k).toNat) nxt)) :=
          sizesOk_set hs ⟨hlen, fun _ => hm, (by intro hc; cases hc)⟩
        by_cases hund : (leafRemoveAt kvs (leafKeyIndex kvs k).toNat).length < m / 2
        · rw [if_pos hund] at h
          split at h
          · cases h
          · rename_i t2 dels hc
            obtain rfl := Option.some.inj h.symm
            obtain ⟨hs2, hp2⟩ := coalesceOrRedistribute_pres (t.alloc + 1) hs1
              (fun n hn => by
                rw [setPage_store_same] at hn
                cases Option.some.inj hn
                exact hund) hc
            refine ⟨sizesOk_del hs2 dels, ?_⟩
            exact Pres.trans ⟨rfl, rfl, le_refl _⟩ (Pres.trans hp2 (pres_del t2 dels))
        · rw [if_neg hund] at h
          obtain rfl := Option.some.inj h
          exact ⟨hs1, ⟨rfl, rfl, le_refl _⟩⟩

/-- `InsertNodeAfter` grows the page by exactly one when the anchor child is
present. -/
theorem insertNodeAfter_length {kcs : List (Int × Int)} {oldV : Int} (k newV : Int)
    (hm : oldV ∈ kcs.map (fun e => e.2)) :
    (insertNodeAfter kcs oldV k newV).length = kcs.length + 1 := by
  induction kcs with
  | nil => cases hm
  | cons e r ih =>
    by_cases he : e.2 = oldV
    · simp [insertNodeAfter, he]
    · have hm' : oldV ∈ r.map (fun e => e.2) := by
        rcases List.mem_map.mp hm with ⟨x, hx, hxe⟩
        rcases List.mem_cons.mp hx with hx | hx
        · subst hx; exact absurd hxe he
        · exact List.mem_map.mpr ⟨x, hx, hxe⟩
      simp [insertNodeAfter, he, ih hm']

/-- The parent phase of `Coalesce` always records at least the dropped page
in the deleted-page set. -/
theorem afterParent_cons
    {recurse : Tree → Int → Option (Tree × List Int)}
    {t2 : Tree} {parentId del : Int} {index : Nat} {t' : Tree} {dels : List Int}
    (h : (match t2.store parentId with
      | some (.internal qp qm qkcs) =>
        let qkcs' := internalRemove qkcs index
        let tP := t2.setPage parentId (.internal qp qm qkcs')
        if qkcs'.length < qm / 2 then
          match recurse tP parentId with
          | none => none
          | some (t3, ds) => some (t3, del :: ds)
        else some (tP, [del])
      | _ => none) = some (t', dels)) : dels ≠ [] := by
  rcases hq : t2.store parentId with _ | q <;> rw [hq] at h
  · cases h
  cases q with
  | leaf _ _ _ _ => cases h
  | internal qp qm qkcs =>
    simp only at h
    by_cases hug : (internalRemove qkcs index).length < qm / 2
    · rw [if_pos hug] at h
      split at h
      · cases h
      · rename_i t4 ds4 hr
        obtain ⟨-, rfl⟩ := Prod.ext_iff.mp (Option.some.inj h)
        simp
    · rw [if_neg hug] at h
      obtain ⟨-, rfl⟩ := Prod.ext_iff.mp (Option.some.inj h)
      simp

/-- A successful `Coalesce` always marks at least one page for deletion. -/
theorem coalesceStep_cons
    {recurse : Tree → Int → Option (Tree × List Int)}
    {t : Tree} {sibId nodeId parentId : Int} {index : Nat} {onLeft : Bool}
    {t' : Tree} {dels : List Int}
    (h : coalesceStep recurse t sibId nodeId parentId index onLeft = some (t', dels)) :
    dels ≠ [] := by
  unfold coalesceStep at h
  rcases hnd : t.store nodeId with _ | node <;> rw [hnd] at h
  · cases h
  cases node with
  | leaf np nm nkvs nnx =>
    rcases hsb : t.store sibId with _ | sib <;> rw [hsb] at h
    · cases h
    cases sib with
    | internal _ _ _ => cases h
    | leaf sp sm skvs snx =>
      simp only at h
      cases onLeft
      · simp only [Bool.false_eq_true, if_false] at h
        exact afterParent_cons h
      · simp only [if_true] at h
        exact afterParent_cons h
  | internal np nm nkcs =>
    rcases hsb : t.store sibId with _ | sib <;> rw [hsb] at h
    · cases h
    cases sib with
    | leaf _ _ _ _ => cases h
    | internal sp sm skcs =>
      simp only at h
      rcases hp0 : t.store parentId with _ | p0 <;> rw [hp0] at h
      · cases h
      cases p0 with
      | leaf _ _ _ _ => cases h
      | internal p0p p0m pkcs =>
        simp only at h
        cases onLeft
        · simp only [Bool.false_eq_true, if_false] at h
          split at h
          · cases h
          · rename_i t3 hrp
            exact afterParent_cons h
        · simp only [if_true] at h
          split at h
          · cases h
          · rename_i t3 hrp
            exact afterParent_cons h

/-- C3 (amended): the counterexample above shows the invariant fails as
stated for degenerate capacities, and `PopulateNewRoot` fixes the new root's
size at 2.  Amended claim: provided `2 ≤ leaf_max_size` and
`3 ≤ internal_max_size`, (1) a completed `Insert` and (2) a completed
`Remove` leave every node's size strictly below its `max_size`; (3) under
that invariant the leaf split guard `max_size ≤ size` taken after the
insertion holds exactly when the size *reaches* `max_size`, and (4) so does
the internal split guard in `InsertIntoParent`; (5) an underflowing non-root
node is merged — pages enter the deleted-page set — exactly when its size
plus its sibling's falls below `max_size`, and is redistributed (no
deletion) otherwise. -/
theorem claimC3 (t : Tree) (k : Int) (v : Nat)
    (hl : 2 ≤ t.leafMax) (hi : 3 ≤ t.internalMax) (hs : sizesOk t) :
    (∀ b t', t.insert k v = some (b, t') → sizesOk t') ∧
    (∀ t', t.remove k = some t' → sizesOk t') ∧
    (∀ (m : Nat) (kvs : List (Int × Nat)), kvs.length < m →
      (m ≤ (leafInsert kvs k v).length ↔ (leafInsert kvs k v).length = m)) ∧
    (∀ (kcs : List (Int × Int)) (oldV newV : Int), kcs.length < t.internalMax →
      oldV ∈ kcs.map (fun e => e.2) →
      (t.internalMax ≤ (insertNodeAfter kcs oldV k newV).length ↔
        (insertNodeAfter kcs oldV k newV).length = t.internalMax)) ∧
    (∀ (fuel : Nat) (nodeId : Int) (node : Node) (t' : Tree) (dels : List Int)
        (pp : Int) (pm : Nat) (pkcs : List (Int × Int)) (sib : Node),
      t.store nodeId = some node → ¬node.parentOf = -1 →
      t.store node.parentOf = some (.internal pp pm pkcs) →
      ¬valueIndex pkcs nodeId < 0 →
      t.store (if 0 < valueIndex pkcs nodeId
        then (pkcs.getD (valueIndex pkcs nodeId - 1).toNat (0, 0)).2
        else (pkcs.getD 1 (0, 0)).2) = some sib →
      coalesceOrRedistribute (fuel + 1) t nodeId = some (t', dels) →
      (dels ≠ [] ↔ sib.size + node.size < node.maxSizeOf)) := by
  refine ⟨fun b t' h => (insert_pres hl hi hs h).1,
    fun t' h => (remove_pres hs h).1,
    fun m kvs hlt => ?_, fun kcs oldV newV hlt hmem => ?_,
    fun fuel nodeId node t' dels pp pm pkcs sib hnd hroot hp hj hsb hcor => ?_⟩
  · rw [leafInsert_length]
    omega
  · rw [insertNodeAfter_length k newV hmem]
    omega
  · unfold coalesceOrRedistribute at hcor
    rw [hnd] at hcor
    simp only at hcor
    rw [if_neg hroot, hp] at hcor
    simp only at hcor
    rw [if_neg hj, hsb] at hcor
    simp only at hcor
    by_cases hfit : sib.size + node.size < node.maxSizeOf
    · rw [if_pos hfit] at hcor
      exact iff_of_true (coalesceStep_cons hcor) hfit
    · rw [if_neg hfit] at hcor
      split at hcor
      · cases hcor
      · rename_i t2 hrd
        obtain ⟨-, rfl⟩ := Prod.ext_iff.mp (Option.some.inj hcor)
        exact iff_of_false (by simp) hfit

/-- C3 witness: the amended theorem applied to the empty tree with
`leaf_max_size = 2`, `internal_max_size = 3`. -/
theorem claimC3_witness :
    2 ≤ (⟨Store.empty, -1, 0, 2, 3⟩ : Tree).leafMax ∧
    (∀ b t', (⟨Store.empty, -1, 0, 2, 3⟩ : Tree).insert 5 7 = some (b, t') →
      sizesOk t') :=
  ⟨by decide, (claimC3 ⟨Store.empty, -1, 0, 2, 3⟩ 5 7 (by decide) (by decide)
    (fun pid n h => Option.noConfusion h)).1⟩

/-! ## Claim C1 — round-trip machinery -/

theorem chainLtB_iff_chain {l : List Int} : chainLtB l = true ↔ List.Chain' (· < ·) l := by
  induction l with
  | nil => simp [chainLtB]
  | cons a r ih =>
    cases r with
    | nil => simp [chainLtB]
    | cons b s =>
      rw [List.chain'_cons]
      unfold chainLtB
      rw [Bool.and_eq_true, decide_eq_true_eq]
      exact and_congr Iff.rfl ih

theorem chainLtB_iff_pairwise {l : List Int} :
    chainLtB l = true ↔ List.Pairwise (· < ·) l := by
  rw [chainLtB_iff_chain, List.chain'_iff_pairwise]

/-- Membership after a sorted leaf insertion. -/
theorem leafInsert_mem_inv {kvs : List (Int × Nat)} {k : Int} {v : Nat} {kv : Int × Nat}
    (h : kv ∈ leafInsert kvs k v) : kv = (k, v) ∨ kv ∈ kvs := by
  induction kvs with
  | nil =>
    unfold leafInsert at h
    rcases List.mem_singleton.mp h with rfl
    exact Or.inl rfl
  | cons e r ih =>
    obtain ⟨a, b⟩ := e
    unfold leafInsert at h
    by_cases hka : k < a
    · rw [if_pos hka] at h
      rcases List.mem_cons.mp h with rfl | h
      · exact Or.inl rfl
      · exact Or.inr h
    · rw [if_neg hka] at h
      rcases List.mem_cons.mp h with rfl | h
      · exact Or.inr (List.mem_cons_self _ _)
      · rcases ih h with h | h
        · exact Or.inl h
        · exact Or.inr (List.mem_cons_of_mem _ h)

theorem leafInsert_self_mem (kvs : List (Int × Nat)) (k : Int) (v : Nat) :
    (k, v) ∈ leafInsert kvs k v := by
  induction kvs with
  | nil => exact List.mem_singleton.mpr rfl
  | cons e r ih =>
    obtain ⟨a, b⟩ := e
    unfold leafInsert
    by_cases hka : k < a
    · rw [if_pos hka]
      exact List.mem_cons_self _ _
    · rw [if_neg hka]
      exact List.mem_cons_of_mem _ ih

theorem leafInsert_mem_of {kvs : List (Int × Nat)} {k : Int} {v : Nat} {kv : Int × Nat}
    (h : kv ∈ kvs) : kv ∈ leafInsert kvs k v := by
  induction kvs with
  | nil => cases h
  | cons e r ih =>
    obtain ⟨a, b⟩ := e
    unfold leafInsert
    by_cases hka : k < a
    · rw [if_pos hka]
      exact List.mem_cons_of_mem _ h
    · rw [if_neg hka]
      rcases List.mem_cons.mp h with rfl | h
      · exact List.mem_cons_self _ _
      · exact List.mem_cons_of_mem _ (ih h)

/-- Sorted insertion of a fresh key keeps the keys strictly ascending. -/
theorem leafInsert_pairwise {kvs : List (Int × Nat)} {k : Int} (v : Nat)
    (hp : List.Pairwise (· < ·) (kvs.map Prod.fst)) (hk : k ∉ kvs.map Prod.fst) :
    List.Pairwise (· < ·) ((leafInsert kvs k v).map Prod.fst) := by
  induction kvs with
  | nil => simp [leafInsert]
  | cons e r ih =>
    obtain ⟨a, b⟩ := e
    simp only [List.map_cons, List.pairwise_cons] at hp
    simp only [List.map_cons, List.mem_cons] at hk
    push_neg at hk
    unfold leafInsert
    by_cases hka : k < a
    · rw [if_pos hka]
      simp only [List.map_cons, List.pairwise_cons]
      refine ⟨?_, hp.1, hp.2⟩
      intro x hx
      rcases List.mem_cons.mp hx with rfl | hx
      · exact hka
      · exact lt_trans hka (hp.1 x hx)
    · rw [if_neg hka]
      have hak : a < k := by
        rcases lt_trichotomy a k with h | h | h
        · exact h
        · exact absurd h.symm hk.1
        · exact absurd h hka
      simp only [List.map_cons, List.pairwise_cons]
      refine ⟨?_, ih hp.2 hk.2⟩
      intro x hx
      obtain ⟨kv, hkv, rfl⟩ := List.mem_map.mp hx
      rcases leafInsert_mem_inv hkv with rfl | hkv
      · exact hak
      · exact hp.1 _ (List.mem_map.mpr ⟨kv, hkv, rfl⟩)

/-- On a strictly ascending leaf, a present binding is what `Lookup` finds. -/
theorem lookup_of_mem {kvs : List (Int × Nat)} {k : Int} {v : Nat}
    (hchain : chainLtB (kvs.map Prod.fst) = true) (hm : (k, v) ∈ kvs) :
    leafLookup kvs k = some v := by
  rw [chainLtB_iff_pairwise] at hchain
  induction kvs with
  | nil => cases hm
  | cons e r ih =>
    obtain ⟨a, b⟩ := e
    simp only [List.map_cons, List.pairwise_cons] at hchain
    rcases List.mem_cons.mp hm with he | hm'
    · cases he
      unfold leafLookup
      rw [List.find?_cons_of_pos _ (by simp)]
      rfl
    · have hne : a ≠ k := by
        intro he
        subst he
        have := hchain.1 a (List.mem_map.mpr ⟨(a, v), hm', rfl⟩)
        omega
      unfold leafLookup
      rw [List.find?_cons_of_neg _ (by simp [hne])]
      exact ih hchain.2 hm'

theorem lookup_eq_none {kvs : List (Int × Nat)} {k : Int}
    (hk : k ∉ kvs.map Prod.fst) : leafLookup kvs k = none := by
  unfold leafLookup
  rw [List.find?_eq_none.mpr]
  · rfl
  · intro e he hek
    exact hk (List.mem_map.mpr ⟨e, he, by simpa using hek⟩)

/-- Lower bound seen by the child at a hole position: the parent's own `lo`
for the first entry, else the entry's key. -/
def holeLo (lo : Option Int) (left : List (Int × Int)) (ek : Int) : Option Int :=
  match left with
  | [] => lo
  | _ :: _ => some ek

theorem kidsUp_append {hi : Option Int} {ek c : Int} {ltail right : List (Int × Int)} :
    kidsUp hi (ltail ++ (ek, c) :: right) = kidsUp (some ek) ltail := by
  cases ltail with
  | nil => rfl
  | cons e l => rfl

theorem holeLo_shift {ek : Int} {ltail : List (Int × Int)} :
    holeLo (kidsUp (some ek) ltail) ltail ek = some ek := by
  cases ltail with
  | nil => rfl
  | cons e l => rfl

/-- Split a `decodeKids` run at a distinguished entry. -/
theorem kids_split3_inv
    {dec : Int → Option Int → Option Int → Option (List (Int × Nat) × List Int)}
    {hi : Option Int} {ek c : Int} :
    ∀ {left : List (Int × Int)} {lo : Option Int} {right : List (Int × Int)}
      {kvs : List (Int × Nat)} {ft : List Int},
      decodeKids dec hi lo (left ++ (ek, c) :: right) = some (kvs, ft) →
      ∃ kvsL ftL kvsC ftC kvsR ftR,
        decodeKids dec (some ek) lo left = some (kvsL, ftL) ∧
        dec c (holeLo lo left ek) (kidsUp hi right) = some (kvsC, ftC) ∧
        decodeKids dec hi (kidsUp hi right) right = some (kvsR, ftR) ∧
        kvs = kvsL ++ kvsC ++ kvsR ∧ ft = ftL ++ ftC ++ ftR := by
  intro left
  induction left with
  | nil =>
    intro lo right kvs ft h
    rw [List.nil_append] at h
    obtain ⟨kvsC, ftC, kvsR, ftR, h1, h2, h3⟩ := kids_cons_inv h
    obtain ⟨rfl, rfl⟩ := Prod.ext_iff.mp h3
    exact ⟨[], [], kvsC, ftC, kvsR, ftR, rfl, h1, h2, rfl, rfl⟩
  | cons e ltail ih =>
    obtain ⟨k0, c0⟩ := e
    intro lo right kvs ft h
    rw [List.cons_append] at h
    obtain ⟨kvs1, ft1, kvs2, ft2, h1, h2, h3⟩ := kids_cons_inv h
    obtain ⟨rfl, rfl⟩ := Prod.ext_iff.mp h3
    rw [kidsUp_append] at h1 h2
    obtain ⟨kvsL, ftL, kvsC, ftC, kvsR, ftR, hL, hC, hR, rfl, rfl⟩ := ih h2
    rw [holeLo_shift] at hC
    have hgoal : decodeKids dec (some ek) lo ((k0, c0) :: ltail)
        = some (kvs1 ++ kvsL, ft1 ++ ftL) := by
      unfold decodeKids
      rw [h1, hL]
    refine ⟨kvs1 ++ kvsL, ft1 ++ ftL, kvsC, ftC, kvsR, ftR, hgoal, ?_, hR, ?_, ?_⟩
    · cases ltail with
      | nil => exact hC
      | cons e2 l2 => exact hC
    · simp
    · simp

/-- Reassemble a `decodeKids` run around a distinguished entry. -/
theorem kids_split3_intro
    {dec : Int → Option Int → Option Int → Option (List (Int × Nat) × List Int)}
    {hi : Option Int} {ek c : Int} :
    ∀ {left : List (Int × Int)} {lo : Option Int} {right : List (Int × Int)}
      {kvsL : List (Int × Nat)} {ftL : List Int} {kvsC : List (Int × Nat)} {ftC : List Int}
      {kvsR : List (Int × Nat)} {ftR : List Int},
      decodeKids dec (some ek) lo left = some (kvsL, ftL) →
      dec c (holeLo lo left ek) (kidsUp hi right) = some (kvsC, ftC) →
      decodeKids dec hi (kidsUp hi right) right = some (kvsR, ftR) →
      decodeKids dec hi lo (left ++ (ek, c) :: right)
        = some (kvsL ++ kvsC ++ kvsR, ftL ++ ftC ++ ftR) := by
  intro left
  induction left with
  | nil =>
    intro lo right kvsL ftL kvsC ftC kvsR ftR hL hC hR
    cases kids_nil_inv hL
    rw [List.nil_append]
    unfold decodeKids
    rw [show holeLo lo ([] : List (Int × Int)) ek = lo from rfl] at hC
    rw [hC, hR]
    simp
  | cons e ltail ih =>
    obtain ⟨k0, c0⟩ := e
    intro lo right kvsL ftL kvsC ftC kvsR ftR hL hC hR
    obtain ⟨kvs1, ft1, kvs2, ft2, h1, h2, h3⟩ := kids_cons_inv hL
    obtain ⟨rfl, rfl⟩ := Prod.ext_iff.mp h3
    have hC' : dec c (holeLo (kidsUp (some ek) ltail) ltail ek) (kidsUp hi right)
        = some (kvsC, ftC) := by
      rw [holeLo_shift]
      cases ltail with
      | nil => exact hC
      | cons e2 l2 => exact hC
    have := ih h2 hC' hR
    rw [List.cons_append]
    unfold decodeKids
    rw [kidsUp_append, h1, this]
    simp

theorem setPage_store_other {t : Tree} {pid q : Int} (n : Node) (h : q ≠ pid) :
    (t.setPage pid n).store q = t.store q := by
  show Store.set _ _ _ _ = _
  unfold Store.set
  rw [if_neg h]

/-- Rewriting a subtree root's parent pointer re-roots its decode. -/
theorem decode_setParent {t : Tree} {h : Nat} {pid par : Int} {lo hi : Option Int}
    {rt : Bool} {kvs : List (Int × Nat)} {ft : List Int} (p' : Int)
    (hd : decode t h pid par lo hi rt = some (kvs, ft)) :
    ∀ {n : Node}, t.store pid = some n →
    decode (t.setPage pid (n.setParent p')) h pid p' lo hi rt = some (kvs, ft) := by
  intro n hn
  cases h with
  | zero =>
    obtain ⟨m, nxt, hs, rfl, hm, h0, ha, hlow, hhigh, hchain, hb⟩ := decode_zero_inv hd
    rw [hn] at hs
    cases Option.some.inj hs
    exact decode_zero_intro (setPage_store_same _ _ _) hm h0 ha hlow hhigh hchain hb
  | succ h =>
    obtain ⟨m, kcs, feet, hs, hk, rfl, hm, h0, ha, hne, hlow, hhigh, hseps, hnd⟩ :=
      decode_succ_inv hd
    rw [hn] at hs
    cases Option.some.inj hs
    have hdd : ∀ c lo' hi' kvs' ft',
        decode t h c pid lo' hi' false = some (kvs', ft') →
        (∀ q ∈ ft', q ≠ pid) →
        decode (t.setPage pid ((Node.internal par m kcs).setParent p')) h c pid lo' hi' false
          = some (kvs', ft') := fun c lo' hi' kvs' ft' hdc hP => by
      refine decode_mono ?_ ?_ ?_ h hdc (fun q hq => setPage_store_other _ (hP q hq))
      · rfl
      · rfl
      · exact le_refl _
    have hk2 : decodeKids (fun c lo' hi' =>
        decode (t.setPage pid ((Node.internal par m kcs).setParent p')) h c pid lo' hi' false)
        hi lo kcs = some (kvs, feet) :=
      kids_mono (P := fun q => q ≠ pid) hdd kcs lo kvs feet hk
        (fun q hq => by
          rw [List.nodup_cons] at hnd
          intro he
          subst he
          exact hnd.1 hq)
    exact decode_succ_intro (setPage_store_same _ _ _) hk2 hm h0 ha hne hlow hhigh hseps hnd

/-- Pages outside the re-parented list are untouched, and the bookkeeping
fields never change. -/
theorem reparentAll_frame {p : Int} :
    ∀ (cs : List Int) {t t' : Tree}, reparentAll t cs p = some t' →
      (∀ q, q ∉ cs → t'.store q = t.store q) ∧
      t'.root = t.root ∧ t'.alloc = t.alloc ∧
      t'.leafMax = t.leafMax ∧ t'.internalMax = t.internalMax := by
  intro cs
  induction cs with
  | nil =>
    intro t t' h
    cases Option.some.inj h
    exact ⟨fun q _ => rfl, rfl, rfl, rfl, rfl⟩
  | cons c r ih =>
    intro t t' h
    unfold reparentAll at h
    rcases hc : t.store c with _ | n <;> rw [hc] at h
    · cases h
    obtain ⟨hout, hr, ha, hl, hi⟩ := ih h
    refine ⟨fun q hq => ?_, hr, ha, hl, hi⟩
    rw [hout q (fun hm => hq (List.mem_cons_of_mem _ hm))]
    exact setPage_store_other _ (fun he => hq (he ▸ List.mem_cons_self _ _))

/-- Each re-parented page keeps its content, with the new parent. -/
theorem reparentAll_mem {p : Int} :
    ∀ (cs : List Int) {t t' : Tree}, cs.Nodup → reparentAll t cs p = some t' →
      ∀ c ∈ cs, ∃ n, t.store c = some n ∧ t'.store c = some (n.setParent p) := by
  intro cs
  induction cs with
  | nil => intro t t' _ _ c hc; cases hc
  | cons c0 r ih =>
    intro t t' hnd h c hc
    unfold reparentAll at h
    rcases hc0 : t.store c0 with _ | n0 <;> rw [hc0] at h
    · cases h
    rw [List.nodup_cons] at hnd
    rcases List.mem_cons.mp hc with rfl | hcr
    · refine ⟨n0, hc0, ?_⟩
      rw [(reparentAll_frame r h).1 c hnd.1]
      exact setPage_store_same _ _ _
    · obtain ⟨n, hn, hn'⟩ := ih hnd.2 h c hcr
      refine ⟨n, ?_, hn'⟩
      rw [← hn]
      refine (setPage_store_other _ (fun he => hnd.1 ?_)).symm
      rw [← he]
      exact hcr

/-- `reparentAll` succeeds when every listed page exists. -/
theorem reparentAll_some {p : Int} :
    ∀ (cs : List Int) (t : Tree), (∀ c ∈ cs, (t.store c).isSome) →
      ∃ t', reparentAll t cs p = some t' := by
  intro cs
  induction cs with
  | nil => intro t _; exact ⟨t, rfl⟩
  | cons c r ih =>
    intro t hex
    rcases hc : t.store c with _ | n
    · have := hex c (List.mem_cons_self _ _)
      rw [hc] at this
      cases this
    obtain ⟨t', ht'⟩ := ih (t.setPage c (n.setParent p)) (fun q hq => by
      by_cases hqe : q = c
      · subst hqe
        rw [setPage_store_same]
        rfl
      · rw [setPage_store_other _ hqe]
        exact hex q (List.mem_cons_of_mem _ hq))
    refine ⟨t', ?_⟩
    unfold reparentAll
    rw [hc]
    exact ht'

/-- Every child listed in the entries occurs in the kids footprint. -/
theorem kids_child_mem
    {dec : Int → Option Int → Option Int → Option (List (Int × Nat) × List Int)}
    {hi : Option Int}
    (hhead : ∀ c lo' hi' kvs' ft', dec c lo' hi' = some (kvs', ft') → c ∈ ft') :
    ∀ entries lo kvs ft, decodeKids dec hi lo entries = some (kvs, ft) →
      ∀ c ∈ entries.map (fun e => e.2), c ∈ ft := by
  intro entries
  induction entries with
  | nil =>
    intro lo kvs ft h c hc
    cases hc
  | cons e rest ih =>
    obtain ⟨k0, c0⟩ := e
    intro lo kvs ft h c hc
    obtain ⟨kvs1, ft1, kvs2, ft2, h1, h2, h3⟩ := kids_cons_inv h
    obtain ⟨-, rfl⟩ := Prod.ext_iff.mp h3
    rcases List.mem_cons.mp hc with rfl | hc
    · exact List.mem_append.mpr (Or.inl (hhead _ _ _ _ _ h1))
    · exact List.mem_append.mpr (Or.inr (ih _ _ _ h2 c hc))

/-- A hole position in the decode of `t`'s root: page `pid` sits at depth `d`
below the root with expected parent `par`, window `(lo, hi)` and root flag
`rt`; `pre`/`post` collect the key bindings contributed by the context to the
left/right of the hole, and `ftOld` is the footprint of the subtree currently
plugged in. -/
inductive Ctx (t : Tree) :
    Nat → Int → Int → Option Int → Option Int → Bool →
    List (Int × Nat) → List (Int × Nat) → List Int → Nat → Prop
  | top {hp : Nat} {pid : Int} {ftOld : List Int} :
      t.root = pid → Ctx t hp pid (-1) none none true [] [] ftOld 0
  | node {hp : Nat} {cpid cpar : Int} {clo chi : Option Int} {crt : Bool}
      {pre post : List (Int × Nat)} {d : Nat} {ek pid : Int}
      {left right : List (Int × Int)} {kvsL : List (Int × Nat)} {ftL : List Int}
      {ftC : List Int} {kvsR : List (Int × Nat)} {ftR : List Int} :
      Ctx t (hp + 1) cpid cpar clo chi crt pre post (cpid :: (ftL ++ ftC ++ ftR)) d →
      t.store cpid = some (.internal cpar t.internalMax (left ++ (ek, pid) :: right)) →
      decodeKids (fun c lo' hi' => decode t hp c cpid lo' hi' false) (some ek) clo left
        = some (kvsL, ftL) →
      (∃ kvsC, decode t hp pid cpid (holeLo clo left ek) (kidsUp chi right) false
        = some (kvsC, ftC)) →
      decodeKids (fun c lo' hi' => decode t hp c cpid lo' hi' false) chi (kidsUp chi right)
        right = some (kvsR, ftR) →
      0 ≤ cpid → cpid < (t.alloc : Int) →
      (if crt then 2 else t.internalMax / 2) ≤ (left ++ (ek, pid) :: right).length →
      (left ++ (ek, pid) :: right).length + 1 ≤ t.internalMax →
      sepsOkB clo chi ((left ++ (ek, pid) :: right).tail.map Prod.fst) = true →
      (cpid :: (ftL ++ ftC ++ ftR)).Nodup →
      Ctx t hp pid cpid (holeLo clo left ek) (kidsUp chi right) false
        (pre ++ kvsL) (kvsR ++ post) ftC (d + 1)

/-- Replacing the middle block of a duplicate-free sandwich. -/
theorem nodup_replace_mid {l1 l2 l3 l2' : List Int} {a : Int}
    (h : (a :: (l1 ++ l2 ++ l3)).Nodup) (h2 : l2'.Nodup)
    (hnew : ∀ f ∈ l2', f ∈ l2 ∨ (f ≠ a ∧ f ∉ l1 ∧ f ∉ l3)) :
    (a :: (l1 ++ l2' ++ l3)).Nodup := by
  have ha : a ∉ l1 ++ l2 ++ l3 := (List.nodup_cons.mp h).1
  have hl : (l1 ++ l2 ++ l3).Nodup := (List.nodup_cons.mp h).2
  obtain ⟨h12, h3, d123⟩ := List.nodup_append.mp hl
  obtain ⟨h1, hl2, d12⟩ := List.nodup_append.mp h12
  refine List.nodup_cons.mpr ⟨?_,
    List.nodup_append.mpr ⟨List.nodup_append.mpr ⟨h1, h2, ?_⟩, h3, ?_⟩⟩
  · intro hm
    rcases List.mem_append.mp hm with hm' | hm3
    · rcases List.mem_append.mp hm' with hm1 | hm2
      · exact ha (List.mem_append.mpr (Or.inl (List.mem_append.mpr (Or.inl hm1))))
      · rcases hnew _ hm2 with hm2' | ⟨hne, -, -⟩
        · exact ha (List.mem_append.mpr (Or.inl (List.mem_append.mpr (Or.inr hm2'))))
        · exact hne rfl
    · exact ha (List.mem_append.mpr (Or.inr hm3))
  · intro x hx hx'
    rcases hnew _ hx' with hm2 | ⟨-, hn1, -⟩
    · exact d12 hx hm2
    · exact hn1 hx
  · intro x hx hx3
    rcases List.mem_append.mp hx with hx1 | hx2
    · exact d123 (List.mem_append.mpr (Or.inl hx1)) hx3
    · rcases hnew _ hx2 with hm2 | ⟨-, -, hn3⟩
      · exact d123 (List.mem_append.mpr (Or.inr hm2)) hx3
      · exact hn3 hx3

/-- Plugging a re-decoded subtree into a hole position yields a decode of
the whole tree, with the context's bindings unchanged around it. -/
theorem ctx_fill {t : Tree} {hp : Nat} {pid par : Int} {lo hi : Option Int} {rt : Bool}
    {pre post : List (Int × Nat)} {ftOld : List Int} {d : Nat}
    (hctx : Ctx t hp pid par lo hi rt pre post ftOld d) :
    ∀ {t2 : Tree} {kvs2 : List (Int × Nat)} {ft2 : List Int},
      t2.leafMax = t.leafMax → t2.internalMax = t.internalMax →
      t.alloc ≤ t2.alloc → t2.root = t.root →
      (∀ q : Int, q < (t.alloc : Int) → q ∉ ftOld → t2.store q = t.store q) →
      decode t2 hp pid par lo hi rt = some (kvs2, ft2) →
      (∀ f ∈ ft2, f ∈ ftOld ∨ ¬ f < (t.alloc : Int)) →
      ∃ ftF, decode t2 (hp + d) t2.root (-1) none none true
        = some (pre ++ kvs2 ++ post, ftF) := by
  induction hctx with
  | top hroot =>
    intro t2 kvs2 ft2 hlm him hal hroot2 hagree hd2 hft
    refine ⟨ft2, ?_⟩
    rw [hroot2, hroot]
    simpa using hd2
  | node hctxP hstore hL hC hR h0 ha hlow hhigh hseps hnd ih =>
    rename_i hp cpid cpar clo chi crt pre post d ek pid left right kvsL ftL ftC kvsR ftR
    intro t2 kvs2 ft2 hlm him hal hroot2 hagree hd2 hft
    have hndTail : (ftL ++ ftC ++ ftR).Nodup := (List.nodup_cons.mp hnd).2
    have hcnot : cpid ∉ ftL ++ ftC ++ ftR := (List.nodup_cons.mp hnd).1
    obtain ⟨hndLC, hndR, hdLCR⟩ := List.nodup_append.mp hndTail
    obtain ⟨hndL, hndC, hdLC⟩ := List.nodup_append.mp hndLC
    have hheadDec : ∀ (c : Int) (lo' hi' : Option Int) kvs' ft',
        decode t hp c cpid lo' hi' false = some (kvs', ft') →
        ∀ q ∈ ft', 0 ≤ q ∧ q < (t.alloc : Int) :=
      fun c lo' hi' kvs' ft' hdc => decode_feet_range hp hdc
    have hrangeL : ∀ q ∈ ftL, 0 ≤ q ∧ q < (t.alloc : Int) :=
      kids_feet hheadDec left clo kvsL ftL hL
    have hrangeR : ∀ q ∈ ftR, 0 ≤ q ∧ q < (t.alloc : Int) :=
      kids_feet hheadDec right (kidsUp chi right) kvsR ftR hR
    have hagreeL : ∀ q ∈ ftL, t2.store q = t.store q := fun q hq =>
      hagree q (hrangeL q hq).2 (fun hm => hdLC hq hm)
    have hagreeR : ∀ q ∈ ftR, t2.store q = t.store q := fun q hq =>
      hagree q (hrangeR q hq).2 (fun hm =>
        hdLCR (List.mem_append.mpr (Or.inr hm)) hq)
    have hstore2 : t2.store cpid
        = some (.internal cpar t.internalMax (left ++ (ek, pid) :: right)) := by
      rw [hagree cpid ha (fun hm => hcnot (List.mem_append.mpr
        (Or.inl (List.mem_append.mpr (Or.inr hm)))))]
      exact hstore
    have hddL : ∀ (c : Int) (lo' hi' : Option Int) kvs' ft',
        decode t hp c cpid lo' hi' false = some (kvs', ft') →
        (∀ q ∈ ft', q ∈ ftL) → decode t2 hp c cpid lo' hi' false = some (kvs', ft') :=
      fun c lo' hi' kvs' ft' hdc hP => by
        refine decode_mono ?_ ?_ ?_ hp hdc (fun q hq => hagreeL q (hP q hq))
        · exact hlm
        · exact him
        · exact hal
    have hddR : ∀ (c : Int) (lo' hi' : Option Int) kvs' ft',
        decode t hp c cpid lo' hi' false = some (kvs', ft') →
        (∀ q ∈ ft', q ∈ ftR) → decode t2 hp c cpid lo' hi' false = some (kvs', ft') :=
      fun c lo' hi' kvs' ft' hdc hP => by
        refine decode_mono ?_ ?_ ?_ hp hdc (fun q hq => hagreeR q (hP q hq))
        · exact hlm
        · exact him
        · exact hal
    have hL2 : decodeKids (fun c lo' hi' => decode t2 hp c cpid lo' hi' false)
        (some ek) clo left = some (kvsL, ftL) :=
      kids_mono (P := fun q => q ∈ ftL) hddL left clo kvsL ftL hL (fun q hq => hq)
    have hR2 : decodeKids (fun c lo' hi' => decode t2 hp c cpid lo' hi' false)
        chi (kidsUp chi right) right = some (kvsR, ftR) :=
      kids_mono (P := fun q => q ∈ ftR) hddR right (kidsUp chi right) kvsR ftR hR
        (fun q hq => hq)
    have hkids2 : decodeKids (fun c lo' hi' => decode t2 hp c cpid lo' hi' false)
        chi clo (left ++ (ek, pid) :: right)
        = some (kvsL ++ kvs2 ++ kvsR, ftL ++ ft2 ++ ftR) :=
      kids_split3_intro hL2 hd2 hR2
    have hnd2 : (cpid :: (ftL ++ ft2 ++ ftR)).Nodup := by
      refine nodup_replace_mid hnd (decode_feet_nodup hp hd2) ?_
      intro f hf
      rcases hft f hf with hin | hbig
      · exact Or.inl hin
      · refine Or.inr ⟨?_, ?_, ?_⟩
        · intro he
          subst he
          exact hbig ha
        · intro hm
          exact hbig (hrangeL f hm).2
        · intro hm
          exact hbig (hrangeR f hm).2
    have hdP2 : decode t2 (hp + 1) cpid cpar clo chi crt
        = some (kvsL ++ kvs2 ++ kvsR, cpid :: (ftL ++ ft2 ++ ftR)) :=
      decode_succ_intro hstore2 hkids2 him.symm h0
        (lt_of_lt_of_le ha (by exact_mod_cast hal)) (by simp) hlow hhigh hseps hnd2
    have hagreeP : ∀ q : Int, q < (t.alloc : Int) →
        q ∉ (cpid :: (ftL ++ ftC ++ ftR)) → t2.store q = t.store q :=
      fun q hq hqn => hagree q hq (fun hm => hqn (List.mem_cons_of_mem _
        (List.mem_append.mpr (Or.inl (List.mem_append.mpr (Or.inr hm))))))
    have hftP : ∀ f ∈ cpid :: (ftL ++ ft2 ++ ftR),
        f ∈ (cpid :: (ftL ++ ftC ++ ftR)) ∨ ¬ f < (t.alloc : Int) := by
      intro f hf
      rcases List.mem_cons.mp hf with rfl | hf
      · exact Or.inl (List.mem_cons_self _ _)
      rcases List.mem_append.mp hf with hf' | hfR
      · rcases List.mem_append.mp hf' with hfL | hf2
        · exact Or.inl (List.mem_cons_of_mem _ (List.mem_append.mpr
            (Or.inl (List.mem_append.mpr (Or.inl hfL)))))
        · rcases hft f hf2 with hin | hbig
          · exact Or.inl (List.mem_cons_of_mem _ (List.mem_append.mpr
              (Or.inl (List.mem_append.mpr (Or.inr hin)))))
          · exact Or.inr hbig
      · exact Or.inl (List.mem_cons_of_mem _ (List.mem_append.mpr (Or.inr hfR)))
    obtain ⟨ftF, hfin⟩ := ih hlm him hal hroot2 hagreeP hdP2 hftP
    refine ⟨ftF, ?_⟩
    have he : hp + (d + 1) = (hp + 1) + d := by omega
    rw [he]
    have hlists : (pre ++ kvsL) ++ kvs2 ++ (kvsR ++ post)
        = pre ++ (kvsL ++ kvs2 ++ kvsR) ++ post := by simp
    rw [hlists]
    exact hfin

/-- `Lookup`'s chosen child as a hole: the entry list splits around it, with
the window containing `k` and `k`'s bindings confined to it. -/
theorem kids_find_split {t : Tree} {hgt : Nat} {pp : Int} {hi : Option Int} {k : Int} :
    ∀ (entries : List (Int × Int)) (lo : Option Int) (kvs : List (Int × Nat)) (ft : List Int),
      decodeKids (fun c lo' hi' => decode t hgt c pp lo' hi' false) hi lo entries
        = some (kvs, ft) →
      sepsOkB lo hi (entries.tail.map Prod.fst) = true →
      inLoB lo k = true → inHiB k hi = true → entries ≠ [] →
      ∃ ek left right kvsL ftL kvsC ftC kvsR ftR,
        entries = left ++ (ek, internalLookup entries k) :: right ∧
        decodeKids (fun c lo' hi' => decode t hgt c pp lo' hi' false) (some ek) lo left
          = some (kvsL, ftL) ∧
        decode t hgt (internalLookup entries k) pp (holeLo lo left ek) (kidsUp hi right)
          false = some (kvsC, ftC) ∧
        decodeKids (fun c lo' hi' => decode t hgt c pp lo' hi' false) hi (kidsUp hi right)
          right = some (kvsR, ftR) ∧
        inLoB (holeLo lo left ek) k = true ∧ inHiB k (kidsUp hi right) = true ∧
        kvs = kvsL ++ kvsC ++ kvsR ∧ ft = ftL ++ ftC ++ ftR ∧
        (∀ v, (k, v) ∈ kvs ↔ (k, v) ∈ kvsC) := by
  intro entries
  induction entries with
  | nil => intro lo kvs ft _ _ _ _ hne; cases hne rfl
  | cons e rest ih =>
    obtain ⟨k0, c0⟩ := e
    intro lo kvs ft hdk hseps hklo hkhi _
    obtain ⟨kvs1, ft1, kvs2, ft2, h1, h2, h3⟩ := kids_cons_inv hdk
    obtain ⟨rfl, rfl⟩ := Prod.ext_iff.mp h3
    cases rest with
    | nil =>
      cases kids_nil_inv h2
      refine ⟨k0, [], [], [], [], kvs1, ft1, [], [],
        by simp [internalLookup_single], rfl, ?_, rfl, hklo, hkhi,
        by simp, by simp, ?_⟩
      · rw [internalLookup_single]
        exact h1
      · intro v; simp
    | cons e1 r1 =>
      obtain ⟨k1, c1⟩ := e1
      have hup : kidsUp hi ((k1, c1) :: r1) = some k1 := rfl
      rw [hup] at h1 h2
      have hseps1 : sepsOkB lo hi (k1 :: r1.map Prod.fst) = true := by simpa using hseps
      by_cases hlt : k < k1
      · refine ⟨k0, [], (k1, c1) :: r1, [], [], kvs1, ft1, kvs2, ft2,
          by simp [internalLookup_cons₂, hlt], rfl, ?_,
          ?_, hklo, ?_, rfl, rfl, ?_⟩
        · rw [internalLookup_cons₂, if_pos hlt]
          exact h1
        · exact h2
        · rw [show kidsUp hi ((k1, c1) :: r1) = some k1 from rfl, inHiB_some]
          exact hlt
        · intro v
          simp only [List.mem_append]
          constructor
          · rintro (hm | hm)
            · exact hm
            · exfalso
              have hb := kids_bounds (fun c lo' hi' kvs' ft' hdc => decode_bounds hgt hdc)
                ((k1, c1) :: r1) (some k1) kvs2 ft2 h2
                (by simpa using sepsOk_tail hseps1) (k, v) hm
              rw [inLoB_some] at hb
              omega
          · exact Or.inl
      · push_neg at hlt
        have hrec := ih (some k1) kvs2 ft2 h2 (by simpa using sepsOk_tail hseps1)
          (by rw [inLoB_some]; exact hlt) hkhi (by simp)
        obtain ⟨ek, left', right', kvsL', ftL', kvsC, ftC, kvsR, ftR, heq, hL', hC, hR,
          hclo, hchi, rfl, rfl, hiff⟩ := hrec
        have hlook : internalLookup ((k0, c0) :: (k1, c1) :: r1) k
            = internalLookup ((k1, c1) :: r1) k := by
          rw [internalLookup_cons₂, if_neg (by omega)]
        have hupL : kidsUp (some ek) left' = some k1 := by
          cases left' with
          | nil =>
            have : k1 = ek := by
              have := congrArg (fun l => (l.headD (0, 0)).1) heq
              simpa using this
            rw [this]
            rfl
          | cons e2 l2 =>
            have : e2 = (k1, c1) := by
              have := congrArg (fun l => l.headD (0, 0)) heq
              simpa using this.symm
            rw [this]
            rfl
        have hholeEq : holeLo (some k1) left' ek = some ek := by
          cases left' with
          | nil =>
            have : k1 = ek := by
              have := congrArg (fun l => (l.headD (0, 0)).1) heq
              simpa using this
            rw [show holeLo (some k1) ([] : List (Int × Int)) ek = some k1 from rfl, this]
          | cons e2 l2 => rfl
        refine ⟨ek, (k0, c0) :: left', right', kvs1 ++ kvsL', ft1 ++ ftL', kvsC, ftC,
          kvsR, ftR, ?_, ?_, ?_, hR, ?_, hchi, by simp, by simp, ?_⟩
        · rw [List.cons_append, hlook, ← heq]
        · unfold decodeKids
          rw [hupL, h1, hL']
        · rw [hlook]
          rw [hholeEq] at hC
          exact hC
        · rw [show holeLo lo ((k0, c0) :: left') ek = some ek from rfl]
          rw [hholeEq] at hclo
          exact hclo
        · intro v
          constructor
          · intro hm
            rcases List.mem_append.mp hm with hm1 | hm2
            · exfalso
              have hb := decode_bounds hgt h1 (k, v) hm1
              rw [inHiB_some] at hb
              have := hb.2
              omega
            · exact (hiff v).mp hm2
          · intro hm
            exact List.mem_append.mpr (Or.inr ((hiff v).mpr hm))

/-- Descending to `k`'s leaf produces a hole position at that leaf. -/
theorem descend_ctx {t : Tree} {k : Int} :
    ∀ (h : Nat) {pid par : Int} {lo hi : Option Int} {rt : Bool} {kvs : List (Int × Nat)}
      {ft : List Int} {pre post : List (Int × Nat)} {d : Nat},
      decode t h pid par lo hi rt = some (kvs, ft) →
      Ctx t h pid par lo hi rt pre post ft d →
      inLoB lo k = true → inHiB k hi = true →
      ∃ (lid lpar : Int) (llo lhi : Option Int) (lrt : Bool) (lkvs : List (Int × Nat))
        (pre2 post2 : List (Int × Nat)),
        Ctx t 0 lid lpar llo lhi lrt pre2 post2 [lid] (d + h) ∧
        decode t 0 lid lpar llo lhi lrt = some (lkvs, [lid]) ∧
        (∀ fuel, h + 1 ≤ fuel → findLeafFrom t.store k false fuel pid = some lid) ∧
        inLoB llo k = true ∧ inHiB k lhi = true ∧
        (∀ v, (k, v) ∈ kvs ↔ (k, v) ∈ lkvs) := by
  intro h
  induction h with
  | zero =>
    intro pid par lo hi rt kvs ft pre post d hd hctx hklo hkhi
    obtain ⟨m, nxt, hs, rfl, _⟩ := decode_zero_inv hd
    refine ⟨pid, par, lo, hi, rt, kvs, pre, post, hctx, hd, ?_, hklo, hkhi,
      fun v => Iff.rfl⟩
    intro fuel hfuel
    obtain ⟨f, rfl⟩ : ∃ f, fuel = f + 1 := ⟨fuel - 1, by omega⟩
    unfold findLeafFrom
    rw [hs]
  | succ h ih =>
    intro pid par lo hi rt kvs ft pre post d hd hctx hklo hkhi
    obtain ⟨m, kcs, feet, hs, hk, rfl, hm, h0, ha, hne, hlow, hhigh, hseps, hnd⟩ :=
      decode_succ_inv hd
    subst hm
    obtain ⟨ek, left, right, kvsL, ftL, kvsC, ftC, kvsR, ftR, heq, hL, hC, hR, hclo,
      hchi, rfl, rfl, hiff⟩ := kids_find_split kcs lo kvs feet hk hseps hklo hkhi hne
    have hstore : t.store pid
        = some (.internal par t.internalMax (left ++ (ek, internalLookup kcs k) :: right)) := by
      rw [hs, ← heq]
    have hctx2 : Ctx t h (internalLookup kcs k) pid (holeLo lo left ek)
        (kidsUp hi right) false (pre ++ kvsL) (kvsR ++ post) ftC (d + 1) := by
      refine Ctx.node hctx hstore hL ⟨kvsC, hC⟩ hR h0 ha ?_ ?_ ?_ hnd
      · rw [← heq]
        exact hlow
      · rw [← heq]
        exact hhigh
      · rw [← heq]
        exact hseps
    obtain ⟨lid, lpar, llo, lhi, lrt, lkvs, pre2, post2, hctxL, hdL, hfind, hllo, hlhi,
      hiff2⟩ := ih hC hctx2 hclo hchi
    have harith : (d + 1) + h = d + (h + 1) := by omega
    rw [harith] at hctxL
    refine ⟨lid, lpar, llo, lhi, lrt, lkvs, pre2, post2, hctxL, hdL, ?_, hllo, hlhi,
      fun v => (hiff v).trans (hiff2 v)⟩
    intro fuel hfuel
    obtain ⟨f, rfl⟩ : ∃ f, fuel = f + 1 := ⟨fuel - 1, by omega⟩
    unfold findLeafFrom
    rw [hs]
    simp only [Bool.false_eq_true, if_false]
    exact hfind f (by omega)

/-- A decoded page exists in the store and carries the expected parent. -/
theorem decode_store_parent {t : Tree} {h : Nat} {pid par : Int} {lo hi : Option Int}
    {rt : Bool} {kvs : List (Int × Nat)} {ft : List Int}
    (hd : decode t h pid par lo hi rt = some (kvs, ft)) :
    ∃ n, t.store pid = some n ∧ n.parentOf = par := by
  cases h with
  | zero =>
    obtain ⟨m, nxt, hs, _⟩ := decode_zero_inv hd
    exact ⟨_, hs, rfl⟩
  | succ h =>
    obtain ⟨m, kcs, feet, hs, _⟩ := decode_succ_inv hd
    exact ⟨_, hs, rfl⟩

/-- A decoded page id is within the allocated range. -/
theorem decode_pid_range {t : Tree} {h : Nat} {pid par : Int} {lo hi : Option Int}
    {rt : Bool} {kvs : List (Int × Nat)} {ft : List Int}
    (hd : decode t h pid par lo hi rt = some (kvs, ft)) :
    0 ≤ pid ∧ pid < (t.alloc : Int) := by
  cases h with
  | zero =>
    obtain ⟨m, nxt, _, _, _, h0, ha, _⟩ := decode_zero_inv hd
    exact ⟨h0, ha⟩
  | succ h =>
    obtain ⟨m, kcs, feet, _, _, _, _, h0, ha, _⟩ := decode_succ_inv hd
    exact ⟨h0, ha⟩

/-- Inserting a separator between smaller and larger ones. -/
theorem sepsOk_insert {clo chi : Option Int} {A B : List Int} {key : Int}
    (h : sepsOkB clo chi (A ++ B) = true)
    (hA : ∀ a ∈ A, a < key) (hB : ∀ b ∈ B, key < b)
    (hlo : ltLoB clo key = true) (hhi : inHiB key chi = true) :
    sepsOkB clo chi (A ++ key :: B) = true := by
  unfold sepsOkB at h ⊢
  rw [Bool.and_eq_true] at h ⊢
  obtain ⟨hch, hall⟩ := h
  constructor
  · rw [chainLtB_iff_pairwise] at hch ⊢
    rw [List.pairwise_append] at hch ⊢
    obtain ⟨hpA, hpB, hcross⟩ := hch
    refine ⟨hpA, ?_, ?_⟩
    · rw [List.pairwise_cons]
      exact ⟨hB, hpB⟩
    · intro a ha b hb
      rcases List.mem_cons.mp hb with rfl | hb
      · exact hA a ha
      · exact hcross a ha b hb
  · rw [List.all_eq_true] at hall ⊢
    intro a ha
    rcases List.mem_append.mp ha with ha | ha
    · exact hall a (List.mem_append.mpr (Or.inl ha))
    · rcases List.mem_cons.mp ha with rfl | ha
      · rw [Bool.and_eq_true]
        exact ⟨hlo, hhi⟩
      · exact hall a (List.mem_append.mpr (Or.inr ha))

/-- The separators left of a cut stay valid with the cut key as upper bound. -/
theorem sepsOk_prefix {clo chi : Option Int} {A B : List Int} {mk : Int}
    (h : sepsOkB clo chi (A ++ mk :: B) = true) :
    sepsOkB clo (some mk) A = true := by
  unfold sepsOkB at h ⊢
  rw [Bool.and_eq_true] at h ⊢
  obtain ⟨hch, hall⟩ := h
  rw [chainLtB_iff_pairwise] at hch
  rw [List.pairwise_append] at hch
  obtain ⟨hpA, hpB, hcross⟩ := hch
  constructor
  · rw [chainLtB_iff_pairwise]
    exact hpA
  · rw [List.all_eq_true] at hall ⊢
    intro a ha
    have h1 := hall a (List.mem_append.mpr (Or.inl ha))
    rw [Bool.and_eq_true] at h1 ⊢
    refine ⟨h1.1, ?_⟩
    rw [inHiB_some]
    exact hcross a ha mk (List.mem_cons_self _ _)

/-- The separators right of a cut stay valid with the cut key as lower bound. -/
theorem sepsOk_suffix {chi : Option Int} {mk : Int} :
    ∀ (A : List Int) {clo : Option Int} {B : List Int},
      sepsOkB clo chi (A ++ mk :: B) = true → sepsOkB (some mk) chi B = true := by
  intro A
  induction A with
  | nil =>
    intro clo B h
    exact sepsOk_tail h
  | cons a A' ih =>
    intro clo B h
    exact ih (sepsOk_tail h)

/-- `InsertNodeAfter` at a distinguished anchor entry. -/
theorem insertNodeAfter_split {left right : List (Int × Int)} {ek pid key newId : Int}
    (hnp : pid ∉ left.map (fun e => e.2)) :
    insertNodeAfter (left ++ (ek, pid) :: right) pid key newId
      = left ++ (ek, pid) :: (key, newId) :: right := by
  induction left with
  | nil =>
    rw [List.nil_append]
    unfold insertNodeAfter
    rw [if_pos rfl]
    rfl
  | cons e l ih =>
    rw [List.cons_append]
    unfold insertNodeAfter
    rw [if_neg (fun he => hnp (List.mem_map.mpr ⟨e, List.mem_cons_self _ _, he⟩))]
    rw [ih (fun hm => hnp (by
      obtain ⟨x, hx, hxe⟩ := List.mem_map.mp hm
      exact List.mem_map.mpr ⟨x, List.mem_cons_of_mem _ hx, hxe⟩))]
    rfl

/-- Adopting the moved children re-roots a kids decode at the new parent. -/
theorem kids_reparent {hgt : Nat} {oldPar newPar : Int} {hi : Option Int} :
    ∀ (entries : List (Int × Int)) {u : Tree} {lo : Option Int} {kvs : List (Int × Nat)}
      {ft : List Int} {u5 : Tree},
      decodeKids (fun c lo' hi' => decode u hgt c oldPar lo' hi' false) hi lo entries
        = some (kvs, ft) →
      ft.Nodup →
      reparentAll u (entries.map (fun e => e.2)) newPar = some u5 →
      decodeKids (fun c lo' hi' => decode u5 hgt c newPar lo' hi' false) hi lo entries
        = some (kvs, ft) := by
  intro entries
  induction entries with
  | nil =>
    intro u lo kvs ft u5 h _ hrep
    cases kids_nil_inv h
    cases Option.some.inj hrep
    rfl
  | cons e rest ih =>
    obtain ⟨k0, c0⟩ := e
    intro u lo kvs ft u5 h hnd hrep
    obtain ⟨kvs1, ft1, kvs2, ft2, h1, h2, h3⟩ := kids_cons_inv h
    obtain ⟨rfl, rfl⟩ := Prod.ext_iff.mp h3
    obtain ⟨n, hn, -⟩ := decode_store_parent h1
    rw [List.map_cons] at hrep
    unfold reparentAll at hrep
    rw [hn] at hrep
    obtain ⟨hndL, hndR, hdisj⟩ := List.nodup_append.mp hnd
    have hc0ft1 : c0 ∈ ft1 := by
      obtain ⟨rest1, hrest⟩ := decode_feet_head h1
      rw [hrest]
      exact List.mem_cons_self _ _
    have h1' : decode (u.setPage c0 (n.setParent newPar)) hgt c0 newPar lo
        (kidsUp hi rest) false = some (kvs1, ft1) := decode_setParent newPar h1 hn
    have h2' : decodeKids (fun c lo' hi' =>
        decode (u.setPage c0 (n.setParent newPar)) hgt c oldPar lo' hi' false)
        hi (kidsUp hi rest) rest = some (kvs2, ft2) := by
      refine kids_mono (P := fun q => q ∈ ft2) ?_ rest _ kvs2 ft2 h2 (fun q hq => hq)
      intro c lo' hi' kvs' ft' hdc hP
      refine decode_mono ?_ ?_ ?_ hgt hdc (fun q hq => setPage_store_other _ ?_)
      · rfl
      · rfl
      · exact le_refl _
      · intro he
        subst he
        exact hdisj hc0ft1 (hP q hq)
    have h2f := ih h2' hndR hrep
    have h1f : decode u5 hgt c0 newPar lo (kidsUp hi rest) false = some (kvs1, ft1) := by
      have hout := (reparentAll_frame _ hrep).1
      have hchild : ∀ c ∈ (rest.map (fun e => e.2)), c ∈ ft2 :=
        kids_child_mem (fun c lo' hi' kvs' ft' hdc => by
          obtain ⟨r2, hr2⟩ := decode_feet_head hdc
          rw [hr2]
          exact List.mem_cons_self _ _) rest _ kvs2 ft2 h2
      refine decode_mono ?_ ?_ ?_ hgt h1' (fun q hq => hout q ?_)
      · exact ((reparentAll_frame _ hrep).2.2.2.1 : _)
      · exact ((reparentAll_frame _ hrep).2.2.2.2 : _)
      · rw [(reparentAll_frame _ hrep).2.2.1]
      · intro hm
        exact hdisj hq (hchild q hm)
    unfold decodeKids
    rw [h1f, h2f]

/-- Transfer a kids decode across trees agreeing on its footprint. -/
theorem kids_transfer {t t2 : Tree} (hlm : t2.leafMax = t.leafMax)
    (him : t2.internalMax = t.internalMax) (hal : t.alloc ≤ t2.alloc)
    {hgt : Nat} {pp : Int} {hi : Option Int} {entries : List (Int × Int)}
    {lo : Option Int} {kvs : List (Int × Nat)} {ft : List Int}
    (hk : decodeKids (fun c lo' hi' => decode t hgt c pp lo' hi' false) hi lo entries
      = some (kvs, ft))
    (hagc : ∀ q ∈ ft, t2.store q = t.store q) :
    decodeKids (fun c lo' hi' => decode t2 hgt c pp lo' hi' false) hi lo entries
      = some (kvs, ft) := by
  refine kids_mono (P := fun q => q ∈ ft)
    (fun c lo' hi' kvs' ft' hdc hP => ?_) entries lo kvs ft hk (fun q hq => hq)
  refine decode_mono hlm him hal hgt hdc (fun q hq => hagc q (hP q hq))

/-- Every page in a decode footprint is present in the store. -/
theorem decode_feet_stored {t : Tree} :
    ∀ h {pid par : Int} {lo hi : Option Int} {rt : Bool} {kvs : List (Int × Nat)}
      {ft : List Int}, decode t h pid par lo hi rt = some (kvs, ft) →
      ∀ q ∈ ft, (t.store q).isSome = true := by
  intro h
  induction h with
  | zero =>
    intro pid par lo hi rt kvs ft hd q hq
    obtain ⟨m, nxt, hs, rfl, _⟩ := decode_zero_inv hd
    rcases List.mem_singleton.mp hq with rfl
    rw [hs]
    rfl
  | succ h ih =>
    intro pid par lo hi rt kvs ft hd q hq
    obtain ⟨m, kcs, feet, hs, hk, rfl, _⟩ := decode_succ_inv hd
    rcases List.mem_cons.mp hq with rfl | hm
    · rw [hs]
      rfl
    · exact kids_feet (fun c lo' hi' kvs' ft' hdc => ih hdc) kcs lo kvs feet hk q hm

theorem climb_node {t : Tree} (him3 : 3 ≤ t.internalMax)
    {hp : Nat} {cpid cpar : Int} {clo chi : Option Int} {crt : Bool}
    {pre post : List (Int × Nat)} {d : Nat} {ek pid : Int}
    {left right : List (Int × Int)} {kvsL : List (Int × Nat)} {ftL : List Int}
    {ftC : List Int} {kvsR : List (Int × Nat)} {ftR : List Int}
    (hrec : ∀ {t1 : Tree} {key newId : Int} {kvsA : List (Int × Nat)} {ftA : List Int}
      {kvsB : List (Int × Nat)} {ftB : List Int} {fuel : Nat},
      t1.leafMax = t.leafMax → t1.internalMax = t.internalMax →
      t.alloc < t1.alloc → t1.root = t.root →
      (∀ q : Int, q < (t.alloc : Int) → q ∉ (cpid :: (ftL ++ ftC ++ ftR)) →
        t1.store q = t.store q) →
      decode t1 (hp + 1) cpid cpar clo (some key) false = some (kvsA, ftA) →
      decode t1 (hp + 1) newId cpar (some key) chi false = some (kvsB, ftB) →
      ltLoB clo key = true → inHiB key chi = true →
      (∀ f ∈ ftA, f ∈ (cpid :: (ftL ++ ftC ++ ftR)) ∨ ¬ f < (t.alloc : Int)) →
      (∀ f ∈ ftB, f ∈ (cpid :: (ftL ++ ftC ++ ftR)) ∨ ¬ f < (t.alloc : Int)) →
      (ftA ++ ftB).Nodup →
      d + 1 ≤ fuel →
      ∃ (tF : Tree) (hF : Nat) (ftF : List Int),
        insertIntoParent t1 fuel cpid key newId = some tF ∧
        tF.leafMax = t.leafMax ∧ tF.internalMax = t.internalMax ∧
        decode tF hF tF.root (-1) none none true
          = some (pre ++ kvsA ++ kvsB ++ post, ftF))
    (hfill : ∀ {t2 : Tree} {kvs2 : List (Int × Nat)} {ft2 : List Int},
      t2.leafMax = t.leafMax → t2.internalMax = t.internalMax →
      t.alloc ≤ t2.alloc → t2.root = t.root →
      (∀ q : Int, q < (t.alloc : Int) → q ∉ (cpid :: (ftL ++ ftC ++ ftR)) →
        t2.store q = t.store q) →
      decode t2 (hp + 1) cpid cpar clo chi crt = some (kvs2, ft2) →
      (∀ f ∈ ft2, f ∈ (cpid :: (ftL ++ ftC ++ ftR)) ∨ ¬ f < (t.alloc : Int)) →
      ∃ ftF, decode t2 ((hp + 1) + d) t2.root (-1) none none true
        = some (pre ++ kvs2 ++ post, ftF))
    (hstore : t.store cpid = some (.internal cpar t.internalMax
      (left ++ (ek, pid) :: right)))
    (hL : decodeKids (fun c lo' hi' => decode t hp c cpid lo' hi' false) (some ek) clo
      left = some (kvsL, ftL))
    (hCx : ∃ kvsC, decode t hp pid cpid (holeLo clo left ek) (kidsUp chi right) false
      = some (kvsC, ftC))
    (hR : decodeKids (fun c lo' hi' => decode t hp c cpid lo' hi' false) chi
      (kidsUp chi right) right = some (kvsR, ftR))
    (h0 : 0 ≤ cpid) (ha : cpid < (t.alloc : Int))
    (hlow : (if crt then 2 else t.internalMax / 2) ≤ (left ++ (ek, pid) :: right).length)
    (hhigh : (left ++ (ek, pid) :: right).length + 1 ≤ t.internalMax)
    (hseps : sepsOkB clo chi ((left ++ (ek, pid) :: right).tail.map Prod.fst) = true)
    (hnd : (cpid :: (ftL ++ ftC ++ ftR)).Nodup) :
    ∀ {t1 : Tree} {key newId : Int} {kvsA : List (Int × Nat)} {ftA : List Int}
      {kvsB : List (Int × Nat)} {ftB : List Int} {fuel : Nat},
      t1.leafMax = t.leafMax → t1.internalMax = t.internalMax →
      t.alloc < t1.alloc → t1.root = t.root →
      (∀ q : Int, q < (t.alloc : Int) → q ∉ ftC → t1.store q = t.store q) →
      decode t1 hp pid cpid (holeLo clo left ek) (some key) false = some (kvsA, ftA) →
      decode t1 hp newId cpid (some key) (kidsUp chi right) false = some (kvsB, ftB) →
      ltLoB (holeLo clo left ek) key = true → inHiB key (kidsUp chi right) = true →
      (∀ f ∈ ftA, f ∈ ftC ∨ ¬ f < (t.alloc : Int)) →
      (∀ f ∈ ftB, f ∈ ftC ∨ ¬ f < (t.alloc : Int)) →
      (ftA ++ ftB).Nodup →
      (d + 1) + 1 ≤ fuel →
      ∃ (tF : Tree) (hF : Nat) (ftF : List Int),
        insertIntoParent t1 fuel pid key newId = some tF ∧
        tF.leafMax = t.leafMax ∧ tF.internalMax = t.internalMax ∧
        decode tF hF tF.root (-1) none none true
          = some ((pre ++ kvsL) ++ kvsA ++ kvsB ++ (kvsR ++ post), ftF) := by
  intro t1 key newId kvsA ftA kvsB ftB fuel hlm1 him1 hal1 hroot1 hagree hdA hdB
    hkeyLo hkeyHi hfA hfB hAB hfuel
  obtain ⟨f, rfl⟩ : ∃ f, fuel = f + 1 := ⟨fuel - 1, by omega⟩
  obtain ⟨oldN, hold, holdP⟩ := decode_store_parent hdA
  obtain ⟨kvsC, hC⟩ := hCx
  have hndTail : (ftL ++ ftC ++ ftR).Nodup := (List.nodup_cons.mp hnd).2
  have hcnot : cpid ∉ ftL ++ ftC ++ ftR := (List.nodup_cons.mp hnd).1
  obtain ⟨hndLC, hndR, hdLCR⟩ := List.nodup_append.mp hndTail
  obtain ⟨hndL, hndC, hdLC⟩ := List.nodup_append.mp hndLC
  have hheadDec : ∀ (c : Int) (lo' hi' : Option Int) (kvs' : List (Int × Nat))
      (ft' : List Int), decode t hp c cpid lo' hi' false = some (kvs', ft') →
      ∀ q ∈ ft', 0 ≤ q ∧ q < (t.alloc : Int) :=
    fun c lo' hi' kvs' ft' hdc => decode_feet_range hp hdc
  have hrangeL : ∀ q ∈ ftL, 0 ≤ q ∧ q < (t.alloc : Int) :=
    kids_feet hheadDec left clo kvsL ftL hL
  have hrangeR : ∀ q ∈ ftR, 0 ≤ q ∧ q < (t.alloc : Int) :=
    kids_feet hheadDec right (kidsUp chi right) kvsR ftR hR
  have hrangeA1 := decode_feet_range hp hdA
  have hrangeB1 := decode_feet_range hp hdB
  obtain ⟨restA, hrA⟩ := decode_feet_head hdA
  obtain ⟨restB, hrB⟩ := decode_feet_head hdB
  have hpidA : pid ∈ ftA := by
    rw [hrA]
    exact List.mem_cons_self _ _
  have hnewB : newId ∈ ftB := by
    rw [hrB]
    exact List.mem_cons_self _ _
  have hdisjAB := (List.nodup_append.mp hAB).2.2
  obtain ⟨restC, hrC⟩ := decode_feet_head hC
  have hpidC : pid ∈ ftC := by
    rw [hrC]
    exact List.mem_cons_self _ _
  have hchildHead : ∀ (c : Int) (lo' hi' : Option Int) (kvs' : List (Int × Nat))
      (ft' : List Int), decode t hp c cpid lo' hi' false = some (kvs', ft') → c ∈ ft' :=
    fun c lo' hi' kvs' ft' hdc => by
      obtain ⟨r2, hr2⟩ := decode_feet_head hdc
      rw [hr2]
      exact List.mem_cons_self _ _
  have hchildL : ∀ c ∈ left.map (fun e => e.2), c ∈ ftL :=
    kids_child_mem hchildHead left clo kvsL ftL hL
  have hchildR : ∀ c ∈ right.map (fun e => e.2), c ∈ ftR :=
    kids_child_mem hchildHead right (kidsUp chi right) kvsR ftR hR
  have hstore1 : t1.store cpid
      = some (.internal cpar t.internalMax (left ++ (ek, pid) :: right)) := by
    rw [hagree cpid ha (fun hm => hcnot (List.mem_append.mpr
      (Or.inl (List.mem_append.mpr (Or.inr hm)))))]
    exact hstore
  have hparne : ¬ oldN.parentOf = -1 := by
    rw [holdP]
    intro he
    omega
  have hnpleft : pid ∉ left.map (fun e => e.2) := fun hm => hdLC (hchildL _ hm) hpidC
  have hins : insertNodeAfter (left ++ (ek, pid) :: right) pid key newId
      = left ++ (ek, pid) :: (key, newId) :: right := insertNodeAfter_split hnpleft
  have hBgt : ∀ b ∈ right.map Prod.fst, key < b := by
    cases right with
    | nil =>
      intro b hb
      cases hb
    | cons e1 r1 =>
      intro b hb
      have hkk1 : key < e1.1 := by
        have h2 := hkeyHi
        rw [show kidsUp chi (e1 :: r1) = some e1.1 from rfl, inHiB_some] at h2
        exact h2
      rw [List.map_cons] at hb
      rcases List.mem_cons.mp hb with rfl | hb'
      · exact hkk1
      · have hshape : ((left ++ (ek, pid) :: e1 :: r1).tail).map Prod.fst
            = ((left ++ [(ek, pid)]).tail.map Prod.fst) ++ e1.1 :: r1.map Prod.fst := by
          cases left with
          | nil => simp
          | cons l0 ll => simp
        have hsuf := sepsOk_suffix ((left ++ [(ek, pid)]).tail.map Prod.fst)
          (by rw [← hshape]; exact hseps)
        unfold sepsOkB at hsuf
        rw [Bool.and_eq_true] at hsuf
        have h4 := hsuf.2
        rw [List.all_eq_true] at h4
        have h5 := h4 b hb'
        rw [Bool.and_eq_true] at h5
        have h6 := h5.1
        rw [ltLoB_some] at h6
        omega
  have hkeyHiChi : inHiB key chi = true := by
    cases right with
    | nil =>
      have h2 := hkeyHi
      rw [show kidsUp chi ([] : List (Int × Int)) = chi from rfl] at h2
      exact h2
    | cons e1 r1 =>
      have hkk1 : key < e1.1 := by
        have h2 := hkeyHi
        rw [show kidsUp chi (e1 :: r1) = some e1.1 from rfl, inHiB_some] at h2
        exact h2
      have he1mem : e1.1 ∈ (left ++ (ek, pid) :: e1 :: r1).tail.map Prod.fst := by
        cases left with
        | nil => simp
        | cons l0 ll => simp
      unfold sepsOkB at hseps
      rw [Bool.and_eq_true] at hseps
      have h4 := hseps.2
      rw [List.all_eq_true] at h4
      have h5 := h4 e1.1 he1mem
      rw [Bool.and_eq_true] at h5
      exact inHiB_of_lt hkk1 h5.2
  have hsepsNew : sepsOkB clo chi
      ((left ++ (ek, pid) :: (key, newId) :: right).tail.map Prod.fst) = true := by
    cases left with
    | nil =>
      have h2 : sepsOkB clo chi ([] ++ key :: right.map Prod.fst) = true := by
        refine sepsOk_insert (A := []) ?_ (fun a ha => absurd ha (by simp)) hBgt ?_
          hkeyHiChi
        · rw [List.nil_append]
          simpa using hseps
        · exact hkeyLo
      simpa using h2
    | cons l0 ll =>
      have hekKey : ek < key := by
        have h2 := hkeyLo
        rw [show holeLo clo (l0 :: ll) ek = some ek from rfl, ltLoB_some] at h2
        exact h2
      have holdshape : ((l0 :: ll) ++ (ek, pid) :: right).tail.map Prod.fst
          = (ll.map Prod.fst ++ [ek]) ++ right.map Prod.fst := by simp
      have hnewshape : ((l0 :: ll) ++ (ek, pid) :: (key, newId) :: right).tail.map Prod.fst
          = (ll.map Prod.fst ++ [ek]) ++ key :: right.map Prod.fst := by simp
      rw [hnewshape]
      refine sepsOk_insert ?_ ?_ hBgt ?_ hkeyHiChi
      · rw [← holdshape]
        exact hseps
      · intro a hamem
        rcases List.mem_append.mp hamem with ha2 | ha2
        · have hch : chainLtB (((l0 :: ll) ++ (ek, pid) :: right).tail.map Prod.fst)
              = true := by
            unfold sepsOkB at hseps
            rw [Bool.and_eq_true] at hseps
            exact hseps.1
          rw [holdshape, chainLtB_iff_pairwise, List.pairwise_append] at hch
          have hpX := hch.1
          rw [List.pairwise_append] at hpX
          have hael : a < ek := hpX.2.2 a ha2 ek (List.mem_singleton.mpr rfl)
          omega
        · rcases List.mem_singleton.mp ha2 with rfl
          exact hekKey
      · have hallek : ltLoB clo ek = true := by
          unfold sepsOkB at hseps
          rw [Bool.and_eq_true] at hseps
          have h4 := hseps.2
          rw [List.all_eq_true] at h4
          have h5 := h4 ek (by
            rw [holdshape]
            exact List.mem_append.mpr (Or.inl (List.mem_append.mpr
              (Or.inr (List.mem_singleton.mpr rfl)))))
          rw [Bool.and_eq_true] at h5
          exact h5.1
        exact ltLoB_of_le hallek (le_of_lt hekKey)
  have hagreeL : ∀ q ∈ ftL, t1.store q = t.store q := fun q hq =>
    hagree q (hrangeL q hq).2 (fun hm => hdLC hq hm)
  have hagreeR : ∀ q ∈ ftR, t1.store q = t.store q := fun q hq =>
    hagree q (hrangeR q hq).2 (fun hm => hdLCR (List.mem_append.mpr (Or.inr hm)) hq)
  have hL1 : decodeKids (fun c lo' hi' => decode t1 hp c cpid lo' hi' false)
      (some ek) clo left = some (kvsL, ftL) :=
    kids_transfer hlm1 him1 (le_of_lt hal1) hL hagreeL
  have hR1 : decodeKids (fun c lo' hi' => decode t1 hp c cpid lo' hi' false)
      chi (kidsUp chi right) right = some (kvsR, ftR) :=
    kids_transfer hlm1 him1 (le_of_lt hal1) hR hagreeR
  have hBR1 : decodeKids (fun c lo' hi' => decode t1 hp c cpid lo' hi' false)
      chi (some key) ([] ++ (key, newId) :: right)
      = some ([] ++ kvsB ++ kvsR, [] ++ ftB ++ ftR) :=
    kids_split3_intro rfl hdB hR1
  have hkidsFull : decodeKids (fun c lo' hi' => decode t1 hp c cpid lo' hi' false)
      chi clo (left ++ (ek, pid) :: ((key, newId) :: right))
      = some (kvsL ++ kvsA ++ ([] ++ kvsB ++ kvsR), ftL ++ ftA ++ ([] ++ ftB ++ ftR)) :=
    kids_split3_intro hL1 hdA hBR1
  simp only [List.nil_append] at hkidsFull
  have hfFull : ∀ f ∈ ftL ++ ftA ++ (ftB ++ ftR),
      f ∈ (cpid :: (ftL ++ ftC ++ ftR)) ∨ ¬ f < (t.alloc : Int) := by
    intro f hf
    rcases List.mem_append.mp hf with hf' | hf'
    · rcases List.mem_append.mp hf' with hf2 | hf2
      · exact Or.inl (List.mem_cons_of_mem _ (List.mem_append.mpr
          (Or.inl (List.mem_append.mpr (Or.inl hf2)))))
      · rcases hfA f hf2 with hin | hbig
        · exact Or.inl (List.mem_cons_of_mem _ (List.mem_append.mpr
            (Or.inl (List.mem_append.mpr (Or.inr hin)))))
        · exact Or.inr hbig
    · rcases List.mem_append.mp hf' with hf2 | hf2
      · rcases hfB f hf2 with hin | hbig
        · exact Or.inl (List.mem_cons_of_mem _ (List.mem_append.mpr
            (Or.inl (List.mem_append.mpr (Or.inr hin)))))
        · exact Or.inr hbig
      · exact Or.inl (List.mem_cons_of_mem _ (List.mem_append.mpr (Or.inr hf2)))
  have hneFull : ∀ q ∈ ftL ++ ftA ++ (ftB ++ ftR), q ≠ cpid := by
    intro q hq he
    rcases hfFull q hq with hin | hbig
    · rcases List.mem_cons.mp hin with he2 | hin2
      · subst he
        exact absurd he2 (by
          intro h3
          exact hcnot (by
            rcases List.mem_append.mp hq with h4 | h4
            · rcases List.mem_append.mp h4 with h5 | h5
              · exact List.mem_append.mpr (Or.inl (List.mem_append.mpr (Or.inl h5)))
              · rcases hfA _ h5 with h6 | h6
                · exact List.mem_append.mpr (Or.inl (List.mem_append.mpr (Or.inr h6)))
                · exact absurd ha h6
            · rcases List.mem_append.mp h4 with h5 | h5
              · rcases hfB _ h5 with h6 | h6
                · exact List.mem_append.mpr (Or.inl (List.mem_append.mpr (Or.inr h6)))
                · exact absurd ha h6
              · exact List.mem_append.mpr (Or.inr h5)))
      · subst he
        exact hcnot hin2
    · subst he
      exact hbig ha
  have hndFull : (cpid :: (ftL ++ (ftA ++ ftB) ++ ftR)).Nodup := by
    refine nodup_replace_mid hnd hAB ?_
    intro f hf
    have hLR : f ∈ ftA ∨ f ∈ ftB := List.mem_append.mp hf
    have hcase : f ∈ ftC ∨ ¬ f < (t.alloc : Int) := by
      rcases hLR with h5 | h5
      · exact hfA f h5
      · exact hfB f h5
    rcases hcase with hin | hbig
    · exact Or.inl hin
    · refine Or.inr ⟨?_, ?_, ?_⟩
      · intro he
        subst he
        exact hbig ha
      · intro hm
        exact hbig (hrangeL f hm).2
      · intro hm
        exact hbig (hrangeR f hm).2
  have hftassoc : ftL ++ (ftA ++ ftB) ++ ftR = ftL ++ ftA ++ (ftB ++ ftR) := by simp
  rw [hftassoc] at hndFull
  by_cases hsplit : t1.internalMax ≤ (left ++ (ek, pid) :: (key, newId) :: right).length
  · -- the parent itself splits
    have hlenKCS : (left ++ (ek, pid) :: (key, newId) :: right).length = t1.internalMax := by
      have h9 : (left ++ (ek, pid) :: right).length + 1 = (left ++ (ek, pid) :: (key, newId) :: right).length := by
        simp only [List.length_append, List.length_cons]
        omega
      omega
    have hkeepmoved : ((left ++ (ek, pid) :: (key, newId) :: right).take (t.internalMax / 2)) ++ ((left ++ (ek, pid) :: (key, newId) :: right).drop (t.internalMax / 2)) = (left ++ (ek, pid) :: (key, newId) :: right) := List.take_append_drop _ _
    have hkeeplen : ((left ++ (ek, pid) :: (key, newId) :: right).take (t.internalMax / 2)).length = t.internalMax / 2 := by
      simp only [List.length_take]
      omega
    have hmovedlen : ((left ++ (ek, pid) :: (key, newId) :: right).drop (t.internalMax / 2)).length = t.internalMax - t.internalMax / 2 := by
      simp only [List.length_drop]
      omega
    have hkeepne : ((left ++ (ek, pid) :: (key, newId) :: right).take (t.internalMax / 2)) ≠ [] := by
      intro he
      rw [he] at hkeeplen
      simp at hkeeplen
      omega
    have hmovedne : ((left ++ (ek, pid) :: (key, newId) :: right).drop (t.internalMax / 2)) ≠ [] := by
      intro he
      rw [he] at hmovedlen
      simp at hmovedlen
      omega
    rcases hkp : ((left ++ (ek, pid) :: (key, newId) :: right).take (t.internalMax / 2)) with _ | ⟨ke0, krest⟩
    · exact absurd hkp hkeepne
    rcases hmv : ((left ++ (ek, pid) :: (key, newId) :: right).drop (t.internalMax / 2)) with _ | ⟨⟨mk, mc⟩, mtail⟩
    · exact absurd hmv hmovedne
    have hshape : left ++ (ek, pid) :: ((key, newId) :: right)
        = ((left ++ (ek, pid) :: (key, newId) :: right).take (t.internalMax / 2)) ++ (mk, mc) :: mtail := by
      rw [← hmv]
      exact hkeepmoved.symm
    rw [hshape] at hkidsFull
    obtain ⟨kvsKp, ftKp, kvsMc, ftMc, kvsMt, ftMt, hKp, hMc, hMt, hkvseq, hfteq⟩ :=
      kids_split3_inv hkidsFull
    have hholeTK : holeLo clo ((left ++ (ek, pid) :: (key, newId) :: right).take (t.internalMax / 2)) mk = some mk := by
      rw [hkp]
      rfl
    rw [hholeTK] at hMc
    have hsepshape : (left ++ (ek, pid) :: (key, newId) :: right).tail.map Prod.fst
        = (((left ++ (ek, pid) :: (key, newId) :: right).take (t.internalMax / 2)).tail.map Prod.fst) ++ mk :: (mtail.map Prod.fst) := by
      conv_lhs => rw [show (left ++ (ek, pid) :: (key, newId) :: right) = ((left ++ (ek, pid) :: (key, newId) :: right).take (t.internalMax / 2)) ++ (mk, mc) :: mtail from hshape]
      rw [hkp]
      cases left with
      | nil => simp
      | cons l0 ll => simp
    have hsepsKp : sepsOkB clo (some mk) (((left ++ (ek, pid) :: (key, newId) :: right).take (t.internalMax / 2)).tail.map Prod.fst) = true :=
      sepsOk_prefix (by rw [← hsepshape]; exact hsepsNew)
    have hsepsMt : sepsOkB (some mk) chi (mtail.map Prod.fst) = true :=
      sepsOk_suffix _ (by rw [← hsepshape]; exact hsepsNew)
    have hmkmem : mk ∈ (left ++ (ek, pid) :: (key, newId) :: right).tail.map Prod.fst := by
      rw [hsepshape]
      exact List.mem_append.mpr (Or.inr (List.mem_cons_self _ _))
    have hmkB : ltLoB clo mk = true ∧ inHiB mk chi = true := by
      have h4 := hsepsNew
      unfold sepsOkB at h4
      rw [Bool.and_eq_true] at h4
      have h5 := h4.2
      rw [List.all_eq_true] at h5
      have h6 := h5 mk hmkmem
      rw [Bool.and_eq_true] at h6
      exact h6
    have hfKp : ∀ f ∈ ftKp, f ∈ ftL ++ ftA ++ (ftB ++ ftR) := by
      intro f hf
      rw [hfteq]
      exact List.mem_append.mpr (Or.inl (List.mem_append.mpr (Or.inl hf)))
    have hfMc : ∀ f ∈ ftMc, f ∈ ftL ++ ftA ++ (ftB ++ ftR) := by
      intro f hf
      rw [hfteq]
      exact List.mem_append.mpr (Or.inl (List.mem_append.mpr (Or.inr hf)))
    have hfMt : ∀ f ∈ ftMt, f ∈ ftL ++ ftA ++ (ftB ++ ftR) := by
      intro f hf
      rw [hfteq]
      exact List.mem_append.mpr (Or.inr hf)
    have hrangeFull : ∀ f ∈ ftL ++ ftA ++ (ftB ++ ftR), 0 ≤ f ∧ f < (t1.alloc : Int) := by
      have hcast : (t.alloc : Int) < (t1.alloc : Int) := by exact_mod_cast hal1
      intro f hf
      rcases List.mem_append.mp hf with hf2 | hf2
      · rcases List.mem_append.mp hf2 with hf3 | hf3
        · have := hrangeL f hf3
          omega
        · exact hrangeA1 f hf3
      · rcases List.mem_append.mp hf2 with hf3 | hf3
        · exact hrangeB1 f hf3
        · have := hrangeR f hf3
          omega
    rw [hfteq] at hndFull hfFull hneFull hrangeFull
    have hcnot2 : cpid ∉ ftKp ++ ftMc ++ ftMt := (List.nodup_cons.mp hndFull).1
    obtain ⟨hndKpMc, hndMt2, hdisj2⟩ := List.nodup_append.mp (List.nodup_cons.mp hndFull).2
    obtain ⟨hndKp, hndMc, hdKpMc⟩ := List.nodup_append.mp hndKpMc
    have hcpidNID : cpid ≠ ((t1.setPage cpid (Node.internal cpar t.internalMax (left ++ (ek, pid) :: (key, newId) :: right))).alloc : Int) := by
      show cpid ≠ (t1.alloc : Int)
      have hcast : (t.alloc : Int) < (t1.alloc : Int) := by exact_mod_cast hal1
      omega
    have hU4cpid : ((({ (t1.setPage cpid (Node.internal cpar t.internalMax (left ++ (ek, pid) :: (key, newId) :: right))) with alloc := (t1.setPage cpid (Node.internal cpar t.internalMax (left ++ (ek, pid) :: (key, newId) :: right))).alloc + 1 } : Tree).setPage cpid (Node.internal cpar t.internalMax ((left ++ (ek, pid) :: (key, newId) :: right).take (t.internalMax / 2)))).setPage ((t1.setPage cpid (Node.internal cpar t.internalMax (left ++ (ek, pid) :: (key, newId) :: right))).alloc : Int) (Node.internal cpar t1.internalMax ((left ++ (ek, pid) :: (key, newId) :: right).drop (t.internalMax / 2)))).store cpid
        = some (Node.internal cpar t.internalMax ((left ++ (ek, pid) :: (key, newId) :: right).take (t.internalMax / 2))) := by
      rw [setPage_store_other _ hcpidNID]
      exact setPage_store_same _ _ _
    have hU4nid : ((({ (t1.setPage cpid (Node.internal cpar t.internalMax (left ++ (ek, pid) :: (key, newId) :: right))) with alloc := (t1.setPage cpid (Node.internal cpar t.internalMax (left ++ (ek, pid) :: (key, newId) :: right))).alloc + 1 } : Tree).setPage cpid (Node.internal cpar t.internalMax ((left ++ (ek, pid) :: (key, newId) :: right).take (t.internalMax / 2)))).setPage ((t1.setPage cpid (Node.internal cpar t.internalMax (left ++ (ek, pid) :: (key, newId) :: right))).alloc : Int) (Node.internal cpar t1.internalMax ((left ++ (ek, pid) :: (key, newId) :: right).drop (t.internalMax / 2)))).store ((t1.setPage cpid (Node.internal cpar t.internalMax (left ++ (ek, pid) :: (key, newId) :: right))).alloc : Int)
        = some (Node.internal cpar t1.internalMax ((left ++ (ek, pid) :: (key, newId) :: right).drop (t.internalMax / 2))) := setPage_store_same _ _ _
    have hU4agree : ∀ q ∈ ftKp ++ ftMc ++ ftMt, ((({ (t1.setPage cpid (Node.internal cpar t.internalMax (left ++ (ek, pid) :: (key, newId) :: right))) with alloc := (t1.setPage cpid (Node.internal cpar t.internalMax (left ++ (ek, pid) :: (key, newId) :: right))).alloc + 1 } : Tree).setPage cpid (Node.internal cpar t.internalMax ((left ++ (ek, pid) :: (key, newId) :: right).take (t.internalMax / 2)))).setPage ((t1.setPage cpid (Node.internal cpar t.internalMax (left ++ (ek, pid) :: (key, newId) :: right))).alloc : Int) (Node.internal cpar t1.internalMax ((left ++ (ek, pid) :: (key, newId) :: right).drop (t.internalMax / 2)))).store q = t1.store q := by
      intro q hq
      have h9 := hrangeFull q hq
      have hqn : q ≠ ((t1.setPage cpid (Node.internal cpar t.internalMax (left ++ (ek, pid) :: (key, newId) :: right))).alloc : Int) := by
        show q ≠ (t1.alloc : Int)
        omega
      rw [setPage_store_other _ hqn, setPage_store_other _ (hneFull q hq)]
      exact setPage_store_other _ (hneFull q hq)
    have hKpU4 : decodeKids (fun c lo' hi' => decode ((({ (t1.setPage cpid (Node.internal cpar t.internalMax (left ++ (ek, pid) :: (key, newId) :: right))) with alloc := (t1.setPage cpid (Node.internal cpar t.internalMax (left ++ (ek, pid) :: (key, newId) :: right))).alloc + 1 } : Tree).setPage cpid (Node.internal cpar t.internalMax ((left ++ (ek, pid) :: (key, newId) :: right).take (t.internalMax / 2)))).setPage ((t1.setPage cpid (Node.internal cpar t.internalMax (left ++ (ek, pid) :: (key, newId) :: right))).alloc : Int) (Node.internal cpar t1.internalMax ((left ++ (ek, pid) :: (key, newId) :: right).drop (t.internalMax / 2)))) hp c cpid lo' hi' false)
        (some mk) clo ((left ++ (ek, pid) :: (key, newId) :: right).take (t.internalMax / 2)) = some (kvsKp, ftKp) := by
      refine kids_transfer ?_ ?_ ?_ hKp (fun q hq => hU4agree q
        (List.mem_append.mpr (Or.inl (List.mem_append.mpr (Or.inl hq)))))
      · rfl
      · rfl
      · exact Nat.le_succ _
    have hMcU4 : decode ((({ (t1.setPage cpid (Node.internal cpar t.internalMax (left ++ (ek, pid) :: (key, newId) :: right))) with alloc := (t1.setPage cpid (Node.internal cpar t.internalMax (left ++ (ek, pid) :: (key, newId) :: right))).alloc + 1 } : Tree).setPage cpid (Node.internal cpar t.internalMax ((left ++ (ek, pid) :: (key, newId) :: right).take (t.internalMax / 2)))).setPage ((t1.setPage cpid (Node.internal cpar t.internalMax (left ++ (ek, pid) :: (key, newId) :: right))).alloc : Int) (Node.internal cpar t1.internalMax ((left ++ (ek, pid) :: (key, newId) :: right).drop (t.internalMax / 2)))) hp mc cpid (some mk) (kidsUp chi mtail) false
        = some (kvsMc, ftMc) := by
      refine decode_mono ?_ ?_ ?_ hp hMc (fun q hq => hU4agree q
        (List.mem_append.mpr (Or.inl (List.mem_append.mpr (Or.inr hq)))))
      · rfl
      · rfl
      · exact Nat.le_succ _
    have hMtU4 : decodeKids (fun c lo' hi' => decode ((({ (t1.setPage cpid (Node.internal cpar t.internalMax (left ++ (ek, pid) :: (key, newId) :: right))) with alloc := (t1.setPage cpid (Node.internal cpar t.internalMax (left ++ (ek, pid) :: (key, newId) :: right))).alloc + 1 } : Tree).setPage cpid (Node.internal cpar t.internalMax ((left ++ (ek, pid) :: (key, newId) :: right).take (t.internalMax / 2)))).setPage ((t1.setPage cpid (Node.internal cpar t.internalMax (left ++ (ek, pid) :: (key, newId) :: right))).alloc : Int) (Node.internal cpar t1.internalMax ((left ++ (ek, pid) :: (key, newId) :: right).drop (t.internalMax / 2)))) hp c cpid lo' hi' false)
        chi (kidsUp chi mtail) mtail = some (kvsMt, ftMt) := by
      refine kids_transfer ?_ ?_ ?_ hMt (fun q hq => hU4agree q
        (List.mem_append.mpr (Or.inr hq)))
      · rfl
      · rfl
      · exact Nat.le_succ _
    have hchildHead4 : ∀ (c : Int) (lo' hi' : Option Int) (kvs' : List (Int × Nat))
        (ft' : List Int), decode ((({ (t1.setPage cpid (Node.internal cpar t.internalMax (left ++ (ek, pid) :: (key, newId) :: right))) with alloc := (t1.setPage cpid (Node.internal cpar t.internalMax (left ++ (ek, pid) :: (key, newId) :: right))).alloc + 1 } : Tree).setPage cpid (Node.internal cpar t.internalMax ((left ++ (ek, pid) :: (key, newId) :: right).take (t.internalMax / 2)))).setPage ((t1.setPage cpid (Node.internal cpar t.internalMax (left ++ (ek, pid) :: (key, newId) :: right))).alloc : Int) (Node.internal cpar t1.internalMax ((left ++ (ek, pid) :: (key, newId) :: right).drop (t.internalMax / 2)))) hp c cpid lo' hi' false = some (kvs', ft') →
        c ∈ ft' := fun c lo' hi' kvs' ft' hdc => by
      obtain ⟨r2, hr2⟩ := decode_feet_head hdc
      rw [hr2]
      exact List.mem_cons_self _ _
    have hmcMc : mc ∈ ftMc := hchildHead4 mc _ _ _ _ hMcU4
    have hchildMt : ∀ c ∈ mtail.map (fun e => e.2), c ∈ ftMt :=
      kids_child_mem hchildHead4 mtail (kidsUp chi mtail) kvsMt ftMt hMtU4
    have hstored : ∀ c ∈ (((left ++ (ek, pid) :: (key, newId) :: right).drop (t.internalMax / 2)).map (fun e => e.2)), (((({ (t1.setPage cpid (Node.internal cpar t.internalMax (left ++ (ek, pid) :: (key, newId) :: right))) with alloc := (t1.setPage cpid (Node.internal cpar t.internalMax (left ++ (ek, pid) :: (key, newId) :: right))).alloc + 1 } : Tree).setPage cpid (Node.internal cpar t.internalMax ((left ++ (ek, pid) :: (key, newId) :: right).take (t.internalMax / 2)))).setPage ((t1.setPage cpid (Node.internal cpar t.internalMax (left ++ (ek, pid) :: (key, newId) :: right))).alloc : Int) (Node.internal cpar t1.internalMax ((left ++ (ek, pid) :: (key, newId) :: right).drop (t.internalMax / 2)))).store c).isSome = true := by
      intro c hc
      rw [hmv] at hc
      simp only [List.map_cons] at hc
      rcases List.mem_cons.mp hc with he | hc'
      · obtain ⟨n, hn, -⟩ := decode_store_parent hMcU4
        rw [he, hn]
        rfl
      · have hcft : c ∈ ftMt := hchildMt c hc'
        exact kids_feet (P := fun q => (((({ (t1.setPage cpid (Node.internal cpar t.internalMax (left ++ (ek, pid) :: (key, newId) :: right))) with alloc := (t1.setPage cpid (Node.internal cpar t.internalMax (left ++ (ek, pid) :: (key, newId) :: right))).alloc + 1 } : Tree).setPage cpid (Node.internal cpar t.internalMax ((left ++ (ek, pid) :: (key, newId) :: right).take (t.internalMax / 2)))).setPage ((t1.setPage cpid (Node.internal cpar t.internalMax (left ++ (ek, pid) :: (key, newId) :: right))).alloc : Int) (Node.internal cpar t1.internalMax ((left ++ (ek, pid) :: (key, newId) :: right).drop (t.internalMax / 2)))).store q).isSome = true)
          (fun c' lo' hi' kvs' ft' hdc => decode_feet_stored hp hdc)
          mtail (kidsUp chi mtail) kvsMt ftMt hMtU4 c hcft
    obtain ⟨u5, hrep⟩ : ∃ u5, reparentAll ((({ (t1.setPage cpid (Node.internal cpar t.internalMax (left ++ (ek, pid) :: (key, newId) :: right))) with alloc := (t1.setPage cpid (Node.internal cpar t.internalMax (left ++ (ek, pid) :: (key, newId) :: right))).alloc + 1 } : Tree).setPage cpid (Node.internal cpar t.internalMax ((left ++ (ek, pid) :: (key, newId) :: right).take (t.internalMax / 2)))).setPage ((t1.setPage cpid (Node.internal cpar t.internalMax (left ++ (ek, pid) :: (key, newId) :: right))).alloc : Int) (Node.internal cpar t1.internalMax ((left ++ (ek, pid) :: (key, newId) :: right).drop (t.internalMax / 2)))) (((left ++ (ek, pid) :: (key, newId) :: right).drop (t.internalMax / 2)).map (fun e => e.2)) ((t1.setPage cpid (Node.internal cpar t.internalMax (left ++ (ek, pid) :: (key, newId) :: right))).alloc : Int)
        = some u5 := reparentAll_some _ _ hstored
    have hframe := reparentAll_frame _ hrep
    have hu5alloc : u5.alloc = t1.alloc + 1 := by
      rw [hframe.2.2.1]
      rfl
    have hmvchild : ∀ c ∈ (((left ++ (ek, pid) :: (key, newId) :: right).drop (t.internalMax / 2)).map (fun e => e.2)), c ∈ ftMc ++ ftMt := by
      rw [hmv]
      intro c hc
      simp only [List.map_cons] at hc
      rcases List.mem_cons.mp hc with he | hc'
      · rw [he]
        exact List.mem_append.mpr (Or.inl hmcMc)
      · exact List.mem_append.mpr (Or.inr (hchildMt c hc'))
    have hu5cpid : u5.store cpid = some (Node.internal cpar t.internalMax ((left ++ (ek, pid) :: (key, newId) :: right).take (t.internalMax / 2))) := by
      rw [hframe.1 cpid (fun hm => hcnot2 (by
        rcases List.mem_append.mp (hmvchild cpid hm) with h5 | h5
        · exact List.mem_append.mpr (Or.inl (List.mem_append.mpr (Or.inr h5)))
        · exact List.mem_append.mpr (Or.inr h5)))]
      exact hU4cpid
    have hKpU5 : decodeKids (fun c lo' hi' => decode u5 hp c cpid lo' hi' false)
        (some mk) clo ((left ++ (ek, pid) :: (key, newId) :: right).take (t.internalMax / 2)) = some (kvsKp, ftKp) := by
      refine kids_transfer ?_ ?_ ?_ hKpU4 (fun q hq => hframe.1 q (fun hm => ?_))
      · exact hframe.2.2.2.1
      · exact hframe.2.2.2.2
      · rw [hframe.2.2.1]
      · rcases List.mem_append.mp (hmvchild q hm) with h5 | h5
        · exact hdKpMc hq h5
        · exact hdisj2 (List.mem_append.mpr (Or.inl hq)) h5
    have hnodeL : decode u5 (hp + 1) cpid cpar clo (some mk) false
        = some (kvsKp, cpid :: ftKp) := by
      refine decode_succ_intro hu5cpid hKpU5 ?_ h0 ?_ hkeepne ?_ ?_ hsepsKp ?_
      · rw [hframe.2.2.2.2]
        exact him1.symm
      · rw [hu5alloc]
        have hcast : (t.alloc : Int) < (t1.alloc : Int) := by exact_mod_cast hal1
        have hcast2 : ((t1.alloc + 1 : Nat) : Int) = (t1.alloc : Int) + 1 := by push_cast; ring
        rw [hcast2]
        omega
      · simp only [Bool.false_eq_true, if_false]
        omega
      · omega
      · exact List.nodup_cons.mpr ⟨fun hm => hcnot2 (List.mem_append.mpr
          (Or.inl (List.mem_append.mpr (Or.inl hm)))), hndKp⟩
    have hrep2 : reparentAll ((({ (t1.setPage cpid (Node.internal cpar t.internalMax (left ++ (ek, pid) :: (key, newId) :: right))) with alloc := (t1.setPage cpid (Node.internal cpar t.internalMax (left ++ (ek, pid) :: (key, newId) :: right))).alloc + 1 } : Tree).setPage cpid (Node.internal cpar t.internalMax ((left ++ (ek, pid) :: (key, newId) :: right).take (t.internalMax / 2)))).setPage ((t1.setPage cpid (Node.internal cpar t.internalMax (left ++ (ek, pid) :: (key, newId) :: right))).alloc : Int) (Node.internal cpar t1.internalMax ((left ++ (ek, pid) :: (key, newId) :: right).drop (t.internalMax / 2)))) (((mk, mc) :: mtail).map (fun e => e.2)) ((t1.setPage cpid (Node.internal cpar t.internalMax (left ++ (ek, pid) :: (key, newId) :: right))).alloc : Int) = some u5 := by
      rw [← hmv]
      exact hrep
    have hMvU4 : decodeKids (fun c lo' hi' => decode ((({ (t1.setPage cpid (Node.internal cpar t.internalMax (left ++ (ek, pid) :: (key, newId) :: right))) with alloc := (t1.setPage cpid (Node.internal cpar t.internalMax (left ++ (ek, pid) :: (key, newId) :: right))).alloc + 1 } : Tree).setPage cpid (Node.internal cpar t.internalMax ((left ++ (ek, pid) :: (key, newId) :: right).take (t.internalMax / 2)))).setPage ((t1.setPage cpid (Node.internal cpar t.internalMax (left ++ (ek, pid) :: (key, newId) :: right))).alloc : Int) (Node.internal cpar t1.internalMax ((left ++ (ek, pid) :: (key, newId) :: right).drop (t.internalMax / 2)))) hp c cpid lo' hi' false)
        chi (some mk) ([] ++ (mk, mc) :: mtail)
        = some ([] ++ kvsMc ++ kvsMt, [] ++ ftMc ++ ftMt) :=
      kids_split3_intro rfl hMcU4 hMtU4
    simp only [List.nil_append] at hMvU4
    have hndMcMt : (ftMc ++ ftMt).Nodup := by
      refine List.nodup_append.mpr ⟨hndMc, hndMt2, ?_⟩
      intro x hx hy
      exact hdisj2 (List.mem_append.mpr (Or.inr hx)) hy
    have hMvU5 : decodeKids (fun c lo' hi' => decode u5 hp c ((t1.setPage cpid (Node.internal cpar t.internalMax (left ++ (ek, pid) :: (key, newId) :: right))).alloc : Int) lo' hi' false)
        chi (some mk) ((mk, mc) :: mtail) = some (kvsMc ++ kvsMt, ftMc ++ ftMt) :=
      kids_reparent _ hMvU4 hndMcMt hrep2
    have hu5nid : u5.store ((t1.setPage cpid (Node.internal cpar t.internalMax (left ++ (ek, pid) :: (key, newId) :: right))).alloc : Int)
        = some (Node.internal cpar t1.internalMax ((mk, mc) :: mtail)) := by
      rw [hframe.1 ((t1.setPage cpid (Node.internal cpar t.internalMax (left ++ (ek, pid) :: (key, newId) :: right))).alloc : Int) (fun hm => by
        rcases List.mem_append.mp (hmvchild _ hm) with h5 | h5
        · have h6 := hrangeFull ((t1.setPage cpid (Node.internal cpar t.internalMax (left ++ (ek, pid) :: (key, newId) :: right))).alloc : Int) (List.mem_append.mpr (Or.inl
            (List.mem_append.mpr (Or.inr h5))))
          have : ((t1.setPage cpid (Node.internal cpar t.internalMax (left ++ (ek, pid) :: (key, newId) :: right))).alloc : Int) = (t1.alloc : Int) := rfl
          omega
        · have h6 := hrangeFull ((t1.setPage cpid (Node.internal cpar t.internalMax (left ++ (ek, pid) :: (key, newId) :: right))).alloc : Int) (List.mem_append.mpr (Or.inr h5))
          have : ((t1.setPage cpid (Node.internal cpar t.internalMax (left ++ (ek, pid) :: (key, newId) :: right))).alloc : Int) = (t1.alloc : Int) := rfl
          omega)]
      rw [show ((({ (t1.setPage cpid (Node.internal cpar t.internalMax (left ++ (ek, pid) :: (key, newId) :: right))) with alloc := (t1.setPage cpid (Node.internal cpar t.internalMax (left ++ (ek, pid) :: (key, newId) :: right))).alloc + 1 } : Tree).setPage cpid (Node.internal cpar t.internalMax ((left ++ (ek, pid) :: (key, newId) :: right).take (t.internalMax / 2)))).setPage ((t1.setPage cpid (Node.internal cpar t.internalMax (left ++ (ek, pid) :: (key, newId) :: right))).alloc : Int) (Node.internal cpar t1.internalMax ((left ++ (ek, pid) :: (key, newId) :: right).drop (t.internalMax / 2)))).store ((t1.setPage cpid (Node.internal cpar t.internalMax (left ++ (ek, pid) :: (key, newId) :: right))).alloc : Int)
        = some (Node.internal cpar t1.internalMax ((left ++ (ek, pid) :: (key, newId) :: right).drop (t.internalMax / 2))) from setPage_store_same _ _ _]
      rw [hmv]
    have hmtlen : ((mk, mc) :: mtail).length = t.internalMax - t.internalMax / 2 := by
      rw [← hmv]
      exact hmovedlen
    have hnodeR : decode u5 (hp + 1) ((t1.setPage cpid (Node.internal cpar t.internalMax (left ++ (ek, pid) :: (key, newId) :: right))).alloc : Int) cpar (some mk) chi false
        = some (kvsMc ++ kvsMt, ((t1.setPage cpid (Node.internal cpar t.internalMax (left ++ (ek, pid) :: (key, newId) :: right))).alloc : Int) :: (ftMc ++ ftMt)) := by
      refine decode_succ_intro hu5nid hMvU5 ?_ ?_ ?_ (by simp) ?_ ?_ hsepsMt ?_
      · rw [hframe.2.2.2.2]
        rfl
      · show (0 : Int) ≤ (t1.alloc : Int)
        exact_mod_cast Nat.zero_le _
      · rw [hu5alloc]
        show (t1.alloc : Int) < ((t1.alloc + 1 : Nat) : Int)
        exact_mod_cast Nat.lt_succ_self _
      · simp only [Bool.false_eq_true, if_false]
        rw [hmtlen]
        omega
      · rw [hmtlen]
        omega
      · refine List.nodup_cons.mpr ⟨fun hm => ?_, hndMcMt⟩
        have h6 := hrangeFull ((t1.setPage cpid (Node.internal cpar t.internalMax (left ++ (ek, pid) :: (key, newId) :: right))).alloc : Int) (by
          rcases List.mem_append.mp hm with h5 | h5
          · exact List.mem_append.mpr (Or.inl (List.mem_append.mpr (Or.inr h5)))
          · exact List.mem_append.mpr (Or.inr h5))
        have : ((t1.setPage cpid (Node.internal cpar t.internalMax (left ++ (ek, pid) :: (key, newId) :: right))).alloc : Int) = (t1.alloc : Int) := rfl
        omega
    have hcastT : (t.alloc : Int) < (t1.alloc : Int) := by exact_mod_cast hal1
    obtain ⟨tF, hF, ftF, hrunRec, hcf1, hcf2, hdecF⟩ := hrec
      (show u5.leafMax = t.leafMax from by
        rw [hframe.2.2.2.1]
        exact hlm1)
      (by
        rw [hframe.2.2.2.2]
        exact him1)
      (by
        rw [hu5alloc]
        omega)
      (by
        rw [hframe.2.1]
        exact hroot1)
      (fun q hq hqn => by
        rw [hframe.1 q (fun hm => by
          rcases hfFull q (by
            rcases List.mem_append.mp (hmvchild q hm) with h5 | h5
            · exact List.mem_append.mpr (Or.inl (List.mem_append.mpr (Or.inr h5)))
            · exact List.mem_append.mpr (Or.inr h5)) with h6 | h6
          · exact hqn h6
          · exact h6 hq)]
        rw [setPage_store_other _ (show q ≠ ((t1.setPage cpid (Node.internal cpar t.internalMax (left ++ (ek, pid) :: (key, newId) :: right))).alloc : Int) from by
          show q ≠ (t1.alloc : Int)
          omega)]
        rw [setPage_store_other _ (fun he => hqn (by
          rw [he]
          exact List.mem_cons_self _ _))]
        rw [show ((t1.setPage cpid (Node.internal cpar t.internalMax (left ++ (ek, pid) :: (key, newId) :: right))).store q) = (t1.setPage cpid
          (Node.internal cpar t.internalMax (left ++ (ek, pid) :: (key, newId) :: right))).store q from rfl]
        rw [setPage_store_other _ (fun he => hqn (by
          rw [he]
          exact List.mem_cons_self _ _))]
        exact hagree q hq (fun hm => hqn (List.mem_cons_of_mem _ (List.mem_append.mpr
          (Or.inl (List.mem_append.mpr (Or.inr hm)))))))
      hnodeL hnodeR hmkB.1 hmkB.2
      (by
        intro fq hfq
        rcases List.mem_cons.mp hfq with rfl | hfq'
        · exact Or.inl (List.mem_cons_self _ _)
        · exact hfFull fq (List.mem_append.mpr (Or.inl (List.mem_append.mpr
            (Or.inl hfq')))))
      (by
        intro fq hfq
        rcases List.mem_cons.mp hfq with rfl | hfq'
        · refine Or.inr ?_
          show ¬ ((t1.setPage cpid (Node.internal cpar t.internalMax (left ++ (ek, pid) :: (key, newId) :: right))).alloc : Int) < (t.alloc : Int)
          have : ((t1.setPage cpid (Node.internal cpar t.internalMax (left ++ (ek, pid) :: (key, newId) :: right))).alloc : Int) = (t1.alloc : Int) := rfl
          omega
        · exact hfFull fq (by
            rcases List.mem_append.mp hfq' with h5 | h5
            · exact List.mem_append.mpr (Or.inl (List.mem_append.mpr (Or.inr h5)))
            · exact List.mem_append.mpr (Or.inr h5)))
      (by
        refine List.nodup_append.mpr ⟨?_, ?_, ?_⟩
        · exact List.nodup_cons.mpr ⟨fun hm => hcnot2 (List.mem_append.mpr
            (Or.inl (List.mem_append.mpr (Or.inl hm)))), hndKp⟩
        · refine List.nodup_cons.mpr ⟨fun hm => ?_, hndMcMt⟩
          have h6 := hrangeFull ((t1.setPage cpid (Node.internal cpar t.internalMax (left ++ (ek, pid) :: (key, newId) :: right))).alloc : Int) (by
            rcases List.mem_append.mp hm with h5 | h5
            · exact List.mem_append.mpr (Or.inl (List.mem_append.mpr (Or.inr h5)))
            · exact List.mem_append.mpr (Or.inr h5))
          have : ((t1.setPage cpid (Node.internal cpar t.internalMax (left ++ (ek, pid) :: (key, newId) :: right))).alloc : Int) = (t1.alloc : Int) := rfl
          omega
        · intro x hx hy
          rcases List.mem_cons.mp hx with rfl | hx'
          · rcases List.mem_cons.mp hy with he | hy'
            · exact hcpidNID he
            · exact hcnot2 (by
                rcases List.mem_append.mp hy' with h5 | h5
                · exact List.mem_append.mpr (Or.inl (List.mem_append.mpr (Or.inr h5)))
                · exact List.mem_append.mpr (Or.inr h5))
          · rcases List.mem_cons.mp hy with he | hy'
            · have h6 := hrangeFull x (List.mem_append.mpr (Or.inl
                (List.mem_append.mpr (Or.inl hx'))))
              rw [he] at h6
              have : ((t1.setPage cpid (Node.internal cpar t.internalMax (left ++ (ek, pid) :: (key, newId) :: right))).alloc : Int) = (t1.alloc : Int) := rfl
              omega
            · rcases List.mem_append.mp hy' with h5 | h5
              · exact hdKpMc hx' h5
              · exact hdisj2 (List.mem_append.mpr (Or.inl hx')) h5)
      (show d + 1 ≤ f from by omega)
    refine ⟨tF, hF, ftF, ?_, hcf1, hcf2, ?_⟩
    · unfold insertIntoParent
      rw [hold]
      simp only
      rw [if_neg hparne, holdP, hstore1]
      simp only
      rw [hins]
      rw [if_pos hsplit]
      rw [hrep]
      simp only
      rw [hmv]
      simp only [List.headD_cons]
      exact hrunRec
    · have hklist : (pre ++ kvsL) ++ kvsA ++ kvsB ++ (kvsR ++ post)
          = pre ++ kvsKp ++ (kvsMc ++ kvsMt) ++ post := by
        have h9 : (pre ++ kvsL) ++ kvsA ++ kvsB ++ (kvsR ++ post)
            = pre ++ (kvsL ++ kvsA ++ (kvsB ++ kvsR)) ++ post := by simp
        rw [h9, hkvseq]
        simp
      rw [hklist]
      exact hdecF
  · have hrun : insertIntoParent t1 (f + 1) pid key newId = some
        (t1.setPage cpid (.internal cpar t.internalMax
          (left ++ (ek, pid) :: (key, newId) :: right))) := by
      unfold insertIntoParent
      rw [hold]
      simp only
      rw [if_neg hparne, holdP, hstore1]
      simp only
      rw [hins]
      rw [if_neg hsplit]
    have hkids2 : decodeKids (fun c lo' hi' => decode
        (t1.setPage cpid (.internal cpar t.internalMax
          (left ++ (ek, pid) :: (key, newId) :: right))) hp c cpid lo' hi' false)
        chi clo (left ++ (ek, pid) :: ((key, newId) :: right))
        = some (kvsL ++ kvsA ++ (kvsB ++ kvsR), ftL ++ ftA ++ (ftB ++ ftR)) := by
      refine kids_mono (P := fun q => q ∈ ftL ++ ftA ++ (ftB ++ ftR)) ?_ _ _ _ _
        hkidsFull (fun q hq => hq)
      intro c lo' hi' kvs' ft' hdc hP
      refine decode_mono ?_ ?_ ?_ hp hdc
        (fun q hq => setPage_store_other _ (hneFull q (hP q hq)))
      · rfl
      · rfl
      · exact le_refl _
    have hdP2 : decode (t1.setPage cpid (.internal cpar t.internalMax
        (left ++ (ek, pid) :: (key, newId) :: right))) (hp + 1) cpid cpar clo chi crt
        = some (kvsL ++ kvsA ++ (kvsB ++ kvsR),
            cpid :: (ftL ++ ftA ++ (ftB ++ ftR))) := by
      refine decode_succ_intro (setPage_store_same _ _ _) hkids2 ?_ h0 ?_ (by simp) ?_ ?_
        hsepsNew hndFull
      · exact him1.symm
      · have h9 : (t.alloc : Int) ≤ (t1.alloc : Int) := by exact_mod_cast le_of_lt hal1
        exact lt_of_lt_of_le ha h9
      · have h9 : (left ++ (ek, pid) :: right).length
            ≤ (left ++ (ek, pid) :: (key, newId) :: right).length := by
          simp
        rcases crt with _ | _
        · simp only [Bool.false_eq_true, if_false] at hlow ⊢
          omega
        · simp only [if_true] at hlow ⊢
          omega
      · have h9 : (left ++ (ek, pid) :: (key, newId) :: right).length < t1.internalMax := by
          omega
        rw [him1] at h9
        omega
    have hagreeP : ∀ q : Int, q < (t.alloc : Int) → q ∉ (cpid :: (ftL ++ ftC ++ ftR)) →
        (t1.setPage cpid (.internal cpar t.internalMax
          (left ++ (ek, pid) :: (key, newId) :: right))).store q = t.store q := by
      intro q hq hqn
      rw [setPage_store_other _ (fun he => hqn (by
        rw [he]
        exact List.mem_cons_self _ _))]
      exact hagree q hq (fun hm => hqn (List.mem_cons_of_mem _ (List.mem_append.mpr
        (Or.inl (List.mem_append.mpr (Or.inr hm))))))
    have hftP : ∀ f ∈ cpid :: (ftL ++ ftA ++ (ftB ++ ftR)),
        f ∈ (cpid :: (ftL ++ ftC ++ ftR)) ∨ ¬ f < (t.alloc : Int) := by
      intro f hf
      rcases List.mem_cons.mp hf with rfl | hf'
      · exact Or.inl (List.mem_cons_self _ _)
      · exact hfFull f hf'
    obtain ⟨ftF, hfin⟩ := hfill
      (show (t1.setPage cpid (.internal cpar t.internalMax
        (left ++ (ek, pid) :: (key, newId) :: right))).leafMax = t.leafMax from hlm1)
      him1 (le_of_lt hal1) hroot1 hagreeP hdP2 hftP
    refine ⟨_, (hp + 1) + d, ftF, hrun, hlm1, him1, ?_⟩
    have hlists : (pre ++ kvsL) ++ kvsA ++ kvsB ++ (kvsR ++ post)
        = pre ++ (kvsL ++ kvsA ++ (kvsB ++ kvsR)) ++ post := by
      simp
    rw [hlists]
    exact hfin

/-- CLIMB: from a context for the split page and root-decodes of the two
halves in the updated tree, `insertIntoParent` succeeds and the final tree
decodes to the original sandwich with the two halves in the middle. -/
theorem ctx_climb {t : Tree} (him3 : 3 ≤ t.internalMax) {hp : Nat} {pid par : Int}
    {lo hi : Option Int} {rt : Bool} {pre post : List (Int × Nat)} {ftOld : List Int}
    {d : Nat} (hctx : Ctx t hp pid par lo hi rt pre post ftOld d) :
    ∀ {t1 : Tree} {key newId : Int} {kvsA : List (Int × Nat)} {ftA : List Int}
      {kvsB : List (Int × Nat)} {ftB : List Int} {fuel : Nat},
      t1.leafMax = t.leafMax → t1.internalMax = t.internalMax →
      t.alloc < t1.alloc → t1.root = t.root →
      (∀ q : Int, q < (t.alloc : Int) → q ∉ ftOld → t1.store q = t.store q) →
      decode t1 hp pid par lo (some key) false = some (kvsA, ftA) →
      decode t1 hp newId par (some key) hi false = some (kvsB, ftB) →
      ltLoB lo key = true → inHiB key hi = true →
      (∀ f ∈ ftA, f ∈ ftOld ∨ ¬ f < (t.alloc : Int)) →
      (∀ f ∈ ftB, f ∈ ftOld ∨ ¬ f < (t.alloc : Int)) →
      (ftA ++ ftB).Nodup →
      d + 1 ≤ fuel →
      ∃ (tF : Tree) (hF : Nat) (ftF : List Int),
        insertIntoParent t1 fuel pid key newId = some tF ∧
        tF.leafMax = t.leafMax ∧ tF.internalMax = t.internalMax ∧
        decode tF hF tF.root (-1) none none true
          = some (pre ++ kvsA ++ kvsB ++ post, ftF) := by
  induction hctx with
  | top hroot =>
    rename_i hp0 pidT ftOldT
    intro t1 key newId kvsA ftA kvsB ftB fuel hlm1 him1 hal1 hroot1 hagree hdA hdB
      hkeyLo hkeyHi hfA hfB hAB hfuel
    obtain ⟨f, rfl⟩ : ∃ f, fuel = f + 1 := ⟨fuel - 1, by omega⟩
    obtain ⟨oldN, hold, holdP⟩ := decode_store_parent hdA
    obtain ⟨newN0, hnew0, -⟩ := decode_store_parent hdB
    obtain ⟨restA, hrA⟩ := decode_feet_head hdA
    obtain ⟨restB, hrB⟩ := decode_feet_head hdB
    have hpidA : pidT ∈ ftA := by
      rw [hrA]
      exact List.mem_cons_self _ _
    have hnewB : newId ∈ ftB := by
      rw [hrB]
      exact List.mem_cons_self _ _
    have hdisj := (List.nodup_append.mp hAB).2.2
    have hne : newId ≠ pidT := by
      intro he
      rw [he] at hnewB
      exact hdisj hpidA hnewB
    have hrangeA := decode_feet_range hp0 hdA
    have hrangeB := decode_feet_range hp0 hdB
    have hT2new : (({ t1 with alloc := t1.alloc + 1 } : Tree).setPage pidT (oldN.setParent (t1.alloc : Int))).store newId = some newN0 := by
      rw [setPage_store_other _ hne]
      exact hnew0
    have hrun : insertIntoParent t1 (f + 1) pidT key newId = some ({ (((({ t1 with alloc := t1.alloc + 1 } : Tree).setPage pidT (oldN.setParent (t1.alloc : Int))).setPage newId (newN0.setParent (t1.alloc : Int))).setPage (t1.alloc : Int) (Node.internal (-1) t1.internalMax (populateNewRoot pidT key newId))) with root := (t1.alloc : Int) } : Tree) := by
      unfold insertIntoParent
      rw [hold]
      simp only
      rw [if_pos holdP]
      rw [hT2new]
    have hstep1 : decode ({ t1 with alloc := t1.alloc + 1 } : Tree) hp0 pidT (-1) none (some key) false
        = some (kvsA, ftA) := by
      refine decode_mono ?_ ?_ ?_ hp0 hdA (fun q hq => rfl)
      · rfl
      · rfl
      · exact Nat.le_succ _
    have hstep2 : decode (({ t1 with alloc := t1.alloc + 1 } : Tree).setPage pidT (oldN.setParent (t1.alloc : Int))) hp0 pidT (t1.alloc : Int) none (some key) false
        = some (kvsA, ftA) := decode_setParent (t1.alloc : Int) hstep1 hold
    have hstA : decode (((({ t1 with alloc := t1.alloc + 1 } : Tree).setPage pidT (oldN.setParent (t1.alloc : Int))).setPage newId (newN0.setParent (t1.alloc : Int))).setPage (t1.alloc : Int) (Node.internal (-1) t1.internalMax (populateNewRoot pidT key newId))) hp0 pidT (t1.alloc : Int) none (some key) false
        = some (kvsA, ftA) := by
      refine decode_mono ?_ ?_ ?_ hp0 hstep2 (fun q hq => ?_)
      · rfl
      · rfl
      · exact le_refl _
      · rw [setPage_store_other _ (fun he => by
          have h6 := (hrangeA _ hq).2
          rw [he] at h6
          omega)]
        exact setPage_store_other _ (fun he => by
          rw [he] at hq
          exact hdisj hq hnewB)
    have hstep1B : decode ({ t1 with alloc := t1.alloc + 1 } : Tree) hp0 newId (-1) (some key) none false
        = some (kvsB, ftB) := by
      refine decode_mono ?_ ?_ ?_ hp0 hdB (fun q hq => rfl)
      · rfl
      · rfl
      · exact Nat.le_succ _
    have hstep2B : decode (({ t1 with alloc := t1.alloc + 1 } : Tree).setPage pidT (oldN.setParent (t1.alloc : Int))) hp0 newId (-1) (some key) none false
        = some (kvsB, ftB) := by
      refine decode_mono ?_ ?_ ?_ hp0 hstep1B (fun q hq => ?_)
      · rfl
      · rfl
      · exact le_refl _
      · exact setPage_store_other _ (fun he => by
          rw [he] at hq
          exact hdisj hpidA hq)
    have hstep3B : decode ((({ t1 with alloc := t1.alloc + 1 } : Tree).setPage pidT (oldN.setParent (t1.alloc : Int))).setPage newId (newN0.setParent (t1.alloc : Int))) hp0 newId (t1.alloc : Int) (some key) none false
        = some (kvsB, ftB) := decode_setParent (t1.alloc : Int) hstep2B hT2new
    have hstB : decode (((({ t1 with alloc := t1.alloc + 1 } : Tree).setPage pidT (oldN.setParent (t1.alloc : Int))).setPage newId (newN0.setParent (t1.alloc : Int))).setPage (t1.alloc : Int) (Node.internal (-1) t1.internalMax (populateNewRoot pidT key newId))) hp0 newId (t1.alloc : Int) (some key) none false
        = some (kvsB, ftB) := by
      refine decode_mono ?_ ?_ ?_ hp0 hstep3B (fun q hq => ?_)
      · rfl
      · rfl
      · exact le_refl _
      · exact setPage_store_other _ (fun he => by
          have h6 := (hrangeB _ hq).2
          rw [he] at h6
          omega)
    have hinner : decodeKids (fun c lo' hi' => decode (((({ t1 with alloc := t1.alloc + 1 } : Tree).setPage pidT (oldN.setParent (t1.alloc : Int))).setPage newId (newN0.setParent (t1.alloc : Int))).setPage (t1.alloc : Int) (Node.internal (-1) t1.internalMax (populateNewRoot pidT key newId))) hp0 c (t1.alloc : Int) lo' hi' false)
        none (some key) ([] ++ (key, newId) :: [])
        = some ([] ++ kvsB ++ [], [] ++ ftB ++ []) :=
      kids_split3_intro rfl hstB rfl
    have hkids : decodeKids (fun c lo' hi' => decode (((({ t1 with alloc := t1.alloc + 1 } : Tree).setPage pidT (oldN.setParent (t1.alloc : Int))).setPage newId (newN0.setParent (t1.alloc : Int))).setPage (t1.alloc : Int) (Node.internal (-1) t1.internalMax (populateNewRoot pidT key newId))) hp0 c (t1.alloc : Int) lo' hi' false)
        none none ([] ++ ((0 : Int), pidT) :: [(key, newId)])
        = some ([] ++ kvsA ++ ([] ++ kvsB ++ []), [] ++ ftA ++ ([] ++ ftB ++ [])) :=
      kids_split3_intro rfl hstA hinner
    simp only [List.nil_append, List.append_nil] at hkids
    have hndF : ((t1.alloc : Int) :: (ftA ++ ftB)).Nodup := by
      refine List.nodup_cons.mpr ⟨fun hm => ?_, hAB⟩
      rcases List.mem_append.mp hm with h5 | h5
      · have h6 := (hrangeA _ h5).2
        omega
      · have h6 := (hrangeB _ h5).2
        omega
    have hsF : (((({ t1 with alloc := t1.alloc + 1 } : Tree).setPage pidT (oldN.setParent (t1.alloc : Int))).setPage newId (newN0.setParent (t1.alloc : Int))).setPage (t1.alloc : Int) (Node.internal (-1) t1.internalMax (populateNewRoot pidT key newId))).store (t1.alloc : Int)
        = some (Node.internal (-1) t1.internalMax [((0 : Int), pidT), (key, newId)]) :=
      setPage_store_same _ _ _
    have hrootdec4 : decode (((({ t1 with alloc := t1.alloc + 1 } : Tree).setPage pidT (oldN.setParent (t1.alloc : Int))).setPage newId (newN0.setParent (t1.alloc : Int))).setPage (t1.alloc : Int) (Node.internal (-1) t1.internalMax (populateNewRoot pidT key newId))) (hp0 + 1) (t1.alloc : Int) (-1) none none true
        = some (kvsA ++ kvsB, (t1.alloc : Int) :: (ftA ++ ftB)) := by
      refine decode_succ_intro hsF hkids rfl ?_ ?_ (by simp) (by simp) ?_ ?_ hndF
      · exact_mod_cast Nat.zero_le _
      · show (t1.alloc : Int) < ((t1.alloc + 1 : Nat) : Int)
        exact_mod_cast Nat.lt_succ_self _
      · simp only [List.length_cons, List.length_nil]
        omega
      · rfl
    refine ⟨({ (((({ t1 with alloc := t1.alloc + 1 } : Tree).setPage pidT (oldN.setParent (t1.alloc : Int))).setPage newId (newN0.setParent (t1.alloc : Int))).setPage (t1.alloc : Int) (Node.internal (-1) t1.internalMax (populateNewRoot pidT key newId))) with root := (t1.alloc : Int) } : Tree), hp0 + 1, (t1.alloc : Int) :: (ftA ++ ftB), hrun, hlm1, him1, ?_⟩
    have hrootdec : decode ({ (((({ t1 with alloc := t1.alloc + 1 } : Tree).setPage pidT (oldN.setParent (t1.alloc : Int))).setPage newId (newN0.setParent (t1.alloc : Int))).setPage (t1.alloc : Int) (Node.internal (-1) t1.internalMax (populateNewRoot pidT key newId))) with root := (t1.alloc : Int) } : Tree) (hp0 + 1) (t1.alloc : Int) (-1) none none true
        = some (kvsA ++ kvsB, (t1.alloc : Int) :: (ftA ++ ftB)) := by
      refine decode_mono ?_ ?_ ?_ (hp0 + 1) hrootdec4 (fun q hq => rfl)
      · rfl
      · rfl
      · exact le_refl _
    show decode ({ (((({ t1 with alloc := t1.alloc + 1 } : Tree).setPage pidT (oldN.setParent (t1.alloc : Int))).setPage newId (newN0.setParent (t1.alloc : Int))).setPage (t1.alloc : Int) (Node.internal (-1) t1.internalMax (populateNewRoot pidT key newId))) with root := (t1.alloc : Int) } : Tree) (hp0 + 1) (t1.alloc : Int) (-1) none none true
      = some ([] ++ kvsA ++ kvsB ++ [], (t1.alloc : Int) :: (ftA ++ ftB))
    rw [show ([] ++ kvsA ++ kvsB ++ [] : List (Int × Nat)) = kvsA ++ kvsB from by simp]
    exact hrootdec
  | node hctxP hstore hL hC hR h0 ha hlow hhigh hseps hnd ih =>
    exact climb_node him3 ih (ctx_fill hctxP) hstore hL hC hR h0 ha hlow hhigh hseps hnd


/-- A duplicate-free list of integers inside `[0, n)` has at most `n`
elements. -/
theorem nodup_int_range_len {l : List Int} {n : Nat} (hnd : l.Nodup)
    (hr : ∀ q ∈ l, 0 ≤ q ∧ q < (n : Int)) : l.length ≤ n := by
  classical
  have hsub : l.toFinset ⊆ Finset.Ico (0 : Int) (n : Int) := by
    intro q hq
    rw [List.mem_toFinset] at hq
    rw [Finset.mem_Ico]
    exact hr q hq
  have hcard := Finset.card_le_card hsub
  rw [List.toFinset_card_of_nodup hnd] at hcard
  rw [Int.card_Ico] at hcard
  simpa using hcard

/-- The height of a decodable subtree is below the allocation counter. -/
theorem decode_height {t : Tree} {h : Nat} {pid par : Int} {lo hi : Option Int}
    {rt : Bool} {kvs : List (Int × Nat)} {ft : List Int}
    (hd : decode t h pid par lo hi rt = some (kvs, ft)) : h < t.alloc := by
  have h1 := decode_feet_len h hd
  have h2 := nodup_int_range_len (decode_feet_nodup h hd) (decode_feet_range h hd)
  omega


/-- `GetValue` finds a binding that the decoded contents contain. -/
theorem getValue_hit {t : Tree} {h : Nat} {k : Int} {v : Nat}
    {kvs : List (Int × Nat)} {ft : List Int}
    (hd : decode t h t.root (-1) none none true = some (kvs, ft))
    (hmem : (k, v) ∈ kvs) :
    t.getValue k = some (true, [v]) := by
  have hr0 : (0 : Int) ≤ t.root := (decode_pid_range hd).1
  have hrne : ¬ t.root = -1 := by
    intro he
    rw [he] at hr0
    omega
  obtain ⟨lid, lpar, llo, lhi, lrt, lkvs, pre2, post2, hctx, hld, hfind, hklo, hkhi, hiff⟩ :=
    descend_ctx h hd (Ctx.top rfl) rfl rfl
  have hh := decode_height hd
  have hfl : findLeafFrom t.store k false (t.alloc + 1) t.root = some lid :=
    hfind (t.alloc + 1) (by omega)
  obtain ⟨m, nxt, hs, -, hm, h0, ha, hlow, hhigh, hchain, hb⟩ := decode_zero_inv hld
  have hlk : leafLookup lkvs k = some v := lookup_of_mem hchain ((hiff v).mp hmem)
  unfold Tree.getValue
  rw [if_neg hrne]
  unfold Tree.findLeafPage
  rw [if_neg hrne]
  rw [hfl]
  simp only
  rw [hs]
  simp only
  rw [hlk]


/-- On a decodable tree without key `k`, `Insert` succeeds and the result
decodes with `(k, v)` among its contents. -/
theorem insert_decode {t : Tree} {h : Nat} {k : Int} {v : Nat}
    {kvs : List (Int × Nat)} {ft : List Int}
    (hlm2 : 2 ≤ t.leafMax) (him3 : 3 ≤ t.internalMax)
    (hd : decode t h t.root (-1) none none true = some (kvs, ft))
    (hmiss : ∀ w : Nat, (k, w) ∉ kvs) :
    ∃ (t2 : Tree) (h2 : Nat) (kvs2 : List (Int × Nat)) (ft2 : List Int),
      t.insert k v = some (true, t2) ∧
      t2.leafMax = t.leafMax ∧ t2.internalMax = t.internalMax ∧
      decode t2 h2 t2.root (-1) none none true = some (kvs2, ft2) ∧
      (k, v) ∈ kvs2 := by
  have hr0 : (0 : Int) ≤ t.root := (decode_pid_range hd).1
  have hrne : ¬ t.root = -1 := by
    intro he
    rw [he] at hr0
    omega
  obtain ⟨lid, lpar, llo, lhi, lrt, lkvs, pre2, post2, hctx, hld, hfind, hklo, hkhi, hiff⟩ :=
    descend_ctx h hd (Ctx.top rfl) rfl rfl
  have hh := decode_height hd
  have hflp : t.findLeafPage k false = some lid := by
    unfold Tree.findLeafPage
    rw [if_neg hrne]
    exact hfind (t.alloc + 1) (by omega)
  obtain ⟨m, nxt, hs, -, hm, h0, ha, hlow, hhigh, hchain, hb⟩ := decode_zero_inv hld
  have hknot : k ∉ lkvs.map Prod.fst := by
    intro hmk
    obtain ⟨kw, hkw, he⟩ := List.mem_map.mp hmk
    obtain ⟨k1, w⟩ := kw
    cases he
    exact hmiss w ((hiff w).mpr hkw)
  have hlkn : leafLookup lkvs k = none := lookup_eq_none hknot
  have hpw : List.Pairwise (· < ·) (lkvs.map Prod.fst) := chainLtB_iff_pairwise.mp hchain
  have hpw2 : List.Pairwise (· < ·) ((leafInsert lkvs k v).map Prod.fst) := leafInsert_pairwise v hpw hknot
  have hlen : (leafInsert lkvs k v).length = lkvs.length + 1 := leafInsert_length lkvs k v
  have hbnd2 : ∀ kv ∈ (leafInsert lkvs k v), inLoB llo kv.1 = true ∧ inHiB kv.1 lhi = true := by
    intro kv hkv
    rcases leafInsert_mem_inv hkv with rfl | hkv2
    · exact ⟨hklo, hkhi⟩
    · exact hb kv hkv2
  have hm2 : 2 ≤ m := by
    rw [hm]
    exact hlm2
  by_cases hsplit : m ≤ (leafInsert lkvs k v).length
  · -- the leaf splits
    have hkl : ((leafInsert lkvs k v).take (m / 2)).length = m / 2 := by
      rw [List.length_take]
      omega
    have hml : ((leafInsert lkvs k v).drop (m / 2)).length = (leafInsert lkvs k v).length - m / 2 := by
      rw [List.length_drop]
    have hkm : ((leafInsert lkvs k v).take (m / 2)) ++ ((leafInsert lkvs k v).drop (m / 2)) = (leafInsert lkvs k v) := List.take_append_drop _ _
    have hmvne : ((leafInsert lkvs k v).drop (m / 2)) ≠ [] := by
      intro he
      rw [he] at hml
      simp at hml
      omega
    rcases hmv : ((leafInsert lkvs k v).drop (m / 2)) with _ | ⟨⟨mk0, mv0⟩, mrest⟩
    · exact absurd hmv hmvne
    have hkpne : ((leafInsert lkvs k v).take (m / 2)) ≠ [] := by
      intro he
      rw [he] at hkl
      simp at hkl
      omega
    rcases hkp : ((leafInsert lkvs k v).take (m / 2)) with _ | ⟨⟨e0, w0⟩, krest⟩
    · exact absurd hkp hkpne
    have hsplitmap : (leafInsert lkvs k v).map Prod.fst = ((leafInsert lkvs k v).take (m / 2)).map Prod.fst ++ ((leafInsert lkvs k v).drop (m / 2)).map Prod.fst := by
      rw [← List.map_append, hkm]
    rw [hsplitmap] at hpw2
    obtain ⟨pwK, pwM, cross⟩ := List.pairwise_append.mp hpw2
    have hmk0 : mk0 ∈ ((leafInsert lkvs k v).drop (m / 2)).map Prod.fst := by
      rw [hmv]
      simp
    have hkeepmem : ∀ kv ∈ ((leafInsert lkvs k v).take (m / 2)), kv ∈ (leafInsert lkvs k v) := fun kv hkv =>
      (List.take_sublist _ _).subset hkv
    have hmovedmem : ∀ kv ∈ ((leafInsert lkvs k v).drop (m / 2)), kv ∈ (leafInsert lkvs k v) := fun kv hkv =>
      (List.drop_sublist _ _).subset hkv
    have hcast1 : ((t.alloc + 1 : Nat) : Int) = (t.alloc : Int) + 1 := by
      push_cast
      ring
    have hdA : decode ((({ t with alloc := t.alloc + 1 } : Tree).setPage (t.alloc : Int) (Node.leaf lpar t.leafMax ((leafInsert lkvs k v).drop (m / 2)) nxt)).setPage lid (Node.leaf lpar m ((leafInsert lkvs k v).take (m / 2)) (t.alloc : Int))) 0 lid lpar llo (some mk0) false = some (((leafInsert lkvs k v).take (m / 2)), [lid]) := by
      refine decode_zero_intro (setPage_store_same _ _ _) hm h0 ?_ ?_ ?_
        (chainLtB_iff_pairwise.mpr pwK) ?_
      · show lid < ((t.alloc + 1 : Nat) : Int)
        omega
      · simp only [Bool.false_eq_true, if_false]
        rw [hkl]
      · rw [hkl]
        omega
      · intro kv hkv
        refine ⟨(hbnd2 kv (hkeepmem kv hkv)).1, ?_⟩
        rw [inHiB_some]
        exact cross kv.1 (List.mem_map.mpr ⟨kv, hkv, rfl⟩) mk0 hmk0
    have hnidlid : (t.alloc : Int) ≠ lid := by
      intro he
      rw [← he] at ha
      omega
    have hsB : ((({ t with alloc := t.alloc + 1 } : Tree).setPage (t.alloc : Int) (Node.leaf lpar t.leafMax ((leafInsert lkvs k v).drop (m / 2)) nxt)).setPage lid (Node.leaf lpar m ((leafInsert lkvs k v).take (m / 2)) (t.alloc : Int))).store (t.alloc : Int) = some (Node.leaf lpar t.leafMax ((leafInsert lkvs k v).drop (m / 2)) nxt) := by
      rw [setPage_store_other _ hnidlid]
      exact setPage_store_same _ _ _
    have hdB : decode ((({ t with alloc := t.alloc + 1 } : Tree).setPage (t.alloc : Int) (Node.leaf lpar t.leafMax ((leafInsert lkvs k v).drop (m / 2)) nxt)).setPage lid (Node.leaf lpar m ((leafInsert lkvs k v).take (m / 2)) (t.alloc : Int))) 0 (t.alloc : Int) lpar (some mk0) lhi false = some (((leafInsert lkvs k v).drop (m / 2)), [(t.alloc : Int)]) := by
      refine decode_zero_intro hsB rfl ?_ ?_ ?_ ?_ (chainLtB_iff_pairwise.mpr pwM) ?_
      · exact_mod_cast Nat.zero_le _
      · show (t.alloc : Int) < ((t.alloc + 1 : Nat) : Int)
        omega
      · simp only [Bool.false_eq_true, if_false]
        rw [hml]
        rw [← hm]
        omega
      · rw [hml]
        rw [← hm]
        omega
      · intro kv hkv
        refine ⟨?_, (hbnd2 kv (hmovedmem kv hkv)).2⟩
        rw [inLoB_some]
        rw [hmv] at hkv
        rcases List.mem_cons.mp hkv with he | hkv2
        · rw [he]
        · rw [hmv] at pwM
          simp only [List.map_cons, List.pairwise_cons] at pwM
          exact le_of_lt (pwM.1 kv.1 (List.mem_map.mpr ⟨kv, hkv2, rfl⟩))
    have hkeyLo : ltLoB llo mk0 = true := by
      cases llo with
      | none => rfl
      | some a =>
        rw [ltLoB_some]
        have h9 : (a : Int) ≤ e0 := by
          have h10 := (hbnd2 (e0, w0) (hkeepmem _ (by
            rw [hkp]
            exact List.mem_cons_self _ _))).1
          rw [inLoB_some] at h10
          exact h10
        have h11 : e0 < mk0 := cross e0 (by
          rw [hkp]
          simp) mk0 hmk0
        omega
    have hkeyHi : inHiB mk0 lhi = true :=
      (hbnd2 (mk0, mv0) (hmovedmem _ (by
        rw [hmv]
        exact List.mem_cons_self _ _))).2
    have hagree : ∀ q : Int, q < (t.alloc : Int) → q ∉ [lid] →
        ((({ t with alloc := t.alloc + 1 } : Tree).setPage (t.alloc : Int) (Node.leaf lpar t.leafMax ((leafInsert lkvs k v).drop (m / 2)) nxt)).setPage lid (Node.leaf lpar m ((leafInsert lkvs k v).take (m / 2)) (t.alloc : Int))).store q = t.store q := by
      intro q hq hqn
      rw [setPage_store_other _ (fun he => hqn (by
        rw [he]
        exact List.mem_cons_self _ _))]
      rw [setPage_store_other _ (fun he => by
        rw [he] at hq
        omega)]
    obtain ⟨tF, hF, ftF, hrun, hcf1, hcf2, hdecF⟩ := ctx_climb him3 hctx
      (show ((({ t with alloc := t.alloc + 1 } : Tree).setPage (t.alloc : Int) (Node.leaf lpar t.leafMax ((leafInsert lkvs k v).drop (m / 2)) nxt)).setPage lid (Node.leaf lpar m ((leafInsert lkvs k v).take (m / 2)) (t.alloc : Int))).leafMax = t.leafMax from rfl) rfl (Nat.lt_succ_self _) rfl hagree hdA hdB
      hkeyLo hkeyHi (fun f hf => Or.inl hf)
      (fun f hf => by
        rcases List.mem_singleton.mp hf with rfl
        exact Or.inr (by omega))
      (by
        simp only [List.cons_append, List.nil_append]
        refine List.nodup_cons.mpr ⟨?_, List.nodup_cons.mpr ⟨List.not_mem_nil _, List.nodup_nil⟩⟩
        simp only [List.mem_singleton]
        omega)
      (show (0 + h) + 1 ≤ t.alloc + 1 from by omega)
    refine ⟨tF, hF, pre2 ++ ((leafInsert lkvs k v).take (m / 2)) ++ ((leafInsert lkvs k v).drop (m / 2)) ++ post2, ftF, ?_, hcf1, hcf2, hdecF, ?_⟩
    · unfold Tree.insert
      rw [if_neg hrne]
      unfold insertIntoLeaf
      rw [hflp]
      simp only
      rw [hs]
      simp only
      rw [if_neg (by rw [hlkn]; simp)]
      rw [if_pos hsplit]
      rw [show (((leafInsert lkvs k v).drop (m / 2)).headD (0, 0)).1 = mk0 from by rw [hmv]; rfl]
      rw [hrun]
    · have hin : (k, v) ∈ (leafInsert lkvs k v) := leafInsert_self_mem lkvs k v
      rw [← hkm] at hin
      rcases List.mem_append.mp hin with h9 | h9
      · exact List.mem_append.mpr (Or.inl (List.mem_append.mpr (Or.inl
          (List.mem_append.mpr (Or.inr h9)))))
      · exact List.mem_append.mpr (Or.inl (List.mem_append.mpr (Or.inr h9)))
  · -- the pair fits in the leaf
    have hd2 : decode (t.setPage lid (Node.leaf lpar m (leafInsert lkvs k v) nxt)) 0 lid lpar llo lhi lrt = some ((leafInsert lkvs k v), [lid]) := by
      refine decode_zero_intro (setPage_store_same _ _ _) hm h0 ha ?_ ?_
        (chainLtB_iff_pairwise.mpr hpw2) hbnd2
      · rw [hlen]
        cases lrt <;> simp only [Bool.false_eq_true, if_false, if_true] at hlow ⊢ <;> omega
      · have h9 : ¬ m ≤ lkvs.length + 1 := by
          rw [← hlen]
          exact hsplit
        rw [hlen]
        omega
    obtain ⟨ftF, hdF⟩ := ctx_fill hctx (show (t.setPage lid (Node.leaf lpar m (leafInsert lkvs k v) nxt)).leafMax = t.leafMax from rfl) rfl
      (le_refl _) rfl
      (fun q hq hqn => setPage_store_other _ (fun he => hqn (by
        rw [he]
        exact List.mem_cons_self _ _)))
      hd2 (fun f hf => Or.inl hf)
    refine ⟨(t.setPage lid (Node.leaf lpar m (leafInsert lkvs k v) nxt)), 0 + (0 + h), pre2 ++ (leafInsert lkvs k v) ++ post2, ftF, ?_, rfl, rfl, ?_, ?_⟩
    · unfold Tree.insert
      rw [if_neg hrne]
      unfold insertIntoLeaf
      rw [hflp]
      simp only
      rw [hs]
      simp only
      rw [if_neg (by rw [hlkn]; simp)]
      rw [if_neg hsplit]
    · exact hdF
    · exact List.mem_append.mpr (Or.inl (List.mem_append.mpr (Or.inr
        (leafInsert_self_mem lkvs k v))))


/-! ### Weak reachability for the post-`Remove` tree

`Coalesce` removes the parent entry with the corrupted
`BPlusTreeInternalPage::Remove`, so the strong decode need not survive a
merge.  `GetValue`'s behaviour only needs a weak invariant: every page
reachable through `internalLookup` exists, internal pages are nonempty, and
no reachable leaf binds the probed key. -/

/-- Collect the weak footprints of all children. -/
def kidsW (f : Int → Option (List Int)) : List (Int × Int) → Option (List Int)
  | [] => some []
  | e :: r =>
    match f e.2, kidsW f r with
    | some ft1, some ft2 => some (ft1 ++ ft2)
    | _, _ => none

/-- Weak reachability at exact height `h`: the subtree exists with uniform
depth, internal pages are nonempty, and no leaf stores a binding for `k`.
Returns the list of visited pages. -/
def reachW (s : Store) (k : Int) : Nat → Int → Option (List Int)
  | 0, pid =>
    match s pid with
    | some (.leaf _ _ kvs _) =>
      if kvs.all (fun e => decide (e.1 ≠ k)) then some [pid] else none
    | _ => none
  | h + 1, pid =>
    match s pid with
    | some (.internal _ _ kcs) =>
      if kcs.isEmpty then none
      else
        match kidsW (fun c => reachW s k h c) kcs with
        | some ftk => some (pid :: ftk)
        | none => none
    | _ => none

theorem kidsW_nil_inv {f : Int → Option (List Int)} {ft : List Int}
    (h : kidsW f [] = some ft) : ft = [] := by
  cases Option.some.inj h
  rfl

theorem kidsW_cons_inv {f : Int → Option (List Int)} {e : Int × Int}
    {r : List (Int × Int)} {ft : List Int} (h : kidsW f (e :: r) = some ft) :
    ∃ ft1 ft2, f e.2 = some ft1 ∧ kidsW f r = some ft2 ∧ ft = ft1 ++ ft2 := by
  unfold kidsW at h
  rcases h1 : f e.2 with _ | ft1 <;> rw [h1] at h
  · cases h
  rcases h2 : kidsW f r with _ | ft2 <;> rw [h2] at h
  · cases h
  cases Option.some.inj h
  exact ⟨ft1, ft2, rfl, rfl, rfl⟩

theorem kidsW_cons_intro {f : Int → Option (List Int)} {e : Int × Int}
    {r : List (Int × Int)} {ft1 ft2 : List Int} (h1 : f e.2 = some ft1)
    (h2 : kidsW f r = some ft2) : kidsW f (e :: r) = some (ft1 ++ ft2) := by
  unfold kidsW
  rw [h1, h2]

theorem kidsW_append_intro {f : Int → Option (List Int)} :
    ∀ {A B : List (Int × Int)} {fa fb : List Int},
      kidsW f A = some fa → kidsW f B = some fb → kidsW f (A ++ B) = some (fa ++ fb) := by
  intro A
  induction A with
  | nil =>
    intro B fa fb hA hB
    cases kidsW_nil_inv hA
    simpa using hB
  | cons e r ih =>
    intro B fa fb hA hB
    obtain ⟨ft1, ft2, h1, h2, rfl⟩ := kidsW_cons_inv hA
    rw [List.cons_append]
    rw [show ft1 ++ ft2 ++ fb = ft1 ++ (ft2 ++ fb) from by simp]
    exact kidsW_cons_intro h1 (ih h2 hB)

/-- Every entry of `kidsW`'s input has a reachable footprint inside the
output. -/
theorem kidsW_mem {f : Int → Option (List Int)} :
    ∀ {entries : List (Int × Int)} {ft : List Int}, kidsW f entries = some ft →
      ∀ e ∈ entries, ∃ fte, f e.2 = some fte ∧ ∀ q ∈ fte, q ∈ ft := by
  intro entries
  induction entries with
  | nil =>
    intro ft _ e he
    cases he
  | cons e0 r ih =>
    intro ft h e he
    obtain ⟨ft1, ft2, h1, h2, rfl⟩ := kidsW_cons_inv h
    rcases List.mem_cons.mp he with rfl | he'
    · exact ⟨ft1, h1, fun q hq => List.mem_append.mpr (Or.inl hq)⟩
    · obtain ⟨fte, hf, hsub⟩ := ih h2 e he'
      exact ⟨fte, hf, fun q hq => List.mem_append.mpr (Or.inr (hsub q hq))⟩

theorem reachW_zero_inv {s : Store} {k pid : Int} {ft : List Int}
    (h : reachW s k 0 pid = some ft) :
    ∃ par m kvs nxt, s pid = some (.leaf par m kvs nxt) ∧ ft = [pid] ∧
      ∀ w : Nat, (k, w) ∉ kvs := by
  unfold reachW at h
  rcases hs : s pid with _ | n <;> rw [hs] at h
  · cases h
  cases n with
  | internal p m kcs => cases h
  | leaf p m kvs nxt =>
    simp only at h
    split at h
    case isFalse => cases h
    case isTrue hg =>
      cases Option.some.inj h
      refine ⟨p, m, kvs, nxt, rfl, rfl, ?_⟩
      intro w hw
      rw [List.all_eq_true] at hg
      have := hg (k, w) hw
      simp at this

theorem reachW_zero_intro {s : Store} {k pid par : Int} {m : Nat}
    {kvs : List (Int × Nat)} {nxt : Int}
    (hs : s pid = some (.leaf par m kvs nxt)) (hfree : ∀ w : Nat, (k, w) ∉ kvs) :
    reachW s k 0 pid = some [pid] := by
  unfold reachW
  rw [hs]
  simp only
  rw [if_pos]
  rw [List.all_eq_true]
  intro e he
  simp only [decide_eq_true_eq]
  intro hek
  obtain ⟨e1, e2⟩ := e
  simp only at hek
  subst hek
  exact hfree e2 he

theorem reachW_succ_inv {s : Store} {k pid : Int} {h : Nat} {ft : List Int}
    (hr : reachW s k (h + 1) pid = some ft) :
    ∃ par m kcs ftk, s pid = some (.internal par m kcs) ∧ kcs ≠ [] ∧
      kidsW (fun c => reachW s k h c) kcs = some ftk ∧ ft = pid :: ftk := by
  unfold reachW at hr
  rcases hs : s pid with _ | n <;> rw [hs] at hr
  · cases hr
  cases n with
  | leaf p m kvs nxt => cases hr
  | internal p m kcs =>
    simp only at hr
    split at hr
    case isTrue hg => cases hr
    case isFalse hg =>
      rcases hk : kidsW (fun c => reachW s k h c) kcs with _ | ftk <;> rw [hk] at hr
      · cases hr
      cases Option.some.inj hr
      refine ⟨p, m, kcs, ftk, rfl, ?_, hk, rfl⟩
      intro he
      rw [he] at hg
      exact hg rfl

theorem reachW_succ_intro {s : Store} {k pid par : Int} {m : Nat} {h : Nat}
    {kcs : List (Int × Int)} {ftk : List Int}
    (hs : s pid = some (.internal par m kcs)) (hne : kcs ≠ [])
    (hk : kidsW (fun c => reachW s k h c) kcs = some ftk) :
    reachW s k (h + 1) pid = some (pid :: ftk) := by
  unfold reachW
  rw [hs]
  simp only
  rw [if_neg (by
    intro he
    exact hne (List.isEmpty_iff.mp he))]
  rw [hk]

/-- The head of a weak footprint is the subtree's page. -/
theorem reachW_head {s : Store} {k : Int} {h : Nat} {pid : Int} {ft : List Int}
    (hr : reachW s k h pid = some ft) : ∃ rest, ft = pid :: rest := by
  cases h with
  | zero =>
    obtain ⟨par, m, kvs, nxt, _, rfl, _⟩ := reachW_zero_inv hr
    exact ⟨[], rfl⟩
  | succ h =>
    obtain ⟨par, m, kcs, ftk, _, _, _, rfl⟩ := reachW_succ_inv hr
    exact ⟨ftk, rfl⟩

/-- Transfer `kidsW` between child decoders that agree on the visited
footprints. -/
theorem kidsW_congr {f g : Int → Option (List Int)} :
    ∀ {entries : List (Int × Int)} {ft : List Int},
      kidsW f entries = some ft →
      (∀ e ∈ entries, ∀ fte, f e.2 = some fte → (∀ q ∈ fte, q ∈ ft) → g e.2 = some fte) →
      kidsW g entries = some ft := by
  intro entries
  induction entries with
  | nil =>
    intro ft h _
    cases kidsW_nil_inv h
    rfl
  | cons e r ih =>
    intro ft h hget
    obtain ⟨ft1, ft2, h1, h2, rfl⟩ := kidsW_cons_inv h
    refine kidsW_cons_intro
      (hget e (List.mem_cons_self _ _) ft1 h1
        (fun q hq => List.mem_append.mpr (Or.inl hq)))
      (ih h2 (fun e9 he9 fte hf hsub => hget e9 (List.mem_cons_of_mem _ he9) fte hf
        (fun q hq => List.mem_append.mpr (Or.inr (hsub q hq)))))


/-- Weak reachability only reads pages inside its own footprint, up to
parent-pointer changes. -/
theorem reachW_congr {s s' : Store} {k : Int} :
    ∀ h {pid : Int} {ft : List Int},
      reachW s k h pid = some ft →
      (∀ q ∈ ft, s' q = s q ∨ ∃ n p, s q = some n ∧ s' q = some (n.setParent p)) →
      reachW s' k h pid = some ft := by
  intro h
  induction h with
  | zero =>
    intro pid ft hr hag
    obtain ⟨par, m, kvs, nxt, hs, rfl, hfree⟩ := reachW_zero_inv hr
    rcases hag pid (List.mem_cons_self _ _) with he | ⟨n, p, hn, hn'⟩
    · exact reachW_zero_intro (by rw [he]; exact hs) hfree
    · rw [hn] at hs
      cases Option.some.inj hs
      exact reachW_zero_intro (by rw [hn']; rfl) hfree
  | succ h ih =>
    intro pid ft hr hag
    obtain ⟨par, m, kcs, ftk, hs, hne, hk, rfl⟩ := reachW_succ_inv hr
    have hk' : kidsW (fun c => reachW s' k h c) kcs = some ftk :=
      kidsW_congr hk (fun e he fte hf hsub =>
        ih hf (fun q hq => hag q (List.mem_cons_of_mem _ (hsub q hq))))
    rcases hag pid (List.mem_cons_self _ _) with he | ⟨n, p, hn, hn'⟩
    · exact reachW_succ_intro (by rw [he]; exact hs) hne hk'
    · rw [hn] at hs
      cases Option.some.inj hs
      exact reachW_succ_intro (by rw [hn']; rfl) hne hk'


/-- `internalLookup` always answers with one of the page's children. -/
theorem internalLookup_go_mem (k : Int) :
    ∀ (r : List (Int × Int)) (prev : Int),
      internalLookup.go k prev r = prev ∨
      ∃ e ∈ r, internalLookup.go k prev r = e.2 := by
  intro r
  induction r with
  | nil => intro prev; exact Or.inl rfl
  | cons e r ih =>
    intro prev
    obtain ⟨ki, ci⟩ := e
    unfold internalLookup.go
    by_cases hk : k < ki
    · rw [if_pos hk]
      exact Or.inl rfl
    · rw [if_neg hk]
      rcases ih ci with h | ⟨e9, he9, h⟩
      · exact Or.inr ⟨(ki, ci), List.mem_cons_self _ _, h⟩
      · exact Or.inr ⟨e9, List.mem_cons_of_mem _ he9, h⟩

theorem internalLookup_mem {kcs : List (Int × Int)} (k : Int) (hne : kcs ≠ []) :
    ∃ e ∈ kcs, internalLookup kcs k = e.2 := by
  cases kcs with
  | nil => exact absurd rfl hne
  | cons e r =>
    unfold internalLookup
    rcases internalLookup_go_mem k r e.2 with h | ⟨e9, he9, h⟩
    · exact ⟨e, List.mem_cons_self _ _, h⟩
    · exact ⟨e9, List.mem_cons_of_mem _ he9, h⟩

/-- From a weakly reachable subtree, `findLeafFrom` lands on a leaf without
the probed key. -/
theorem reachW_findLeaf {s : Store} {k : Int} :
    ∀ h {pid : Int} {ft : List Int}, reachW s k h pid = some ft →
      ∀ fuel, h + 1 ≤ fuel →
        ∃ lid par m kvs nxt, findLeafFrom s k false fuel pid = some lid ∧
          s lid = some (.leaf par m kvs nxt) ∧ (∀ w : Nat, (k, w) ∉ kvs) := by
  intro h
  induction h with
  | zero =>
    intro pid ft hr fuel hfuel
    obtain ⟨f, rfl⟩ : ∃ f, fuel = f + 1 := ⟨fuel - 1, by omega⟩
    obtain ⟨par, m, kvs, nxt, hs, rfl, hfree⟩ := reachW_zero_inv hr
    refine ⟨pid, par, m, kvs, nxt, ?_, hs, hfree⟩
    unfold findLeafFrom
    rw [hs]
  | succ h ih =>
    intro pid ft hr fuel hfuel
    obtain ⟨f, rfl⟩ : ∃ f, fuel = f + 1 := ⟨fuel - 1, by omega⟩
    obtain ⟨par, m, kcs, ftk, hs, hne, hk, rfl⟩ := reachW_succ_inv hr
    obtain ⟨e, he, hlk⟩ := internalLookup_mem k hne
    obtain ⟨fte, hf, -⟩ := kidsW_mem hk e he
    obtain ⟨lid, lpar, lm, lkvs, lnxt, hfind, hsl, hfree⟩ := ih hf f (by omega)
    refine ⟨lid, lpar, lm, lkvs, lnxt, ?_, hsl, hfree⟩
    unfold findLeafFrom
    rw [hs]
    simp only [Bool.false_eq_true, if_false]
    rw [hlk]
    exact hfind

/-- `GetValue` misses on a tree whose weak invariant excludes the key. -/
theorem getValue_miss_reach {t : Tree} {k : Int} {h : Nat} {ft : List Int}
    (hr : reachW t.store k h t.root = some ft) (hfuel : h + 1 ≤ t.alloc + 1) :
    t.getValue k = some (false, []) := by
  by_cases hrne : t.root = -1
  · unfold Tree.getValue
    rw [if_pos hrne]
  · obtain ⟨lid, lpar, lm, lkvs, lnxt, hfind, hsl, hfree⟩ :=
      reachW_findLeaf h hr (t.alloc + 1) hfuel
    have hlkn : leafLookup lkvs k = none := by
      refine lookup_eq_none ?_
      intro hmk
      obtain ⟨kw, hkw, he⟩ := List.mem_map.mp hmk
      obtain ⟨k1, w⟩ := kw
      cases he
      exact hfree w hkw
    unfold Tree.getValue
    rw [if_neg hrne]
    unfold Tree.findLeafPage
    rw [if_neg hrne]
    rw [hfind]
    simp only
    rw [hsl]
    simp only
    rw [hlkn]

/-- Weak reachability of all children of a strongly decoded internal page. -/
theorem kids_reachW {t : Tree} {k : Int} {h : Nat} {pid : Int} {hi : Option Int}
    (hrec : ∀ c lo' hi' kvs' ft', decode t h c pid lo' hi' false = some (kvs', ft') →
      (∀ w : Nat, (k, w) ∉ kvs') → reachW t.store k h c = some ft') :
    ∀ {entries : List (Int × Int)} {lo : Option Int} {kvs : List (Int × Nat)} {ft : List Int},
      decodeKids (fun c lo' hi' => decode t h c pid lo' hi' false) hi lo entries
        = some (kvs, ft) →
      (∀ w : Nat, (k, w) ∉ kvs) →
      kidsW (fun c => reachW t.store k h c) entries = some ft := by
  intro entries
  induction entries with
  | nil =>
    intro lo kvs ft hk _
    cases kids_nil_inv hk
    rfl
  | cons e r ih =>
    intro lo kvs ft hk hfree
    obtain ⟨kvs1, ft1, kvs2, ft2, h1, h2, h3⟩ := kids_cons_inv hk
    obtain ⟨rfl, rfl⟩ : kvs = kvs1 ++ kvs2 ∧ ft = ft1 ++ ft2 := by
      cases h3
      exact ⟨rfl, rfl⟩
    refine kidsW_cons_intro
      (hrec e.2 lo (kidsUp hi r) kvs1 ft1 h1
        (fun w hw => hfree w (List.mem_append.mpr (Or.inl hw))))
      (ih h2 (fun w hw => hfree w (List.mem_append.mpr (Or.inr hw))))

/-- A strongly decoded, `k`-free subtree is weakly reachable with the same
footprint. -/
theorem decode_reachW {t : Tree} {k : Int} :
    ∀ h {pid par : Int} {lo hi : Option Int} {rt : Bool} {kvs : List (Int × Nat)}
      {ft : List Int}, decode t h pid par lo hi rt = some (kvs, ft) →
      (∀ w : Nat, (k, w) ∉ kvs) → reachW t.store k h pid = some ft := by
  intro h
  induction h with
  | zero =>
    intro pid par lo hi rt kvs ft hd hfree
    obtain ⟨m, nxt, hs, rfl, _⟩ := decode_zero_inv hd
    exact reachW_zero_intro hs hfree
  | succ h ih =>
    intro pid par lo hi rt kvs ft hd hfree
    obtain ⟨m, kcs, feet, hs, hk, rfl, _, _, _, hne, _⟩ := decode_succ_inv hd
    exact reachW_succ_intro hs hne
      (kids_reachW (fun c lo' hi' kvs' ft' hdc hfr => ih hdc hfr) hk hfree)


/-- `descend_ctx` plus `k`-freeness of the accumulated side contents: the key
can only live in the leaf the search reaches. -/
theorem descend_ctx_free {t : Tree} {k : Int} :
    ∀ (h : Nat) {pid par : Int} {lo hi : Option Int} {rt : Bool} {kvs : List (Int × Nat)}
      {ft : List Int} {pre post : List (Int × Nat)} {d : Nat},
      decode t h pid par lo hi rt = some (kvs, ft) →
      Ctx t h pid par lo hi rt pre post ft d →
      inLoB lo k = true → inHiB k hi = true →
      (∀ w : Nat, (k, w) ∉ pre) → (∀ w : Nat, (k, w) ∉ post) →
      ∃ (lid lpar : Int) (llo lhi : Option Int) (lrt : Bool) (lkvs : List (Int × Nat))
        (pre2 post2 : List (Int × Nat)),
        Ctx t 0 lid lpar llo lhi lrt pre2 post2 [lid] (d + h) ∧
        decode t 0 lid lpar llo lhi lrt = some (lkvs, [lid]) ∧
        (∀ fuel, h + 1 ≤ fuel → findLeafFrom t.store k false fuel pid = some lid) ∧
        inLoB llo k = true ∧ inHiB k lhi = true ∧
        (∀ v, (k, v) ∈ kvs ↔ (k, v) ∈ lkvs) ∧
        (∀ w : Nat, (k, w) ∉ pre2) ∧ (∀ w : Nat, (k, w) ∉ post2) := by
  intro h
  induction h with
  | zero =>
    intro pid par lo hi rt kvs ft pre post d hd hctx hklo hkhi hpreK hpostK
    obtain ⟨m, nxt, hs, rfl, _⟩ := decode_zero_inv hd
    refine ⟨pid, par, lo, hi, rt, kvs, pre, post, hctx, hd, ?_, hklo, hkhi,
      fun v => Iff.rfl, hpreK, hpostK⟩
    intro fuel hfuel
    obtain ⟨f, rfl⟩ : ∃ f, fuel = f + 1 := ⟨fuel - 1, by omega⟩
    unfold findLeafFrom
    rw [hs]
  | succ h ih =>
    intro pid par lo hi rt kvs ft pre post d hd hctx hklo hkhi hpreK hpostK
    obtain ⟨m, kcs, feet, hs, hk, rfl, hm, h0, ha, hne, hlow, hhigh, hseps, hnd⟩ :=
      decode_succ_inv hd
    subst hm
    obtain ⟨ek, left, right, kvsL, ftL, kvsC, ftC, kvsR, ftR, heq, hL, hC, hR, hclo,
      hchi, rfl, rfl, hiff⟩ := kids_find_split kcs lo kvs feet hk hseps hklo hkhi hne
    have hfreeL : ∀ w : Nat, (k, w) ∉ kvsL := by
      cases hleft : left with
      | nil =>
        intro w hw
        rw [hleft] at hL
        cases kids_nil_inv hL
        cases hw
      | cons l0 ll =>
        have hshape : kcs.tail.map Prod.fst
            = (left.tail.map Prod.fst) ++ ek :: (right.map Prod.fst) := by
          rw [heq, hleft]
          simp
        have hsepsL : sepsOkB lo (some ek) (left.tail.map Prod.fst) = true :=
          sepsOk_prefix (by rw [← hshape]; exact hseps)
        intro w hw
        have hb := kids_bounds (fun c lo' hi' kvs' ft' hdc => decode_bounds h hdc)
          left lo kvsL ftL hL hsepsL (k, w) hw
        have h9 : k < ek := by
          have := hb.2
          rwa [inHiB_some] at this
        have h10 : ek ≤ k := by
          rw [hleft] at hclo
          rw [show holeLo lo (l0 :: ll) ek = some ek from rfl] at hclo
          rwa [inLoB_some] at hclo
        omega
    have hfreeR : ∀ w : Nat, (k, w) ∉ kvsR := by
      cases hright : right with
      | nil =>
        intro w hw
        rw [hright] at hR
        cases kids_nil_inv hR
        cases hw
      | cons r0 rr =>
        have hsepsfull : sepsOkB lo hi (kcs.tail.map Prod.fst) = true := hseps
        have hsepsR : sepsOkB (some r0.1) hi (rr.map Prod.fst) = true := by
          cases hleft : left with
          | nil =>
            have hshape : kcs.tail.map Prod.fst = r0.1 :: (rr.map Prod.fst) := by
              rw [heq, hleft, hright]
              simp
            rw [hshape] at hsepsfull
            exact sepsOk_tail hsepsfull
          | cons l0 ll =>
            have hshape : kcs.tail.map Prod.fst
                = ((ll.map Prod.fst) ++ [ek]) ++ r0.1 :: (rr.map Prod.fst) := by
              rw [heq, hleft, hright]
              simp
            rw [hshape] at hsepsfull
            exact sepsOk_suffix _ hsepsfull
        intro w hw
        rw [hright] at hR
        have hb := kids_bounds (fun c lo' hi' kvs' ft' hdc => decode_bounds h hdc)
          (r0 :: rr) (kidsUp hi (r0 :: rr))
          kvsR ftR hR (by
            rw [show kidsUp hi (r0 :: rr) = some r0.1 from rfl]
            simpa using hsepsR) (k, w) hw
        have h9 : r0.1 ≤ k := by
          have := hb.1
          rw [show kidsUp hi (r0 :: rr) = some r0.1 from rfl] at this
          rwa [inLoB_some] at this
        have h10 : k < r0.1 := by
          rw [hright] at hchi
          rw [show kidsUp hi (r0 :: rr) = some r0.1 from rfl] at hchi
          rwa [inHiB_some] at hchi
        omega
    have hstore : t.store pid
        = some (.internal par t.internalMax (left ++ (ek, internalLookup kcs k) :: right)) := by
      rw [hs, ← heq]
    have hctx2 : Ctx t h (internalLookup kcs k) pid (holeLo lo left ek)
        (kidsUp hi right) false (pre ++ kvsL) (kvsR ++ post) ftC (d + 1) := by
      refine Ctx.node hctx hstore hL ⟨kvsC, hC⟩ hR h0 ha ?_ ?_ ?_ hnd
      · rw [← heq]
        exact hlow
      · rw [← heq]
        exact hhigh
      · rw [← heq]
        exact hseps
    obtain ⟨lid, lpar, llo, lhi, lrt, lkvs, pre2, post2, hctxL, hdL, hfind, hllo, lhhi,
      hiff2, hpre2, hpost2⟩ := ih hC hctx2 hclo hchi
      (fun w hw => by
        rcases List.mem_append.mp hw with h9 | h9
        · exact hpreK w h9
        · exact hfreeL w h9)
      (fun w hw => by
        rcases List.mem_append.mp hw with h9 | h9
        · exact hfreeR w h9
        · exact hpostK w h9)
    have harith : (d + 1) + h = d + (h + 1) := by omega
    rw [harith] at hctxL
    refine ⟨lid, lpar, llo, lhi, lrt, lkvs, pre2, post2, hctxL, hdL, ?_, hllo, lhhi,
      fun v => (hiff v).trans (hiff2 v), hpre2, hpost2⟩
    intro fuel hfuel
    obtain ⟨f, rfl⟩ : ∃ f, fuel = f + 1 := ⟨fuel - 1, by omega⟩
    unfold findLeafFrom
    rw [hs]
    simp only [Bool.false_eq_true, if_false]
    exact hfind f (by omega)


/-- FILL, weak version: replacing the context's subtree by any weakly
reachable subtree keeps the whole tree weakly reachable; new footprint
entries come from the replacement or from outside the old subtree. -/
theorem ctx_fillW {t : Tree} {k : Int} {hp : Nat} {pid par : Int} {lo hi : Option Int}
    {rt : Bool} {pre post : List (Int × Nat)} {ftOld : List Int} {d : Nat}
    (hctx : Ctx t hp pid par lo hi rt pre post ftOld d) :
    (∀ w : Nat, (k, w) ∉ pre) → (∀ w : Nat, (k, w) ∉ post) →
    ∀ {s' : Store} {ft2 : List Int},
      (∀ q : Int, q ∉ ftOld → s' q = t.store q) →
      reachW s' k hp pid = some ft2 →
      ∃ ftF, reachW s' k (hp + d) t.root = some ftF ∧
        ∀ f ∈ ftF, f ∈ ft2 ∨ f ∉ ftOld := by
  induction hctx with
  | top hroot =>
    intro hpreK hpostK s' ft2 hag hr
    refine ⟨ft2, ?_, fun f hf => Or.inl hf⟩
    rw [hroot]
    simpa using hr
  | node hctxP hstore hL hC hR h0 ha hlow hhigh hseps hnd ih =>
    rename_i hp cpid cpar clo chi crt pre post d ek pid left right kvsL ftL ftC kvsR ftR
    intro hpreK hpostK s' ft2 hag hr
    have hcnot : cpid ∉ ftL ++ ftC ++ ftR := (List.nodup_cons.mp hnd).1
    obtain ⟨hndLC, hndR, dLCR⟩ := List.nodup_append.mp (List.nodup_cons.mp hnd).2
    obtain ⟨hndL, hndC, dLC⟩ := List.nodup_append.mp hndLC
    have hfreeL : ∀ w : Nat, (k, w) ∉ kvsL := fun w hw =>
      hpreK w (List.mem_append.mpr (Or.inr hw))
    have hfreeR : ∀ w : Nat, (k, w) ∉ kvsR := fun w hw =>
      hpostK w (List.mem_append.mpr (Or.inl hw))
    have hLW : kidsW (fun c => reachW t.store k hp c) left = some ftL :=
      kids_reachW (fun c lo' hi' kvs' ft' hdc hfr => decode_reachW hp hdc hfr) hL hfreeL
    have hRW : kidsW (fun c => reachW t.store k hp c) right = some ftR :=
      kids_reachW (fun c lo' hi' kvs' ft' hdc hfr => decode_reachW hp hdc hfr) hR hfreeR
    have hLW2 : kidsW (fun c => reachW s' k hp c) left = some ftL :=
      kidsW_congr hLW (fun e he fte hf hsub =>
        reachW_congr hp hf (fun q hq => Or.inl (hag q (fun hm => dLC (hsub q hq) hm))))
    have hRW2 : kidsW (fun c => reachW s' k hp c) right = some ftR :=
      kidsW_congr hRW (fun e he fte hf hsub =>
        reachW_congr hp hf (fun q hq => Or.inl (hag q (fun hm =>
          dLCR (List.mem_append.mpr (Or.inr hm)) (hsub q hq)))))
    have hkidsW : kidsW (fun c => reachW s' k hp c) (left ++ (ek, pid) :: right)
        = some (ftL ++ (ft2 ++ ftR)) :=
      kidsW_append_intro hLW2 (kidsW_cons_intro hr hRW2)
    have hcnotC : cpid ∉ ftC := fun hm =>
      hcnot (List.mem_append.mpr (Or.inl (List.mem_append.mpr (Or.inr hm))))
    have hrP : reachW s' k (hp + 1) cpid = some (cpid :: (ftL ++ (ft2 ++ ftR))) :=
      reachW_succ_intro (by
        rw [hag cpid hcnotC]
        exact hstore) (by simp) hkidsW
    obtain ⟨ftF, hF, hsub⟩ := ih
      (fun w hw => hpreK w (List.mem_append.mpr (Or.inl hw)))
      (fun w hw => hpostK w (List.mem_append.mpr (Or.inr hw)))
      (fun q hq => hag q (fun hm => hq (List.mem_cons_of_mem _
        (List.mem_append.mpr (Or.inl (List.mem_append.mpr (Or.inr hm)))))))
      hrP
    have harith : (hp + 1) + d = hp + (d + 1) := by omega
    rw [harith] at hF
    refine ⟨ftF, hF, ?_⟩
    intro f hf
    rcases hsub f hf with h9 | h9
    · rcases List.mem_cons.mp h9 with rfl | h9'
      · exact Or.inr hcnotC
      · rcases List.mem_append.mp h9' with h10 | h10
        · exact Or.inr (fun hm => dLC h10 hm)
        · rcases List.mem_append.mp h10 with h11 | h11
          · exact Or.inl h11
          · exact Or.inr (fun hm => dLCR (List.mem_append.mpr (Or.inr hm)) h11)
    · exact Or.inr (fun hm => h9 (List.mem_cons_of_mem _
        (List.mem_append.mpr (Or.inl (List.mem_append.mpr (Or.inr hm))))))


/-- `KeyIndex` on a strictly ascending leaf that contains the key: the scan
stops exactly at the key's slot. -/
theorem leafKeyIndex_go_spec {k : Int} {v : Nat} :
    ∀ {kvs : List (Int × Nat)},
      List.Pairwise (· < ·) (kvs.map Prod.fst) → (k, v) ∈ kvs →
      ∀ i : Nat, ∃ j : Nat,
        leafKeyIndex.go k (i : Int) kvs = ((i + j : Nat) : Int) ∧
        (kvs.getD j (0, 0)).1 = k ∧
        (∀ w : Nat, (k, w) ∉ kvs.eraseIdx j) ∧
        (kvs.eraseIdx j).length + 1 = kvs.length := by
  intro kvs
  induction kvs with
  | nil =>
    intro _ hm
    cases hm
  | cons e r ih =>
    obtain ⟨a, b⟩ := e
    intro hp hm i
    simp only [List.map_cons, List.pairwise_cons] at hp
    by_cases hka : k ≤ a
    · have hhead : (k, v) = (a, b) := by
        rcases List.mem_cons.mp hm with he | hm2
        · exact he
        · exfalso
          have h9 := hp.1 k (List.mem_map.mpr ⟨(k, v), hm2, rfl⟩)
          omega
      obtain ⟨rfl, rfl⟩ := Prod.ext_iff.mp hhead
      refine ⟨0, ?_, rfl, ?_, by simp⟩
      · unfold leafKeyIndex.go
        rw [if_pos hka]
        simp
      · intro w hw
        rw [List.eraseIdx_cons_zero] at hw
        have h9 := hp.1 k (List.mem_map.mpr ⟨(k, w), hw, rfl⟩)
        omega
    · have hm2 : (k, v) ∈ r := by
        rcases List.mem_cons.mp hm with he | hm2
        · exfalso
          obtain ⟨rfl, rfl⟩ := Prod.ext_iff.mp he
          exact hka (le_refl _)
        · exact hm2
      obtain ⟨j, hgo, hget, hfree, hlen⟩ := ih hp.2 hm2 (i + 1)
      refine ⟨j + 1, ?_, ?_, ?_, ?_⟩
      · unfold leafKeyIndex.go
        rw [if_neg hka]
        rw [show ((i : Int) + 1) = ((i + 1 : Nat) : Int) from by push_cast; ring]
        rw [hgo]
        congr 1
        omega
      · rw [List.getD_cons_succ]
        exact hget
      · intro w hw
        rw [List.eraseIdx_cons_succ] at hw
        rcases List.mem_cons.mp hw with he | hw2
        · obtain ⟨rfl, rfl⟩ := Prod.ext_iff.mp he
          exact hka (le_refl _)
        · exact hfree w hw2
      · rw [List.eraseIdx_cons_succ]
        simp only [List.length_cons]
        omega

/-- `KeyIndex`, `Remove` at the found slot: the binding disappears, nothing
else does, and the index is valid. -/
theorem leafRemove_spec {k : Int} {v : Nat} {kvs : List (Int × Nat)}
    (hp : List.Pairwise (· < ·) (kvs.map Prod.fst)) (hm : (k, v) ∈ kvs) :
    ∃ j : Nat, leafKeyIndex kvs k = (j : Int) ∧
      (kvs.getD j (0, 0)).1 = k ∧
      (∀ w : Nat, (k, w) ∉ kvs.eraseIdx j) ∧
      (kvs.eraseIdx j).length + 1 = kvs.length := by
  obtain ⟨j, hgo, hget, hfree, hlen⟩ := leafKeyIndex_go_spec hp hm 0
  refine ⟨j, ?_, hget, hfree, hlen⟩
  unfold leafKeyIndex
  rw [show (0 : Int) = ((0 : Nat) : Int) from rfl]
  rw [hgo]
  simp

/-- `ValueIndex` scan arithmetic over a split list. -/
theorem valueIndex_go_split {pid : Int} :
    ∀ (left : List (Int × Int)) (ek : Int) (right : List (Int × Int)) (i : Int),
      pid ∉ left.map (fun e => e.2) →
      valueIndex.go pid i (left ++ (ek, pid) :: right) = i + left.length := by
  intro left
  induction left with
  | nil =>
    intro ek right i _
    unfold valueIndex.go
    simp
  | cons l0 ll ih =>
    intro ek right i hnot
    simp only [List.map_cons, List.mem_cons] at hnot
    push_neg at hnot
    rw [List.cons_append]
    unfold valueIndex.go
    rw [if_neg (fun he => hnot.1 he.symm)]
    rw [ih ek right (i + 1) hnot.2]
    simp only [List.length_cons]
    push_cast
    ring

theorem valueIndex_split {pid ek : Int} {left right : List (Int × Int)}
    (hnot : pid ∉ left.map (fun e => e.2)) :
    valueIndex (left ++ (ek, pid) :: right) pid = (left.length : Int) := by
  unfold valueIndex
  rw [valueIndex_go_split left ek right 0 hnot]
  ring

/-- The corrupted `Remove` dropping the page's final entry. -/
theorem internalRemove_last {left : List (Int × Int)} {e0 : Int × Int} :
    internalRemove (left ++ [e0]) left.length = left := by
  unfold internalRemove
  rw [if_neg (by
    simp only [List.length_append, List.length_cons, List.length_nil]
    omega)]
  rw [List.dropLast_concat]

/-- The corrupted `Remove` in the middle: the next entry is duplicated into
the removed slot and the final entry is dropped. -/
theorem internalRemove_mid {left : List (Int × Int)} {e0 r1 : Int × Int}
    {rrest : List (Int × Int)} :
    internalRemove (left ++ e0 :: r1 :: rrest) left.length
      = left ++ r1 :: (r1 :: rrest).dropLast := by
  unfold internalRemove
  rw [if_pos (by
    simp only [List.length_append, List.length_cons]
    omega)]
  congr 1
  · rw [List.take_left]
  · congr 1
    · rw [List.getD_eq_getElem?_getD]
      rw [List.getElem?_append_right (by omega)]
      simp
    · rw [show left.length + 1 = (left ++ [e0]).length from by simp]
      rw [show left ++ e0 :: r1 :: rrest = (left ++ [e0]) ++ r1 :: rrest from by simp]
      rw [List.drop_left]


theorem kidsW_append_inv {f : Int → Option (List Int)} :
    ∀ {A B : List (Int × Int)} {ft : List Int}, kidsW f (A ++ B) = some ft →
      ∃ fa fb, kidsW f A = some fa ∧ kidsW f B = some fb ∧ ft = fa ++ fb := by
  intro A
  induction A with
  | nil =>
    intro B ft h
    exact ⟨[], ft, rfl, h, rfl⟩
  | cons e r ih =>
    intro B ft h
    rw [List.cons_append] at h
    obtain ⟨ft1, ft2, h1, h2, rfl⟩ := kidsW_cons_inv h
    obtain ⟨fa, fb, ha, hb, rfl⟩ := ih h2
    exact ⟨ft1 ++ fa, fb, kidsW_cons_intro h1 ha, hb, by simp⟩

/-- `kidsW` only looks at the children components. -/
theorem kidsW_map_eq {f : Int → Option (List Int)} :
    ∀ {A B : List (Int × Int)}, A.map (fun e => e.2) = B.map (fun e => e.2) →
      kidsW f A = kidsW f B := by
  intro A
  induction A with
  | nil =>
    intro B h
    cases B with
    | nil => rfl
    | cons b bb => cases h
  | cons a aa ih =>
    intro B h
    cases B with
    | nil => cases h
    | cons b bb =>
      simp only [List.map_cons, List.cons.injEq] at h
      show (match f a.2, kidsW f aa with
        | some ft1, some ft2 => some (ft1 ++ ft2)
        | _, _ => none)
        = (match f b.2, kidsW f bb with
        | some ft1, some ft2 => some (ft1 ++ ft2)
        | _, _ => none)
      rw [h.1, ih h.2]

theorem setKeyAt_map_snd :
    ∀ (kcs : List (Int × Int)) (i : Nat) (k : Int),
      (setKeyAt kcs i k).map (fun e => e.2) = kcs.map (fun e => e.2) := by
  intro kcs
  induction kcs with
  | nil => intro i kk; rfl
  | cons e r ih =>
    intro i kk
    cases i with
    | zero =>
      unfold setKeyAt
      simp
    | succ j =>
      unfold setKeyAt
      simp only [List.getD_cons_succ, List.set_cons_succ, List.map_cons]
      have h9 := ih j kk
      unfold setKeyAt at h9
      rw [h9]

/-- Run `afterParent` when the parent does not underflow. -/
theorem afterParent_run_norec {recurse : Tree → Int → Option (Tree × List Int)}
    {t2 : Tree} {parentId del : Int} {index : Nat}
    {qp : Int} {qm : Nat} {qkcs : List (Int × Int)}
    (hq : t2.store parentId = some (.internal qp qm qkcs))
    (hug : ¬ (internalRemove qkcs index).length < qm / 2) :
    (match t2.store parentId with
      | some (.internal qp qm qkcs) =>
        let qkcs' := internalRemove qkcs index
        let tP := t2.setPage parentId (.internal qp qm qkcs')
        if qkcs'.length < qm / 2 then
          match recurse tP parentId with
          | none => none
          | some (t3, ds) => some (t3, del :: ds)
        else some (tP, [del])
      | _ => none)
      = some (t2.setPage parentId (.internal qp qm (internalRemove qkcs index)), [del]) := by
  rw [hq]
  simp only
  rw [if_neg hug]

/-- Run `afterParent` when the parent underflows and the recursion succeeds. -/
theorem afterParent_run_rec {recurse : Tree → Int → Option (Tree × List Int)}
    {t2 : Tree} {parentId del : Int} {index : Nat}
    {qp : Int} {qm : Nat} {qkcs : List (Int × Int)} {t3 : Tree} {ds : List Int}
    (hq : t2.store parentId = some (.internal qp qm qkcs))
    (hug : (internalRemove qkcs index).length < qm / 2)
    (hr : recurse (t2.setPage parentId (.internal qp qm (internalRemove qkcs index)))
      parentId = some (t3, ds)) :
    (match t2.store parentId with
      | some (.internal qp qm qkcs) =>
        let qkcs' := internalRemove qkcs index
        let tP := t2.setPage parentId (.internal qp qm qkcs')
        if qkcs'.length < qm / 2 then
          match recurse tP parentId with
          | none => none
          | some (t3, ds) => some (t3, del :: ds)
        else some (tP, [del])
      | _ => none)
      = some (t3, del :: ds) := by
  rw [hq]
  simp only
  rw [if_pos hug]
  rw [hr]


/-- The parent step shared by all merge variants: remove the separator entry
with the faulty `Remove`, then either stop (fill back into the root) or
recurse on the underflowing parent (climb). -/
theorem parentStep_reach {t : Tree} {k : Int}
    {hp dP : Nat} {cpid cpar : Int} {ftOldPar : List Int} {fuel : Nat}
    {pkcs : List (Int × Int)}
    (hrec : ∀ {t1 : Tree} {n1 : Node} {ftP : List Int},
      t1.leafMax = t.leafMax → t1.internalMax = t.internalMax →
      t1.alloc = t.alloc → t1.root = t.root →
      (∀ q : Int, q ∉ ftOldPar → t1.store q = t.store q) →
      t1.store cpid = some n1 → n1.parentOf = cpar →
      n1.maxSizeOf = t.internalMax →
      n1.size < t.internalMax / 2 →
      reachW t1.store k (hp + 1) cpid = some (cpid :: ftP) →
      (∀ f ∈ ftP, f ∈ ftOldPar ∧ f ≠ cpid) →
      ∃ (t2 : Tree) (dels : List Int),
        coalesceOrRedistribute fuel t1 cpid = some (t2, dels) ∧
        t2.leafMax = t.leafMax ∧ t2.internalMax = t.internalMax ∧ t2.alloc = t.alloc ∧
        ∃ (hF : Nat) (ftF : List Int),
          (reachW t2.store k hF t2.root = some ftF ∨ (t2.root = -1 ∧ ftF = [])) ∧
          hF + 1 ≤ (hp + 1) + dP + 1 ∧
          (∀ dd ∈ dels, dd ∉ ftF) ∧
          (∀ f ∈ ftF, f ∈ (cpid :: ftP) ∨ f ∉ ftOldPar))
    (hfill : ∀ {s' : Store} {ft2 : List Int},
      (∀ q : Int, q ∉ ftOldPar → s' q = t.store q) →
      reachW s' k (hp + 1) cpid = some ft2 →
      ∃ ftF, reachW s' k ((hp + 1) + dP) t.root = some ftF ∧
        ∀ f ∈ ftF, f ∈ ft2 ∨ f ∉ ftOldPar)
    {t2' : Tree} {index : Nat} {del : Int} {ftK : List Int}
    (hlm : t2'.leafMax = t.leafMax) (him : t2'.internalMax = t.internalMax)
    (hal : t2'.alloc = t.alloc) (hrt : t2'.root = t.root)
    (hag : ∀ q : Int, q ∉ ftOldPar → t2'.store q = t.store q)
    (hq : t2'.store cpid = some (.internal cpar t.internalMax pkcs))
    (hcin : cpid ∈ ftOldPar)
    (hqne : internalRemove pkcs index ≠ [])
    (hkids : kidsW (fun c => reachW t2'.store k hp c) (internalRemove pkcs index)
      = some ftK)
    (hftK : ∀ f ∈ ftK, f ∈ ftOldPar ∧ f ≠ cpid)
    (hdelK : del ∉ ftK) (hdelc : del ≠ cpid) (hdelOld : del ∈ ftOldPar) :
    ∃ (t'' : Tree) (dels2 : List Int),
      (match t2'.store cpid with
        | some (.internal qp qm qkcs) =>
          let qkcs' := internalRemove qkcs index
          let tP := t2'.setPage cpid (.internal qp qm qkcs')
          if qkcs'.length < qm / 2 then
            match coalesceOrRedistribute fuel tP cpid with
            | none => none
            | some (t3, ds) => some (t3, del :: ds)
          else some (tP, [del])
        | _ => none) = some (t'', dels2) ∧
      t''.leafMax = t.leafMax ∧ t''.internalMax = t.internalMax ∧ t''.alloc = t.alloc ∧
      ∃ (hF : Nat) (ftF : List Int),
        (reachW t''.store k hF t''.root = some ftF ∨ (t''.root = -1 ∧ ftF = [])) ∧
        hF + 1 ≤ (hp + 1) + dP + 1 ∧
        (∀ dd ∈ dels2, dd ∉ ftF) ∧
        (∀ f ∈ ftF, f ∈ (cpid :: ftK) ∨ f ∉ ftOldPar) := by
  have hkidsTP : kidsW (fun c => reachW (t2'.setPage cpid
      (.internal cpar t.internalMax (internalRemove pkcs index))).store k hp c)
      (internalRemove pkcs index) = some ftK :=
    kidsW_congr hkids (fun e he fte hf hsub =>
      reachW_congr hp hf (fun q hq9 =>
        Or.inl (setPage_store_other _ (hftK q (hsub q hq9)).2)))
  have hreachTP : reachW (t2'.setPage cpid
      (.internal cpar t.internalMax (internalRemove pkcs index))).store k (hp + 1) cpid
      = some (cpid :: ftK) :=
    reachW_succ_intro (setPage_store_same _ _ _) hqne hkidsTP
  have hagTP : ∀ q : Int, q ∉ ftOldPar → (t2'.setPage cpid
      (.internal cpar t.internalMax (internalRemove pkcs index))).store q = t.store q := by
    intro q hq9
    rw [setPage_store_other _ (by intro he; exact hq9 (he ▸ hcin))]
    exact hag q hq9
  by_cases hug : (internalRemove pkcs index).length < t.internalMax / 2
  · obtain ⟨t3, ds, hrun3, hc1, hc2, hc3, hF, ftF, hreach3, hFb, hds, hprop⟩ :=
      hrec (show (t2'.setPage cpid (.internal cpar t.internalMax
          (internalRemove pkcs index))).leafMax = t.leafMax from hlm)
        him hal hrt hagTP (setPage_store_same _ _ _) rfl rfl hug hreachTP hftK
    refine ⟨t3, del :: ds, afterParent_run_rec hq hug hrun3, hc1, hc2, hc3,
      hF, ftF, hreach3, hFb, ?_, hprop⟩
    intro dd hdd
    rcases List.mem_cons.mp hdd with rfl | hdd'
    · intro hin
      rcases hprop dd hin with h9 | h9
      · rcases List.mem_cons.mp h9 with he | h10
        · exact hdelc he
        · exact hdelK h10
      · exact h9 hdelOld
    · exact hds dd hdd'
  · obtain ⟨ftF, hreachF, hprop⟩ := hfill hagTP hreachTP
    refine ⟨t2'.setPage cpid (.internal cpar t.internalMax (internalRemove pkcs index)),
      [del], afterParent_run_norec hq hug, hlm, him, hal, (hp + 1) + dP, ftF, ?_, by omega,
      ?_, hprop⟩
    · refine Or.inl ?_
      rw [show (t2'.setPage cpid (.internal cpar t.internalMax
        (internalRemove pkcs index))).root = t.root from hrt]
      exact hreachF
    · intro dd hdd
      rcases List.mem_cons.mp hdd with rfl | hdd'
      · intro hin
        rcases hprop dd hin with h9 | h9
        · rcases List.mem_cons.mp h9 with he | h10
          · exact hdelc he
          · exact hdelK h10
        · exact h9 hdelOld
      · cases hdd'

end Bustub
